import Mathlib

/-!
Verification of the tree data type of `cogent/core/tree.py` (PyCogent).

The Python classes `TreeNode`/`PhyloNode` are mutable objects.  Two shallow
embeddings are used here:

* an inductive tree `TNode` for the read-only algorithms (traversal orders,
  Newick rendering, bipartitions, tip-distance comparison, path distance,
  edge-name extraction, topology copying, the name-disambiguating builder):
  a node of the Python object graph is identified with the subtree hanging
  off it, and where object identity matters it is represented either by a
  numeric tag (`nid`) or by the node's path from the root;

* an explicit heap `Heap` of numbered records with parent back-references
  and child id-lists for the mutating structural edits
  (`_to_self_child`/`append`/`_set_parent`/`removeNode`/`removeDeleted`/
  `prune`), where Python's in-place mutation is explicit state passing.

Numeric branch lengths (Python floats) are modelled as rationals; the string
rendering of a length is abstracted as a parameter where it occurs.
-/

/-- Tree node of `cogent.core.tree`.  Fields, in order: an identity tag
(standing for Python object identity), `Name`, `NameLoaded`, the `params`
dictionary reduced to its reserved `"length"` key (the `PhyloNode.Length`
property, `None` when absent), and `Children`. -/
inductive TNode : Type where
  | mk : Nat → Option String → Bool → Option ℚ → List TNode → TNode

/-- Identity tag of a node. -/
def TNode.nid : TNode → Nat
  | .mk i _ _ _ _ => i

/-- Name of a node (`TreeNode.Name`). -/
def TNode.name : TNode → Option String
  | .mk _ nm _ _ _ => nm

/-- NameLoaded flag of a node (`TreeNode.NameLoaded`). -/
def TNode.nameLoaded : TNode → Bool
  | .mk _ _ nl _ _ => nl

/-- Branch length of a node (`PhyloNode.Length`, i.e. `params.get("length")`). -/
def TNode.length : TNode → Option ℚ
  | .mk _ _ _ ln _ => ln

/-- Children list of a node (`TreeNode.Children`). -/
def TNode.children : TNode → List TNode
  | .mk _ _ _ _ cs => cs

mutual

/-- Number of nodes in a subtree (a measure used for termination). -/
def tsize : TNode → Nat
  | .mk _ _ _ _ cs => 1 + tsizeL cs

/-- Number of nodes in a forest. -/
def tsizeL : List TNode → Nat
  | [] => 0
  | c :: cs => tsize c + tsizeL cs

end

/-- Stack loop of `TreeNode.preorder` (`include_self=True`): pop a node,
yield it, push its children (the source pushes `curr.Children[::-1]` onto a
lifo stack, which is the same as prepending the children in order). -/
def preAux : List TNode → List TNode
  | [] => []
  | .mk i nm nl ln cs :: stack => .mk i nm nl ln cs :: preAux (cs ++ stack)
termination_by l => tsizeL l
decreasing_by
  all_goals
    (have hap : ∀ (l2 l1 : List TNode), tsizeL (l1 ++ l2) = tsizeL l1 + tsizeL l2 := by
      intro l2 l1
      induction l1 with
      | nil =>
          show tsizeL l2 = tsizeL [] + tsizeL l2
          rw [show tsizeL ([] : List TNode) = 0 from rfl]
          omega
      | cons c l ih =>
          show tsizeL (c :: (l ++ l2)) = tsizeL (c :: l) + tsizeL l2
          rw [show tsizeL (c :: (l ++ l2)) = tsize c + tsizeL (l ++ l2) from rfl,
              show tsizeL (c :: l) = tsize c + tsizeL l from rfl, ih]
          omega
     simp only [tsizeL, tsize, hap]
     omega)

/-- Iteration order of `TreeNode.preorder(include_self=True)`. -/
def preorderL (t : TNode) : List TNode := preAux [t]

/-- Stack loop of `TreeNode.iterTips`: pop a node; if it has children push
them, otherwise yield it. -/
def tipsAux : List TNode → List TNode
  | [] => []
  | .mk i nm nl ln cs :: stack =>
      if cs.isEmpty then .mk i nm nl ln cs :: tipsAux stack
      else tipsAux (cs ++ stack)
termination_by l => tsizeL l
decreasing_by
  all_goals
    (have hap : ∀ (l2 l1 : List TNode), tsizeL (l1 ++ l2) = tsizeL l1 + tsizeL l2 := by
      intro l2 l1
      induction l1 with
      | nil =>
          show tsizeL l2 = tsizeL [] + tsizeL l2
          rw [show tsizeL ([] : List TNode) = 0 from rfl]
          omega
      | cons c l ih =>
          show tsizeL (c :: (l ++ l2)) = tsizeL (c :: l) + tsizeL l2
          rw [show tsizeL (c :: (l ++ l2)) = tsize c + tsizeL (l ++ l2) from rfl,
              show tsizeL (c :: l) = tsize c + tsizeL l from rfl, ih]
          omega
     simp only [tsizeL, tsize, hap]
     omega)

/-- Result of `TreeNode.tips()` (with the default `include_self=False`: a
tip node itself yields the empty list). -/
def tips (t : TNode) : List TNode :=
  if t.children.isEmpty then [] else tipsAux [t]

/-- Loop of `TreeNode.postorder` (`include_self=True`).  The source keeps an
explicit per-level child-index stack and walks `curr = curr.Parent` when a
level is exhausted; here a stack entry is the pair of a node and its not yet
processed children (the node's index-stack entry), and the parent pointer is
the next stack entry. -/
def postAux : List (TNode × List TNode) → List TNode
  | [] => []
  | (t, []) :: rest => t :: postAux rest
  | (t, .mk i nm nl ln cc :: cs) :: rest =>
      if cc.isEmpty then .mk i nm nl ln cc :: postAux ((t, cs) :: rest)
      else postAux ((.mk i nm nl ln cc, cc) :: (t, cs) :: rest)
termination_by l => 2 * (l.map (fun p => tsizeL p.2)).sum + l.length
decreasing_by
  all_goals
    (simp only [List.map_cons, List.sum_cons, List.length_cons, tsizeL, tsize]
     omega)

/-- Iteration order of `TreeNode.postorder(include_self=True)`. -/
def postorderL (t : TNode) : List TNode := postAux [(t, t.children)]

/-- Loop of `TreeNode.pre_and_postorder` (`include_self=True`): a node with
children is yielded when it first reaches the top of the stack with child
index `0` (rendered here as: at push time and for the initial node), and
again when its children are exhausted; a tip child is yielded once in
passing. -/
def prePostAux : List (TNode × List TNode) → List TNode
  | [] => []
  | (t, []) :: rest => t :: prePostAux rest
  | (t, .mk i nm nl ln cc :: cs) :: rest =>
      if cc.isEmpty then .mk i nm nl ln cc :: prePostAux ((t, cs) :: rest)
      else .mk i nm nl ln cc :: prePostAux ((.mk i nm nl ln cc, cc) :: (t, cs) :: rest)
termination_by l => 2 * (l.map (fun p => tsizeL p.2)).sum + l.length
decreasing_by
  all_goals
    (simp only [List.map_cons, List.sum_cons, List.length_cons, tsizeL, tsize]
     omega)

/-- Iteration order of `TreeNode.pre_and_postorder(include_self=True)`; the
source handles a childless start node separately, yielding it once. -/
def prePostL (t : TNode) : List TNode :=
  if t.children.isEmpty then [t] else t :: prePostAux [(t, t.children)]

/-- Identity tags of all nodes of a subtree, in preorder. -/
def ids (t : TNode) : List Nat := (preorderL t).map TNode.nid

/-- Single-quote character, written by code point to keep the file free of
quote literals. -/
def qc : Char := Char.ofNat 39

/-- Result of Python `name.replace(" ", "_")` (the pattern is a single
character, so the replacement is a character map). -/
def underscoreSpaces (s : String) : String :=
  String.mk (s.data.map (fun c => if c = ' ' then '_' else c))

/-- Result of Python `name.replace(qc, qc ++ qc)`: every single-quote
character is doubled. -/
def doubleQuoteChars (s : String) : String :=
  String.mk (s.data.flatMap (fun c => if c = qc then [qc, qc] else [c]))

/-- Characters of the regular expression character class in
`TreeNode.getNewick`, `re.search("[](...)[...]", name)`: the literal class is
right bracket, left bracket, single quote, double quote, parentheses, comma,
colon, semicolon, underscore.  A space is not in the class. -/
def newickSpecialChars : List Char :=
  [']', '[', qc, '"', '(', ')', ',', ':', ';', '_']

/-- Name formatting step of `TreeNode.getNewick`: quote (and double internal
single quotes) when the name has a special character, otherwise substitute
spaces by underscores. -/
def renderNameNewick (n : String) : String :=
  if n.data.any (fun c => newickSpecialChars.contains c) then
    String.singleton qc ++ doubleQuoteChars n ++ String.singleton qc
  else underscoreSpaces n

mutual

/-- Model of `TreeNode.getNewick(with_distances, semicolon)`.  `showLen`
stands for Python's string rendering `"%s" % length` of a float, abstracted
here.  The pieces are appended in source order: parenthesized comma-joined
child renderings (only when children exist), the formatted name (only when
`NameLoaded`, the empty string for a `None` name), `:length` (only when
requested and set), and the final semicolon (only when requested; nested
calls pass `semicolon=False`). -/
def getNewick (showLen : ℚ → String) : TNode → Bool → Bool → String
  | .mk _ nm nl ln cs, wd, semi =>
    let subs := getNewickL showLen cs wd
    (if subs.isEmpty then "" else "(" ++ String.intercalate "," subs ++ ")")
    ++ (if nl then (match nm with | none => "" | some n => renderNameNewick n) else "")
    ++ (if wd then (match ln with | none => "" | some l => ":" ++ showLen l) else "")
    ++ (if semi then ";" else "")

/-- Renderings of a child list, each with `semicolon=False`. -/
def getNewickL (showLen : ℚ → String) : List TNode → Bool → List String
  | [], _ => []
  | c :: cs, wd => getNewick showLen c wd false :: getNewickL showLen cs wd

end

mutual

/-- Model of `TreeNode.copyTopology`: children are copied first (the list
comprehension), then the constructor is called with `Name=self.Name[:]`,
which raises `TypeError` when `Name` is `None` (modelled as `none`); the
constructor defaults give the copy `NameLoaded=True` and empty params.  The
identity tag is carried over (the Python copy is a fresh object; the model
does not track allocation). -/
def copyTopology : TNode → Option TNode
  | .mk i nm _ _ cs =>
    match copyTopologyL cs with
    | none => none
    | some cs' =>
      match nm with
      | none => none
      | some s => some (.mk i (some s) true none cs')

/-- Copies of a list of children, propagating failure. -/
def copyTopologyL : List TNode → Option (List TNode)
  | [] => some []
  | c :: cs =>
    match copyTopology c with
    | none => none
    | some c' =>
      match copyTopologyL cs with
      | none => none
      | some cs' => some (c' :: cs')

end

mutual

/-- Expected value of a successful `copyTopology`: same tags, names and
shape, `NameLoaded` reset to the constructor default `True`, params empty. -/
def stripTopo : TNode → TNode
  | .mk i nm _ _ cs => .mk i nm true none (stripTopoL cs)

/-- stripTopo on a list of children. -/
def stripTopoL : List TNode → List TNode
  | [] => []
  | c :: cs => stripTopo c :: stripTopoL cs

end

mutual

/-- Cached `__leaf_set` of a node in `TreeNode.subsets`: a tip seeds with
the singleton of its own name, an internal node is
`reduce(or_, [c.__leaf_set for c in self.Children])`, a left fold of union
over the (nonempty) child list. -/
def leafset : TNode → Finset (Option String)
  | .mk _ nm _ _ [] => {nm}
  | .mk _ _ _ _ (c :: cs) => leafsetL (leafset c) cs

/-- Left fold of union over the remaining children's leaf sets. -/
def leafsetL : Finset (Option String) → List TNode → Finset (Option String)
  | acc, [] => acc
  | acc, c :: cs => leafsetL (acc ∪ leafset c) cs

end

mutual

/-- Sets contributed to `TreeNode.subsets` by the subtree of one node,
including the node itself, in postorder: each internal node whose leaf set
has more than one element contributes it. -/
def subsetsAux : TNode → List (Finset (Option String))
  | .mk i nm nl ln cs =>
    subsetsAuxL cs ++
      (if cs.isEmpty then []
       else if 1 < (leafset (.mk i nm nl ln cs)).card then
         [leafset (.mk i nm nl ln cs)]
       else [])

/-- subsetsAux over a list of children. -/
def subsetsAuxL : List TNode → List (Finset (Option String))
  | [] => []
  | c :: cs => subsetsAux c ++ subsetsAuxL cs

end

/-- Model of `TreeNode.subsets()`: the iteration
`self.traverse(self_before=False, self_after=True, include_self=False)`
covers every strict descendant, so the root's own leaf set is never added;
the resulting list is turned into a `frozenset`. -/
def subsets (t : TNode) : Finset (Finset (Option String)) :=
  (subsetsAuxL t.children).toFinset

/-- Model of `TreeNode.subset()`: the frozenset of the names of the tips
returned by `self.tips()`. -/
def subsetTips (t : TNode) : Finset (Option String) :=
  ((tips t).map TNode.name).toFinset

/-- Bipartition sets compared by `TreeNode.compareBySubsets`: with
`exclude_absent_taxa` both sides are intersected with the common tip-name
set and sets of size at most one are dropped. -/
def cbsSets (t o : TNode) (excl : Bool) :
    Finset (Finset (Option String)) × Finset (Finset (Option String)) :=
  let ss := subsets t
  let os := subsets o
  if excl then
    let inBoth := subsetTips t ∩ subsetTips o
    ((ss.image (· ∩ inBoth)).filter (fun s => 1 < s.card),
     (os.image (· ∩ inBoth)).filter (fun s => 1 < s.card))
  else (ss, os)

/-- Model of `TreeNode.compareBySubsets(other, exclude_absent_taxa)`:
`1 - 2*|A∩B|/(|A|+|B|)` over rationals (the source divides floats), and `1`
when the total is zero. -/
def compareBySubsets (t o : TNode) (excl : Bool) : ℚ :=
  let ab := cbsSets t o excl
  let total := ab.1.card + ab.2.card
  if total = 0 then 1 else 1 - 2 * ((ab.1 ∩ ab.2).card : ℚ) / (total : ℚ)

/-- Accumulator of `TreeNode.tipToTipDistances`: the `tipdistances` vector
(distance from each tip, by index in the tip order, to the node currently
being processed in the postorder pass) and the partially written `result`
matrix, both as total functions on indices. -/
structure TTDAcc where
  tipd : Nat → ℚ
  res : Nat → Nat → ℚ

/-- Numpy slice update `tipdistances[start:stop] += v`. -/
def bumpRange (f : Nat → ℚ) (lo hi : Nat) (v : ℚ) : Nat → ℚ :=
  fun i => if lo ≤ i ∧ i < hi then f i + v else f i

/-- Body of `update_result` for one child pair: for every tip index in the
first child's range and every tip index in the second child's range, set
`result[t1, t2] = tipdistances[t1] + tipdistances[t2]`. -/
def writeBlock (res : Nat → Nat → ℚ) (tipd : Nat → ℚ) (r1 r2 : Nat × Nat) :
    Nat → Nat → ℚ :=
  fun a b =>
    if (r1.1 ≤ a ∧ a < r1.2) ∧ (r2.1 ≤ b ∧ b < r2.2) then tipd a + tipd b
    else res a b

/-- Ordered pairs of `cogent.util.transform.comb(items, 2)`: every pair of
list elements with the first strictly earlier. -/
def combPairs {α : Type} : List α → List (α × α)
  | [] => []
  | x :: xs => xs.map (fun y => (x, y)) ++ combPairs xs

mutual

/-- Postorder pass of `TreeNode.tipToTipDistances` for the subtree of one
node, whose tips occupy the contiguous index range starting at `start` in
the tip order.  A tip only receives its range `[start, start+1)` (the loop
`continue`s on childless nodes).  An internal node first processes its
children (postorder), then adds each child's branch length (`default_length`
when unset) over the child's range of `tipdistances`, and, when it has at
least two children, writes the block of every pair of tips from two
different children.  Returns the index after the subtree's last tip and the
updated accumulator. -/
def ttdNode (dflt : ℚ) : TNode → Nat → TTDAcc → Nat × TTDAcc
  | .mk _ _ _ _ [], start, acc => (start + 1, acc)
  | .mk _ _ _ _ (c :: cs), start, acc =>
    let r := ttdChildren dflt (c :: cs) start acc
    let tipd1 := r.2.2.foldl (fun f rg => bumpRange f rg.1 rg.2.1 rg.2.2) r.2.1.tipd
    let res1 :=
      if 1 < r.2.2.length then
        (combPairs r.2.2).foldl
          (fun g pr => writeBlock g tipd1 (pr.1.1, pr.1.2.1) (pr.2.1, pr.2.2.1))
          r.2.1.res
      else r.2.1.res
    (r.1, ⟨tipd1, res1⟩)

/-- Processes a child list left to right, threading the next free tip index
and the accumulator, and collecting each child's `(start, stop, length)`
triple (the `__start`/`__stop` attributes and the branch length used for the
slice update). -/
def ttdChildren (dflt : ℚ) :
    List TNode → Nat → TTDAcc → Nat × TTDAcc × List (Nat × Nat × ℚ)
  | [], start, acc => (start, acc, [])
  | c :: cs, start, acc =>
    let r1 := ttdNode dflt c start acc
    let clen := match c.length with | some l => l | none => dflt
    let r2 := ttdChildren dflt cs r1.1 r1.2
    (r2.1, r2.2.1, (start, r1.1, clen) :: r2.2.2)

end

/-- Model of `TreeNode.tipToTipDistances(default_length=1)`: the final
symmetric matrix `result + result.T` as a function on tip-order indices,
and the tip order `self.tips()`. -/
def tipToTipDistances (t : TNode) (dflt : ℚ) : (Nat → Nat → ℚ) × List TNode :=
  let r := ttdNode dflt t 0 ⟨fun _ => 0, fun _ _ => 0⟩
  (fun a b => r.2.res a b + r.2.res b a, tips t)

/-- Model of `TreeNode.compareByTipDistances(other, dist_f)`.  `df` stands
for the `dist_f` argument (the default `distance_from_r` computes a
correlation in `cogent.maths.stats.test`, outside these sources), applied to
the two matrices restricted and reordered to the common tip names.  Python
iterates the `common_names` frozenset in an unspecified order; the model
uses first-occurrence order of the self tip-name list. -/
def compareByTipDistances (t o : TNode)
    (df : (Nat → Nat → ℚ) → (Nat → Nat → ℚ) → ℚ) : Except String ℚ :=
  let selfNames := (tips t).map TNode.name
  let otherNames := (tips o).map TNode.name
  let common := selfNames.toFinset ∩ otherNames.toFinset
  if common = ∅ then .error "No names in common between the two trees."
  else if common.card ≤ 2 then .ok 1
  else
    let commonL := selfNames.dedup.filter (fun nm => otherNames.contains nm)
    let selfOrder := commonL.map (fun nm => selfNames.indexOf nm)
    let otherOrder := commonL.map (fun nm => otherNames.indexOf nm)
    let m1 := (tipToTipDistances t 1).1
    let m2 := (tipToTipDistances o 1).1
    .ok (df (fun a b => m1 (selfOrder.getD a 0) (selfOrder.getD b 0))
            (fun a b => m2 (otherOrder.getD a 0) (otherOrder.getD b 0)))

/-- Node of a tree reached by a path of child indices (the empty path is the
node itself).  A path plays the role of Python object identity for the path
algorithms (`ancestors()` of a node are the proper path initial segments). -/
def nodeAt : TNode → List Nat → Option TNode
  | t, [] => some t
  | t, i :: p =>
    match t.children.get? i with
    | none => none
    | some c => nodeAt c p

/-- Branch length read during the distance ascents.  The source guard
`if curr.Length:` adds `curr.Length` exactly when it is neither `None` nor
zero; skipping `None` or `0` adds nothing, so the sum below is the same. -/
def lengthAt (t : TNode) (p : List Nat) : ℚ :=
  match nodeAt t p with
  | some n => match n.length with | some l => l | none => 0
  | none => 0

/-- Inner loop of `PhyloNode.distance`: once the shared ancestor `q` is
found, walk `curr` from `self` (path `p`) up to, and excluding, `q`, summing
branch lengths. -/
def selfAscent (t : TNode) (p q : List Nat) : ℚ :=
  if p = q then 0
  else if h : p = [] then 0
  else lengthAt t p + selfAscent t p.dropLast q
termination_by p.length
decreasing_by
  have hp : 0 < p.length := List.length_pos.mpr h
  simp only [List.length_dropLast]
  omega

/-- Outer loop of `PhyloNode.distance`: ascend from `other` (path `q`),
checking membership of the current node in `self`'s ancestor-plus-self set
(the set of initial segments of `p`); while unmatched, add the current
node's branch length and step to the parent.  The source returns `None`
when the walk runs off the root; the empty path is an initial segment of
every path, so this cannot happen for two paths of one tree. -/
def distWalk (t : TNode) (p : List Nat) : List Nat → ℚ → Option ℚ
  | q, acc =>
    if q.isPrefixOf p then some (acc + selfAscent t p q)
    else if hq : q = [] then none
    else distWalk t p q.dropLast (acc + lengthAt t q)
termination_by q => q.length
decreasing_by
  have hp : 0 < q.length := List.length_pos.mpr hq
  simp only [List.length_dropLast]
  omega

/-- Model of `PhyloNode.distance(other)` for the nodes at paths `p` and `q`
of the tree `t`: `0` for identity (`self is other`), otherwise the double
ascent. -/
def distance (t : TNode) (p q : List Nat) : Option ℚ :=
  if p = q then some 0 else distWalk t p q 0

/-- Longest common initial segment of two paths: the path of the lowest
common ancestor of the two nodes. -/
def commonRoad : List Nat → List Nat → List Nat
  | [], _ => []
  | _ :: _, [] => []
  | a :: p, b :: q => if a = b then a :: commonRoad p q else []

/-- Statement form of the distance: the sum of the branch lengths along both
paths strictly below the lowest common ancestor. -/
def specDistance (t : TNode) (p q : List Nat) : ℚ :=
  selfAscent t q (commonRoad p q) + selfAscent t p (commonRoad p q)

mutual

/-- Path of the first node whose `Name` equals the given string, in the
preorder used by `TreeNode._getNodeMatchingName` (`traverse(self_before=True,
self_after=False)`): the node itself first, then its children's subtrees in
order. -/
def findName : TNode → String → Option (List Nat)
  | .mk _ nm _ _ cs, s =>
    if nm = some s then some [] else findNameL cs s 0

/-- findName over a child list, recording the child index. -/
def findNameL : List TNode → String → Nat → Option (List Nat)
  | [], _, _ => none
  | c :: cs, s, i =>
    match findName c s with
    | some p => some (i :: p)
    | none => findNameL cs s (i + 1)

end

/-- Walk of `TreeNode.lastCommonAncestor` in path form: `my_lineage` is the
set of initial segments of `p` (self plus its ancestors, by identity);
`curr` ascends from `q` until membership, `None` if the walk runs out (the
empty path is an initial segment of every path, so within one tree the walk
always stops). -/
def lcaWalk (p : List Nat) (q : List Nat) : Option (List Nat) :=
  if q.isPrefixOf p then some q
  else if hq : q = [] then none
  else lcaWalk p q.dropLast
termination_by q.length
decreasing_by
  have hp : 0 < q.length := List.length_pos.mpr hq
  have hd : q.dropLast.length = q.length - 1 := List.length_dropLast q
  omega

/-- Model of `TreeNode.getConnectingNode(name1, name2)`: resolve both names
(`TreeError` when one is missing: `getNodeMatchingName` raises), then the
last common ancestor (`TreeError` when there is none). -/
def getConnectingNode (t : TNode) (n1 n2 : String) : Except String (List Nat) :=
  match findName t n1 with
  | none => .error ("No node named " ++ n1 ++ " in tree")
  | some p1 =>
    match findName t n2 with
    | none => .error ("No node named " ++ n2 ++ " in tree")
    | some p2 =>
      match lcaWalk p1 p2 with
      | none => .error ("No LCA found for " ++ n1 ++ " and " ++ n2)
      | some l => .ok l

/-- Names of every node of a subtree in preorder: the value of
`child.getNodeNames(includeself=1)` (default `tipsonly=False`), used by the
clade branch of `getEdgeNames`. -/
def getNodeNamesM (t : TNode) : List (Option String) :=
  (preorderL t).map TNode.name

/-- Name of the node at a path. -/
def nameAt (t : TNode) (p : List Nat) : Option String :=
  match nodeAt t p with
  | some n => n.name
  | none => none

/-- Children of the node at a path. -/
def childrenAt (t : TNode) (p : List Nat) : List TNode :=
  match nodeAt t p with
  | some n => n.children
  | none => []

/-- Model of `TreeNode.getEdgeNames(tip1name, tip2name, getclade, getstem)`
with no outgroup (`outgroup_name=None`; the outgroup branch reroots a copy
first and is not modelled).  The stem request fails with a `TreeError` when
the connecting node is the root; otherwise the stem name comes first and
then, for the clade request, the preorder names of each child's subtree. -/
def getEdgeNames (t : TNode) (n1 n2 : String) (getclade getstem : Bool) :
    Except String (List (Option String)) :=
  match getConnectingNode t n1 n2 with
  | .error e => .error e
  | .ok je =>
    if getstem ∧ je = [] then
      .error ("LCA(" ++ n1 ++ "," ++ n2 ++ ") is the root and so has no stem")
    else
      .ok ((if getstem then [nameAt t je] else []) ++
           (if getclade then (childrenAt t je).flatMap getNodeNamesM else []))

/-- State of a `TreeBuilder`: the `_used_names` dictionary, as an
association list from a name to its use counter (constructed with
`{"edge": -1}`). -/
abbrev UsedNames : Type := List (String × Int)

/-- Initial `_used_names` of a fresh `TreeBuilder`. -/
def initialUsed : UsedNames := [("edge", -1)]

/-- Dictionary update `self._used_names[name] += 1`. -/
def bumpName (u : UsedNames) (s : String) : UsedNames :=
  u.map (fun kv => if kv.1 = s then (kv.1, kv.2 + 1) else kv)

/-- Length of the longest key of the dictionary (a termination measure: the
recursion of `_unique_name` only meets names that are keys, and each step
appends at least two characters). -/
def keyLenBound (u : UsedNames) : Nat :=
  (u.map (fun kv => kv.1.length)).foldr max 0

/-- Dictionary lookup `name in self._used_names` /
`self._used_names[name]`, structurally. -/
def lookupU : UsedNames → String → Option Int
  | [], _ => none
  | kv :: rest, s => if kv.1 = s then some kv.2 else lookupU rest s

/-- Membership of a key bounds its length by the longest key's length. -/
theorem length_le_keyLenBound (u : UsedNames) (s : String) (c : Int)
    (h : lookupU u s = some c) : s.length ≤ keyLenBound u := by
  induction u with
  | nil => exact Option.noConfusion h
  | cons kv rest ih =>
    show s.length ≤ max kv.1.length (keyLenBound rest)
    by_cases hk : kv.1 = s
    · rw [← hk]
      exact le_max_left _ _
    · have h' : lookupU rest s = some c := by
        have he : lookupU (kv :: rest) s =
            if kv.1 = s then some kv.2 else lookupU rest s := rfl
        rw [he, if_neg hk] at h
        exact h
      exact le_trans (ih h') (le_max_right _ _)

/-- bumpName changes counters only, never keys, so the measure bound is
unchanged. -/
theorem keyLenBound_bumpName (u : UsedNames) (s : String) :
    keyLenBound (bumpName u s) = keyLenBound u := by
  induction u with
  | nil => rfl
  | cons kv rest ih =>
    show max (if kv.1 = s then (kv.1, kv.2 + 1) else kv).1.length
        (keyLenBound (bumpName rest s)) = max kv.1.length (keyLenBound rest)
    by_cases hk : kv.1 = s
    · rw [if_pos hk, ih]
    · rw [if_neg hk, ih]

/-- Recursion of `TreeBuilder._unique_name` past the empty-name default:
a name present in `_used_names` has its counter incremented and the search
recurses on `name + "." + str(counter)` (the source re-enters
`_unique_name`, whose `if not name` test is a no-op on the nonempty
argument); a fresh name is registered with counter 1 and kept. -/
def uniqueNameGo (u : UsedNames) (nm : String) : String × UsedNames :=
  match h : lookupU u nm with
  | some c => uniqueNameGo (bumpName u nm) (nm ++ "." ++ toString (c + 1))
  | none => (nm, (nm, 1) :: u)
termination_by keyLenBound u + 1 - nm.length
decreasing_by
  rw [keyLenBound_bumpName]
  have h1 := length_le_keyLenBound u nm c h
  have h2 : (nm ++ "." ++ toString (c + 1)).length =
      nm.length + 1 + (toString (c + 1)).length := by
    rw [String.length_append, String.length_append,
        show ("." : String).length = 1 from rfl]
  omega

/-- Model of `TreeBuilder._unique_name(name)`: a `None` or empty name (the
Python test `if not name`) is replaced by the literal base token `"edge"`
before the search; `none` is encoded as the empty string by the caller. -/
def uniqueName (u : UsedNames) (nm0 : String) : String × UsedNames :=
  uniqueNameGo u (if nm0 = "" then "edge" else nm0)

/-- Model of `TreeBuilder.createEdge(children, name, params, nameLoaded)`:
the node's `Name` is the disambiguated name (always a string), its
`NameLoaded` is `nameLoaded and (name is not None)`, the params dictionary
is reduced to its `"length"` entry, and the children are attached.  The
identity tag is not tracked by the builder model (all zero).  Returns the
node and the builder state after the call. -/
def createEdge (u : UsedNames) (children : List TNode) (nm : Option String)
    (ln : Option ℚ) (nameLoaded : Bool) : TNode × UsedNames :=
  let r := uniqueName u (match nm with | none => "" | some s => s)
  (TNode.mk 0 (some r.1) (nameLoaded && nm.isSome) ln children, r.2)

/-- Root renaming of `LoadTree`: `if not tree.NameLoaded: tree.Name = 'root'`. -/
def renameRoot : TNode → TNode
  | .mk i nm nl ln cs => if nl then .mk i nm nl ln cs else .mk i (some "root") nl ln cs

/-- Modelled from the spec: the Newick parser (`cogent/parse/newick.py`, not
among the sources) drives `TreeBuilder.createEdge` strictly bottom-up,
children before parents and left to right, passing each node's name when it
is present in the source text and `None` otherwise, and the `params` mapping
with the parsed branch length; `LoadTree` then renames an unloaded root name
to `"root"`.  This value is the tree built that way for the string
`"((A:1,B:2):3,C:4);"`. -/
def exampleParsed : TNode :=
  let r1 := createEdge initialUsed [] (some "A") (some 1) true
  let r2 := createEdge r1.2 [] (some "B") (some 2) true
  let r3 := createEdge r2.2 [r1.1, r2.1] none (some 3) true
  let r4 := createEdge r3.2 [] (some "C") (some 4) true
  let r5 := createEdge r4.2 [r3.1, r4.1] none none true
  renameRoot r5.1

/-- Record of one `TreeNode` object in the heap model: the `_parent`
back-reference (`none` for a root), the `Children` list (both as node ids)
and the `Name`.  The name matters to the structural edits because
`TreeNode.__cmp__` compares nodes by name, and `in`-checks and
`list.remove` compare with `==`. -/
structure HNode where
  parent : Option Nat
  children : List Nat
  name : Option String
  deriving DecidableEq

/-- Object heap: numbered node records.  Ids are unique in a well-formed
heap. -/
abbrev Heap : Type := List (Nat × HNode)

/-- Ids present in the heap. -/
def keysH (h : Heap) : List Nat := h.map Prod.fst

/-- Record of a node id (first entry with that id). -/
def lookupH : Heap → Nat → Option HNode
  | [], _ => none
  | kv :: rest, i => if kv.1 = i then some kv.2 else lookupH rest i

/-- Children of a node id (`[]` when the id is absent). -/
def childrenOf (h : Heap) (i : Nat) : List Nat :=
  match lookupH h i with
  | some r => r.children
  | none => []

/-- Parent of a node id (`none` when the id is absent). -/
def parentOf (h : Heap) (i : Nat) : Option Nat :=
  match lookupH h i with
  | some r => r.parent
  | none => none

/-- Name of a node id (`none` when the id is absent or unnamed). -/
def nameOf (h : Heap) (i : Nat) : Option String :=
  match lookupH h i with
  | some r => r.name
  | none => none

/-- Model of `==` between two nodes of the heap, per `TreeNode.__cmp__`:
equal when they are the same object, or when both carry the same non-`None`
name (two unnamed nodes fall back to comparing ids, hence are equal only
when identical). -/
def nodeEqB (h : Heap) (a b : Nat) : Bool :=
  a == b ||
    (match nameOf h a, nameOf h b with
     | some na, some nb => na == nb
     | _, _ => false)

/-- Model of `list.remove(i)` on a child list: delete the first element
that compares `==` to `i` under `TreeNode.__cmp__` (name equality; its
`ValueError` on no match cannot arise in the guarded call sites). -/
def eraseEqH (h : Heap) (i : Nat) : List Nat → List Nat
  | [] => []
  | c :: cs => if nodeEqB h c i then cs else c :: eraseEqH h i cs

/-- Model of `i in children` on a child list: Python list containment
compares with `==`, i.e. `TreeNode.__cmp__` name equality. -/
def memEqB (h : Heap) (i : Nat) (l : List Nat) : Bool :=
  l.any (fun c => nodeEqB h c i)

/-- In-place field update of one object: every entry with the id is mapped
through `f` (in a well-formed heap there is exactly one). -/
def modifyH (h : Heap) (i : Nat) (f : HNode → HNode) : Heap :=
  h.map (fun kv => if kv.1 = i then (kv.1, f kv.2) else kv)

/-- Model of `TreeNode._to_self_child(i)` for `i` already a node (the
`isinstance` branch): when `i._parent not in (None, self)`, remove the first
element `==` to `i` from its old parent's child list (`list.remove`), then
set `i._parent = self`.  Both the tuple containment and `remove` compare
with `==`, i.e. `TreeNode.__cmp__` name equality (a node never equals
`None`: `__cmp__` falls into its `AttributeError` branch and compares
types).  The caller adds `i` to `self.Children`. -/
def toSelfChild (h : Heap) (selfId iId : Nat) : Heap :=
  let h1 :=
    match parentOf h iId with
    | none => h
    | some p =>
      if nodeEqB h p selfId then h
      else modifyH h p (fun r => { r with children := eraseEqH h iId r.children })
  modifyH h1 iId (fun r => { r with parent := some selfId })

/-- Model of `TreeNode.append(i)`:
`self.Children.append(self._to_self_child(i))`. -/
def appendH (h : Heap) (selfId iId : Nat) : Heap :=
  modifyH (toSelfChild h selfId iId) selfId
    (fun r => { r with children := r.children ++ [iId] })

/-- Model of `TreeNode.removeNode(target)`: find the first child that *is*
the target (identity); when found, `del self[i]` sets the child's `_parent`
to `None` and deletes the list entry (the first occurrence, i.e.
`List.erase`). -/
def removeNodeH (h : Heap) (selfId targetId : Nat) : Heap :=
  if targetId ∈ childrenOf h selfId then
    modifyH (modifyH h targetId (fun r => { r with parent := none })) selfId
      (fun r => { r with children := r.children.erase targetId })
  else h

/-- Model of the `Parent` property setter `TreeNode._set_parent(Parent)`:
clean up refs in the old parent (`removeNode`, which is identity-based),
store the new parent, and append self to the new parent's children unless
`self in Parent.Children` — a Python list containment, hence `==`-based
(`TreeNode.__cmp__` name equality), modelled by `memEqB`. -/
def setParentH (h : Heap) (selfId : Nat) (newP : Option Nat) : Heap :=
  let h1 :=
    match parentOf h selfId with
    | none => h
    | some old => removeNodeH h old selfId
  let h2 := modifyH h1 selfId (fun r => { r with parent := newP })
  match newP with
  | none => h2
  | some p =>
    if memEqB h2 selfId (childrenOf h2 p) then h2
    else modifyH h2 p (fun r => { r with children := r.children ++ [selfId] })

/-- Model of `TreeNode.__init__(Name=nm, Parent=p)` for a fresh object id
`n` and no initial children: the new record stores `_parent = p` directly,
then `if (Parent is not None) and not (self in Parent.Children):
Parent.append(self)` — the containment is `==`-based; the nested
`_to_self_child` of that `append` sees `i._parent is self` and skips the
detach, so the append only pushes `n` onto `p`'s child list. -/
def initWithParent (h : Heap) (n : Nat) (nm : Option String) (p : Nat) : Heap :=
  let h0 : Heap := h ++ [(n, ⟨some p, [], nm⟩)]
  if memEqB h0 n (childrenOf h0 p) then h0
  else modifyH h0 p (fun r => { r with children := r.children ++ [n] })

/-- Total number of occurrences of an id across all child lists. -/
def totalCount (h : Heap) (c : Nat) : Nat :=
  (h.map (fun kv => kv.2.children.count c)).sum

/-- Single-owner invariant stated by the specification: every child's
parent reference equals the node whose child list contains it, and a node
occurs in at most one parent's child list, with at most one occurrence
(counted across all lists at once by `totalCount`). -/
def OwnInv (h : Heap) : Prop :=
  (∀ kv ∈ h, ∀ c ∈ kv.2.children, parentOf h c = some kv.1) ∧
  (∀ kv ∈ h, ∀ c ∈ kv.2.children, totalCount h c ≤ 1)

instance : DecidablePred OwnInv := fun h => by
  unfold OwnInv
  infer_instance

/-- No two distinct nodes of the heap carry the same non-`None` name.
Under this condition `TreeNode.__cmp__` equality collapses to object
identity, so the `==`-based containment and removal checks of the
structural edits behave as identity checks. -/
def UniqueNames (h : Heap) : Prop :=
  ∀ kv1 ∈ h, ∀ kv2 ∈ h, kv1.2.name ≠ none → kv1.2.name = kv2.2.name →
    kv1.1 = kv2.1

instance : DecidablePred UniqueNames := fun h => by
  unfold UniqueNames
  infer_instance

/-- Well-formedness of a heap: unique ids, the single-owner invariant, and
the converse direction (a stored parent reference is matched by membership
in that parent's child list), which the structural edits rely on. -/
def WFHeap (h : Heap) : Prop :=
  (keysH h).Nodup ∧
  (∀ kv ∈ h, ∀ c ∈ kv.2.children, parentOf h c = some kv.1) ∧
  (∀ kv ∈ h, ∀ p, kv.2.parent = some p → kv.1 ∈ childrenOf h p) ∧
  (∀ kv ∈ h, ∀ c ∈ kv.2.children, totalCount h c ≤ 1)

instance : DecidablePred WFHeap := fun h => by
  unfold WFHeap
  infer_instance

/-- Postorder id list of the heap tree under a node, with explicit fuel
(`TreeNode.traverse(self_before=False, self_after=True)`, i.e. the snapshot
list taken by `removeDeleted`).  The fuel exceeds any depth that a
well-formed heap can have. -/
def postListH : Nat → Heap → Nat → List Nat
  | 0, _, _ => []
  | fuel + 1, h, n => ((childrenOf h n).map (postListH fuel h)).flatten ++ [n]

/-- Preorder id list of the heap tree under a node, with explicit fuel
(`TreeNode.traverse()`, the collection pass of `prune`). -/
def preListH : Nat → Heap → Nat → List Nat
  | 0, _, _ => []
  | fuel + 1, h, n => n :: ((childrenOf h n).map (preListH fuel h)).flatten

/-- Inner while loop of `TreeNode.removeDeleted`:
`while (not curr_parent.Children) and (curr_parent is not None)`.  Python
evaluates `curr_parent.Children` first, so when `curr_parent` is `None` the
test raises `AttributeError` (modelled as `none`); otherwise a childless
current parent is detached (`old_parent.Parent = None`) and the loop
ascends.  Fuel exhaustion is also `none` (it cannot arise on a well-formed
heap within `|h| + 1` steps). -/
def rdClean : Nat → Heap → Option Nat → Option Heap
  | 0, _, _ => none
  | _ + 1, _, none => none
  | fuel + 1, h, some cp =>
    if childrenOf h cp = [] then
      rdClean fuel (setParentH h cp none) (parentOf h cp)
    else some h

/-- Body of the `removeDeleted` traversal for one node: when the predicate
holds, save `curr_parent = node.Parent`, detach the node
(`node.Parent = None`), and run the cleanup loop. -/
def rdStep (h : Heap) (deleted : Bool) (n : Nat) : Option Heap :=
  if deleted then
    rdClean (h.length + 1) (setParentH h n none) (parentOf h n)
  else some h

/-- Model of `TreeNode.removeDeleted(is_deleted)`: iterate over the snapshot
postorder list of the original tree, applying `rdStep` to the evolving heap.
The predicate is indexed by node identity (names and params, which a Python
predicate would inspect, are untouched by the edits). -/
def removeDeleted (h : Heap) (root : Nat) (pred : Nat → Bool) : Option Heap :=
  (postListH (h.length + 1) h root).foldl
    (fun acc n => acc.bind (fun hh => rdStep hh (pred n) n)) (some h)

/-- Body of the `prune` loop for one collected node: save
`curr_parent = node.Parent` and `child = node.Children[0]` (an empty child
list would be an `IndexError`, modelled as `none`; it cannot arise from
`prune`'s collection), detach the node, and reattach the child to the
saved parent. -/
def pruneStep (h : Heap) (n : Nat) : Option Heap :=
  match childrenOf h n with
  | [] => none
  | c :: _ =>
    let cp := parentOf h n
    some (setParentH (setParentH h n none) c cp)

/-- Model of `TreeNode.prune()`: collect, from a preorder snapshot of the
current tree, the nodes with a parent and exactly one child, then apply
`pruneStep` for each in order. -/
def prune (h : Heap) (root : Nat) : Option Heap :=
  ((preListH (h.length + 1) h root).filter
      (fun n => (parentOf h n).isSome && (childrenOf h n).length == 1)).foldl
    (fun acc n => acc.bind (fun hh => pruneStep hh n)) (some h)

/-- Heap of the tree `root -> [A, B]` (ids 0, 1, 2): the failing input for
the claim about `removeDeleted` followed by `prune`. -/
def c7Heap : Heap := [(0, ⟨none, [1, 2], none⟩), (1, ⟨some 0, [], none⟩), (2, ⟨some 0, [], none⟩)]

/-- C7: the claim states that for every tree and predicate,
`removeDeleted(predicate)` followed by `prune()` leaves no internal node (a
node that still has children) with exactly one child.  Evaluating the code
on the well-formed two-tip tree `c7Heap` with the predicate that deletes
exactly the tip `2` (= "B"): both operations complete, and the root (id 0)
ends with children `[1]` — a node that still has children and has exactly
one child — because `prune` only collects nodes whose `Parent` is not
`None`, contradicting its own docstring ("Internal nodes with only one
child will be removed"). -/
theorem c7_prune_keeps_single_child_root :
    WFHeap c7Heap ∧
    ((removeDeleted c7Heap 0 (fun n => n == 2)).bind (fun hh => prune hh 0)).map
      (fun hfin => (parentOf hfin 0, childrenOf hfin 0)) = some (none, [1]) := by
  constructor
  · decide
  · decide

/-- Branch equation of `uniqueNameGo` for a name already in `_used_names`:
bump the counter and recurse on the suffixed name. -/
theorem uniqueNameGo_found (u : UsedNames) (nm : String) (c : Int)
    (h : lookupU u nm = some c) :
    uniqueNameGo u nm = uniqueNameGo (bumpName u nm) (nm ++ "." ++ toString (c + 1)) := by
  rw [uniqueNameGo, h]

/-- Branch equation of `uniqueNameGo` for a name not yet used: it is kept
and registered with counter 1. -/
theorem uniqueNameGo_freshEq (u : UsedNames) (nm : String)
    (h : lookupU u nm = none) :
    uniqueNameGo u nm = (nm, (nm, 1) :: u) := by
  rw [uniqueNameGo, h]

/-- bumpName never changes the key set of the dictionary. -/
theorem keys_bumpName (u : UsedNames) (s : String) :
    (bumpName u s).map Prod.fst = u.map Prod.fst := by
  induction u with
  | nil => rfl
  | cons kv rest ih =>
    by_cases hk : kv.1 = s
    · simp [bumpName, hk] at *
      exact ih
    · simp [bumpName, hk] at *
      exact ih

/-- Failed lookup means the key is absent. -/
theorem lookupU_none_not_mem (u : UsedNames) (s : String)
    (h : lookupU u s = none) : s ∉ u.map Prod.fst := by
  induction u with
  | nil => simp
  | cons kv rest ih =>
    have he : lookupU (kv :: rest) s = if kv.1 = s then some kv.2 else lookupU rest s := rfl
    rw [he] at h
    by_cases hk : kv.1 = s
    · rw [if_pos hk] at h
      exact Option.noConfusion h
    · rw [if_neg hk] at h
      simp only [List.map_cons, List.mem_cons]
      intro hc
      rcases hc with hc | hc
      · exact hk hc.symm
      · exact ih h hc

/-- Name returned by the disambiguation search is never one of the keys the
builder had already used when the search started. -/
theorem uniqueNameGo_not_used (u : UsedNames) (nm : String) :
    (uniqueNameGo u nm).1 ∉ u.map Prod.fst := by
  induction u, nm using uniqueNameGo.induct with
  | case1 u nm c h ih =>
    rw [uniqueNameGo, h]
    rw [keys_bumpName] at ih
    exact ih
  | case2 u nm h =>
    rw [uniqueNameGo, h]
    exact lookupU_none_not_mem u nm h

/-- C9 (amended): `createEdge`'s `_unique_name` treats an empty or absent
name as the literal base token `"edge"`; a (possibly defaulted) name that is
a key of `_used_names` receives `.<n>` with `n` the incremented per-name use
counter, recursively re-disambiguated; a name that is not yet a key is kept
unchanged; the returned name is never a previously present key.  Amendment
forced by the counterexample: the builder's constructor pre-seeds the
counter for `"edge"` at `-1`, so the base token `"edge"` always counts as
used (the first anonymous edge becomes `edge.0`), although no earlier
`createEdge` call used it. -/
theorem c9_unique_name_disambiguation :
    (∀ u : UsedNames, uniqueName u "" = uniqueNameGo u "edge") ∧
    (∀ (u : UsedNames) (nm : String), nm ≠ "" → lookupU u nm = none →
      uniqueName u nm = (nm, (nm, 1) :: u)) ∧
    (∀ (u : UsedNames) (nm : String) (c : Int), lookupU u nm = some c →
      uniqueNameGo u nm = uniqueNameGo (bumpName u nm) (nm ++ "." ++ toString (c + 1))) ∧
    (∀ (u : UsedNames) (nm : String), (uniqueNameGo u nm).1 ∉ u.map Prod.fst) ∧
    lookupU initialUsed "edge" = some (-1) := by
  refine ⟨fun u => rfl, fun u nm h1 h2 => ?_, uniqueNameGo_found, uniqueNameGo_not_used, rfl⟩
  show uniqueNameGo u (if nm = "" then "edge" else nm) = (nm, (nm, 1) :: u)
  rw [if_neg h1]
  exact uniqueNameGo_freshEq u nm h2

/-- Witness for `c9_unique_name_disambiguation` at concrete inputs: the
fresh name `"mouse"` is kept unchanged by a fresh builder. -/
theorem c9_witness :
    uniqueName initialUsed "mouse" = ("mouse", [("mouse", 1), ("edge", -1)]) :=
  c9_unique_name_disambiguation.2.1 initialUsed "mouse" (by decide) (by decide)

/-- C9 counterexample to the claim as stated: with a fresh builder (no name
used by any earlier `createEdge` call) the explicit name `"edge"` is not
kept unchanged but becomes `"edge.0"`, because the constructor pre-seeded
its counter. -/
theorem c9_counterexample :
    (createEdge initialUsed [] (some "edge") none true).1.name = some "edge.0" ∧
    ("edge.0" : String) ≠ "edge" := by
  have hgo : uniqueNameGo initialUsed "edge" = ("edge.0", [("edge.0", 1), ("edge", 0)]) := by
    rw [uniqueNameGo_found initialUsed "edge" (-1) (by decide)]
    rw [show bumpName initialUsed "edge" = [("edge", 0)] from by decide]
    rw [show ("edge" ++ "." ++ toString ((-1 : Int) + 1)) = "edge.0" from by decide]
    rw [uniqueNameGo_freshEq [("edge", 0)] "edge.0" (by decide)]
  have hun : uniqueName initialUsed "edge" = ("edge.0", [("edge.0", 1), ("edge", 0)]) := by
    show uniqueNameGo initialUsed (if ("edge" : String) = "" then "edge" else "edge") = _
    rw [if_neg (by decide)]
    exact hgo
  constructor
  · show some (uniqueName initialUsed "edge").1 = some "edge.0"
    rw [hun]
  · decide

/-- tsizeL distributes over append. -/
theorem tsizeL_append (l1 l2 : List TNode) :
    tsizeL (l1 ++ l2) = tsizeL l1 + tsizeL l2 := by
  induction l1 with
  | nil =>
    show tsizeL l2 = tsizeL [] + tsizeL l2
    rw [show tsizeL ([] : List TNode) = 0 from rfl]
    omega
  | cons c l ih =>
    show tsizeL (c :: (l ++ l2)) = tsizeL (c :: l) + tsizeL l2
    rw [show tsizeL (c :: (l ++ l2)) = tsize c + tsizeL (l ++ l2) from rfl,
        show tsizeL (c :: l) = tsize c + tsizeL l from rfl, ih]
    omega

/-- Unfolding equation of the preorder stack loop on a nonempty stack. -/
theorem preAux_cons (i : Nat) (nm : Option String) (nl : Bool) (ln : Option ℚ)
    (cs stack : List TNode) :
    preAux (.mk i nm nl ln cs :: stack) = .mk i nm nl ln cs :: preAux (cs ++ stack) := by
  simp [preAux]

/-- Every subtree has at least one node. -/
theorem tsize_pos (t : TNode) : 0 < tsize t := by
  cases t with
  | mk i nm nl ln cs =>
    rw [show tsize (TNode.mk i nm nl ln cs) = 1 + tsizeL cs from rfl]
    omega

/-- The preorder stack loop processes stack segments independently. -/
theorem preAux_append (n : Nat) : ∀ (l1 l2 : List TNode), tsizeL l1 ≤ n →
    preAux (l1 ++ l2) = preAux l1 ++ preAux l2 := by
  induction n with
  | zero =>
    intro l1 l2 h
    cases l1 with
    | nil => simp [preAux]
    | cons c rest =>
      exfalso
      have h1 : tsizeL (c :: rest) = tsize c + tsizeL rest := rfl
      have h2 := tsize_pos c
      omega
  | succ n ih =>
    intro l1 l2 h
    cases l1 with
    | nil => simp [preAux]
    | cons c rest =>
      cases c with
      | mk i nm nl ln cs =>
        rw [List.cons_append, preAux_cons, preAux_cons, ← List.append_assoc]
        have hsz : tsizeL (cs ++ rest) ≤ n := by
          have h1 : tsizeL (TNode.mk i nm nl ln cs :: rest) =
              1 + tsizeL cs + tsizeL rest := by
            rw [show tsizeL (TNode.mk i nm nl ln cs :: rest) =
                tsize (TNode.mk i nm nl ln cs) + tsizeL rest from rfl,
              show tsize (TNode.mk i nm nl ln cs) = 1 + tsizeL cs from rfl]
          rw [tsizeL_append]
          omega
        rw [ih (cs ++ rest) l2 hsz]
        simp

/-- The preorder stack loop is the concatenation of per-tree traversals. -/
theorem preAux_flatten (l : List TNode) :
    preAux l = l.flatMap (fun c => preAux [c]) := by
  induction l with
  | nil => simp [preAux]
  | cons c rest ih =>
    rw [show c :: rest = [c] ++ rest from rfl,
        preAux_append (tsizeL [c]) [c] rest le_rfl, ih]
    simp

/-- Structural characterization of preorder: the node comes first, then the
children's preorders in order (so every node is yielded strictly before all
of its descendants). -/
theorem preorder_eq (t : TNode) :
    preorderL t = t :: t.children.flatMap preorderL := by
  cases t with
  | mk i nm nl ln cs =>
    show preAux [TNode.mk i nm nl ln cs] = _
    rw [preAux_cons, show cs ++ ([] : List TNode) = cs from by simp, preAux_flatten]
    rfl

/-- Member of a forest is no bigger than the forest. -/
theorem tsize_le_of_mem {c : TNode} {cs : List TNode} (h : c ∈ cs) :
    tsize c ≤ tsizeL cs := by
  induction cs with
  | nil => cases h
  | cons d rest ih =>
    have he : tsizeL (d :: rest) = tsize d + tsizeL rest := rfl
    rcases List.mem_cons.mp h with h1 | h1
    · subst h1
      rw [he]
      omega
    · have := ih h1
      rw [he]
      omega

/-- Strong induction on the node count of a tree. -/
theorem tnode_strong_ind (P : TNode → Prop)
    (h : ∀ t : TNode, (∀ d : TNode, tsize d < tsize t → P d) → P t) :
    ∀ t, P t := by
  intro t
  generalize hn : tsize t = n
  induction n using Nat.strong_induction_on generalizing t with
  | _ n ih =>
    subst hn
    exact h t (fun d hd => ih (tsize d) hd d rfl)

/-- Unfolding of copyTopology at a constructor. -/
theorem copyTopology_mk (i : Nat) (nm : Option String) (nl : Bool)
    (ln : Option ℚ) (cs : List TNode) :
    copyTopology (.mk i nm nl ln cs) =
      match copyTopologyL cs with
      | none => none
      | some cs' =>
        match nm with
        | none => none
        | some s => some (.mk i (some s) true none cs') := rfl

/-- Unfolding of copyTopologyL on a cons. -/
theorem copyTopologyL_cons (d : TNode) (rest : List TNode) :
    copyTopologyL (d :: rest) =
      match copyTopology d with
      | none => none
      | some c' =>
        match copyTopologyL rest with
        | none => none
        | some cs' => some (c' :: cs') := rfl

/-- C10: `copyTopology` returns the topology-and-labels copy (same names
and shape, constructor defaults `NameLoaded=True` and empty params)
exactly when every node of the subtree has a non-`None` name; when any node
has a `None` name, the slice `self.Name[:]` raises and no copy is returned
(modelled as `none`). -/
theorem c10_copy_topology (t : TNode) :
    ((∀ n ∈ preorderL t, n.name ≠ none) → copyTopology t = some (stripTopo t)) ∧
    ((∃ n ∈ preorderL t, n.name = none) → copyTopology t = none) := by
  induction t using tnode_strong_ind with
  | _ t ih =>
    cases t with
    | mk i nm nl ln cs =>
      have key : ∀ cs' : List TNode, tsizeL cs' ≤ tsizeL cs →
          ((∀ c ∈ cs', ∀ n ∈ preorderL c, n.name ≠ none) →
            copyTopologyL cs' = some (stripTopoL cs')) ∧
          ((∃ c ∈ cs', ∃ n ∈ preorderL c, n.name = none) →
            copyTopologyL cs' = none) := by
        intro cs'
        induction cs' with
        | nil =>
          intro _
          refine ⟨fun _ => rfl, ?_⟩
          rintro ⟨c, hc, _⟩
          cases hc
        | cons d rest ihl =>
          intro hle
          have hszc : tsizeL (d :: rest) = tsize d + tsizeL rest := rfl
          have hd : tsize d < tsize (TNode.mk i nm nl ln cs) := by
            have h2 : tsize (TNode.mk i nm nl ln cs) = 1 + tsizeL cs := rfl
            have h3 := tsize_pos d
            omega
          have Pd := ih d hd
          have hrest := ihl (by omega)
          constructor
          · intro hall
            rw [copyTopologyL_cons,
              Pd.1 (fun n hn => hall d (List.mem_cons_self d rest) n hn),
              hrest.1 (fun c hc n hn => hall c (List.mem_cons_of_mem d hc) n hn)]
            rfl
          · rintro ⟨c, hc, n, hn, hname⟩
            rcases List.mem_cons.mp hc with rfl | hc'
            · rw [copyTopologyL_cons, Pd.2 ⟨n, hn, hname⟩]
            · rw [copyTopologyL_cons, hrest.2 ⟨c, hc', n, hn, hname⟩]
              cases copyTopology d <;> rfl
      constructor
      · intro hall
        have hself : nm ≠ none := by
          have := hall (TNode.mk i nm nl ln cs)
            (by rw [preorder_eq]; exact List.mem_cons_self _ _)
          exact this
        obtain ⟨s, hs⟩ := Option.ne_none_iff_exists'.mp hself
        have hch : ∀ c ∈ cs, ∀ n ∈ preorderL c, n.name ≠ none := by
          intro c hc n hn
          apply hall
          rw [preorder_eq]
          refine List.mem_cons_of_mem _ ?_
          rw [show TNode.children (TNode.mk i nm nl ln cs) = cs from rfl]
          exact List.mem_flatMap.mpr ⟨c, hc, hn⟩
        rw [copyTopology_mk, (key cs le_rfl).1 hch, hs]
        rfl
      · rintro ⟨n, hn, hname⟩
        rw [preorder_eq] at hn
        rcases List.mem_cons.mp hn with rfl | hn'
        · have : nm = none := hname
          subst this
          rw [copyTopology_mk]
          cases copyTopologyL cs <;> rfl
        · rw [show TNode.children (TNode.mk i nm nl ln cs) = cs from rfl] at hn'
          obtain ⟨c, hc, hnc⟩ := List.mem_flatMap.mp hn'
          rw [copyTopology_mk, (key cs le_rfl).2 ⟨c, hc, n, hnc, hname⟩]

/-- Witness for `c10_copy_topology`: a fully named tree is copied (and the
copy is the stripped tree), a tree with an unnamed node is not. -/
theorem c10_witness :
    copyTopology (TNode.mk 0 (some "r") true none [TNode.mk 1 (some "A") true none []]) =
      some (TNode.mk 0 (some "r") true none [TNode.mk 1 (some "A") true none []]) ∧
    copyTopology (TNode.mk 2 none true none []) = none := by
  constructor
  · exact (c10_copy_topology _).1 (by simp [preorderL, preAux, TNode.name])
  · exact (c10_copy_topology _).2 ⟨TNode.mk 2 none true none [], by simp [preorderL, preAux], rfl⟩

/-- Quoting test of the amended serialization statement: the name contains
one of the Newick punctuation characters (a space alone does not trigger
quoting). -/
def quoteNeeded (n : String) : Bool :=
  !(n.data.filter (fun c => c ∈ newickSpecialChars)).isEmpty

/-- Name rendering as the amended statement words it: wrap in single quotes,
doubling internal single quotes, when quoting is needed; otherwise replace
spaces by underscores. -/
def specFormatName (n : String) : String :=
  if quoteNeeded n then String.singleton qc ++ doubleQuoteChars n ++ String.singleton qc
  else underscoreSpaces n

/-- Name section of the amended statement: rendered only when the
name-loaded flag allows it, a `None` name rendering empty. -/
def specNamePart (t : TNode) : String :=
  if t.nameLoaded then (match t.name with | none => "" | some n => specFormatName n) else ""

/-- Length section of the amended statement: `:<length>` exactly when
lengths are requested and a length is set. -/
def specLenPart (showLen : ℚ → String) (t : TNode) (wd : Bool) : String :=
  if wd then (match t.length with | none => "" | some l => ":" ++ showLen l) else ""

mutual

/-- Rendering described by the amended statement, without the trailing
semicolon: the children's renderings comma-joined in parentheses only when
children exist, then the name section, then the length section. -/
def newickSpecRender (showLen : ℚ → String) : TNode → Bool → String
  | .mk i nm nl ln cs, wd =>
    (if cs.isEmpty then ""
     else "(" ++ String.intercalate "," (newickSpecRenderL showLen cs wd) ++ ")")
    ++ specNamePart (.mk i nm nl ln cs) ++ specLenPart showLen (.mk i nm nl ln cs) wd

/-- newickSpecRender over a child list. -/
def newickSpecRenderL (showLen : ℚ → String) : List TNode → Bool → List String
  | [], _ => []
  | c :: cs, wd => newickSpecRender showLen c wd :: newickSpecRenderL showLen cs wd

end

/-- Unfolding of getNewick at a constructor. -/
theorem getNewick_mk (showLen : ℚ → String) (i : Nat) (nm : Option String)
    (nl : Bool) (ln : Option ℚ) (cs : List TNode) (wd semi : Bool) :
    getNewick showLen (.mk i nm nl ln cs) wd semi =
      (if (getNewickL showLen cs wd).isEmpty then ""
       else "(" ++ String.intercalate "," (getNewickL showLen cs wd) ++ ")")
      ++ (if nl then (match nm with | none => "" | some n => renderNameNewick n) else "")
      ++ (if wd then (match ln with | none => "" | some l => ":" ++ showLen l) else "")
      ++ (if semi then ";" else "") := rfl

/-- List emptiness of the rendered subtrees list matches the child list. -/
theorem getNewickL_isEmpty (showLen : ℚ → String) (cs : List TNode) (wd : Bool) :
    (getNewickL showLen cs wd).isEmpty = cs.isEmpty := by
  cases cs <;> rfl

/-- Emptiness of a filter versus any. -/
theorem filter_isEmpty_eq_not_any {α : Type} (p : α → Bool) (l : List α) :
    (l.filter p).isEmpty = !l.any p := by
  induction l with
  | nil => rfl
  | cons a l ih =>
    by_cases h : p a
    · simp [List.filter_cons, List.any_cons, h]
    · simp [List.filter_cons, List.any_cons, h, ih]

/-- The amended quoting test agrees with the source's regular-expression
search. -/
theorem quoteNeeded_eq (n : String) :
    quoteNeeded n = n.data.any (fun c => newickSpecialChars.contains c) := by
  have := filter_isEmpty_eq_not_any (fun c => decide (c ∈ newickSpecialChars)) n.data
  simp [quoteNeeded, this]

/-- The source's name formatting is the amended statement's. -/
theorem renderNameNewick_eq_spec (n : String) :
    renderNameNewick n = specFormatName n := by
  rw [renderNameNewick, specFormatName, quoteNeeded_eq]

/-- Unfolding of newickSpecRender at a constructor. -/
theorem newickSpecRender_mk (showLen : ℚ → String) (i : Nat) (nm : Option String)
    (nl : Bool) (ln : Option ℚ) (cs : List TNode) (wd : Bool) :
    newickSpecRender showLen (.mk i nm nl ln cs) wd =
      (if cs.isEmpty then ""
       else "(" ++ String.intercalate "," (newickSpecRenderL showLen cs wd) ++ ")")
      ++ specNamePart (.mk i nm nl ln cs)
      ++ specLenPart showLen (.mk i nm nl ln cs) wd := rfl

/-- Unfolding of the name section. -/
theorem specNamePart_mk (i : Nat) (nm : Option String) (nl : Bool)
    (ln : Option ℚ) (cs : List TNode) :
    specNamePart (.mk i nm nl ln cs) =
      (if nl then (match nm with | none => "" | some n => specFormatName n)
       else "") := rfl

/-- Unfolding of the length section. -/
theorem specLenPart_mk (showLen : ℚ → String) (i : Nat) (nm : Option String)
    (nl : Bool) (ln : Option ℚ) (cs : List TNode) (wd : Bool) :
    specLenPart showLen (.mk i nm nl ln cs) wd =
      (if wd then (match ln with | none => "" | some l => ":" ++ showLen l)
       else "") := rfl

/-- C3 (amended): `getNewick` renders a node as its children's renderings
comma-joined in parentheses only when children exist, followed by the name
section (empty unless the name-loaded flag allows rendering; a name with any
of the characters of `newickSpecialChars` — bracket, quote, parenthesis,
comma, colon, semicolon, underscore, but not a plain space — is wrapped in
single quotes with internal single quotes doubled, and otherwise has its
spaces replaced by underscores) and the `:<length>` section when lengths are
requested and set; the trailing semicolon is appended exactly at the
top-level call (`semicolon=True`) and suppressed in nested calls. -/
theorem c3_newick_format_amended (showLen : ℚ → String) (t : TNode) (wd : Bool) :
    getNewick showLen t wd true = getNewick showLen t wd false ++ ";" ∧
    getNewick showLen t wd false = newickSpecRender showLen t wd := by
  induction t using tnode_strong_ind with
  | _ t ih =>
    cases t with
    | mk i nm nl ln cs =>
      have hkey : ∀ cs' : List TNode, tsizeL cs' ≤ tsizeL cs →
          getNewickL showLen cs' wd = newickSpecRenderL showLen cs' wd := by
        intro cs'
        induction cs' with
        | nil => intro _; rfl
        | cons d rest ihl =>
          intro hle
          have hszc : tsizeL (d :: rest) = tsize d + tsizeL rest := rfl
          have hd : tsize d < tsize (TNode.mk i nm nl ln cs) := by
            have h2 : tsize (TNode.mk i nm nl ln cs) = 1 + tsizeL cs := rfl
            have h3 := tsize_pos d
            omega
          show getNewick showLen d wd false :: getNewickL showLen rest wd =
               newickSpecRender showLen d wd :: newickSpecRenderL showLen rest wd
          rw [(ih d hd).2, ihl (by omega)]
      constructor
      · rw [getNewick_mk, getNewick_mk]
        rw [show (if (true : Bool) then (";" : String) else "") = ";" from rfl,
            show (if (false : Bool) then (";" : String) else "") = "" from rfl,
            String.append_empty]
      · rw [getNewick_mk, newickSpecRender_mk, specNamePart_mk, specLenPart_mk,
            show (if (false : Bool) then (";" : String) else "") = "" from rfl,
            String.append_empty, getNewickL_isEmpty, hkey cs le_rfl]
        congr 1
        congr 1
        cases nm with
        | none => rfl
        | some n =>
          show (if nl then renderNameNewick n else "") =
               (if nl then specFormatName n else "")
          rw [renderNameNewick_eq_spec]

/-- C3 counterexample to the claim as stated: the name `"a b"` contains a
space and none of the punctuation characters; the claim says such a name is
wrapped in single quotes, but `getNewick` renders the childless node as
`a_b;` (spaces replaced by underscores), not as a quoted name. -/
theorem c3_counterexample :
    getNewick (fun _ => "") (TNode.mk 0 (some "a b") true none []) false true = "a_b;" ∧
    "a_b;" ≠ String.singleton qc ++ "a b" ++ String.singleton qc ++ ";" := by
  constructor
  · decide
  · decide

/-- C4 (amended): `compareBySubsets` returns
`1 - 2*|A∩B|/(|A|+|B|)` over the two (optionally restricted) bipartition
sets when the total is nonzero, and the maximal distance `1` instead of a
division error when the total is zero; `compareBySubsets(T, T) == 0` holds
for every tree `T` with at least one non-trivial bipartition
(`subsets(T) ≠ ∅`); a tree with none (for example a star tree) falls into
the zero-total case and compares to itself as `1`, not `0`. -/
theorem c4_compare_by_subsets_amended :
    (∀ (t o : TNode) (excl : Bool),
      ((cbsSets t o excl).1.card + (cbsSets t o excl).2.card ≠ 0 →
        compareBySubsets t o excl =
          1 - 2 * (((cbsSets t o excl).1 ∩ (cbsSets t o excl).2).card : ℚ) /
            (((cbsSets t o excl).1.card + (cbsSets t o excl).2.card : Nat) : ℚ)) ∧
      ((cbsSets t o excl).1.card + (cbsSets t o excl).2.card = 0 →
        compareBySubsets t o excl = 1)) ∧
    (∀ t : TNode, subsets t ≠ ∅ → compareBySubsets t t false = 0) := by
  constructor
  · intro t o excl
    constructor
    · intro hne
      show (if (cbsSets t o excl).1.card + (cbsSets t o excl).2.card = 0 then 1
        else 1 - 2 * (((cbsSets t o excl).1 ∩ (cbsSets t o excl).2).card : ℚ) /
          (((cbsSets t o excl).1.card + (cbsSets t o excl).2.card : Nat) : ℚ)) = _
      rw [if_neg hne]
    · intro hz
      show (if (cbsSets t o excl).1.card + (cbsSets t o excl).2.card = 0 then 1
        else 1 - 2 * (((cbsSets t o excl).1 ∩ (cbsSets t o excl).2).card : ℚ) /
          (((cbsSets t o excl).1.card + (cbsSets t o excl).2.card : Nat) : ℚ)) = (1 : ℚ)
      rw [if_pos hz]
  · intro t hne
    have hc : cbsSets t t false = (subsets t, subsets t) := rfl
    have hn : (subsets t).card ≠ 0 := by
      intro h0
      exact hne (Finset.card_eq_zero.mp h0)
    show (if (cbsSets t t false).1.card + (cbsSets t t false).2.card = 0 then 1
      else 1 - 2 * (((cbsSets t t false).1 ∩ (cbsSets t t false).2).card : ℚ) /
        (((cbsSets t t false).1.card + (cbsSets t t false).2.card : Nat) : ℚ)) = (0 : ℚ)
    rw [hc]
    rw [if_neg (show ¬((subsets t).card + (subsets t).card = 0) by omega)]
    rw [Finset.inter_self]
    have hq : ((subsets t).card : ℚ) ≠ 0 := by
      exact_mod_cast hn
    field_simp
    ring

/-- Star tree with two tips: it has no non-trivial bipartition. -/
def c4Star : TNode :=
  .mk 0 (some "root") true none
    [.mk 1 (some "x") true none [], .mk 2 (some "y") true none []]

/-- Tree with one internal edge, hence one non-trivial bipartition. -/
def c4Deep : TNode :=
  .mk 0 (some "root") true none
    [.mk 1 (some "i") true none
      [.mk 2 (some "A") true none [], .mk 3 (some "B") true none []],
     .mk 4 (some "C") true none []]

/-- C4 counterexample to `compareBySubsets(T, T) == 0` for every tree: the
two-tip star tree compares to itself as the zero-total sentinel `1`. -/
theorem c4_counterexample :
    compareBySubsets c4Star c4Star false = 1 ∧ (1 : ℚ) ≠ 0 := by
  constructor
  · decide
  · decide

/-- Witness for `c4_compare_by_subsets_amended` at concrete inputs. -/
theorem c4_witness : compareBySubsets c4Deep c4Deep false = 0 :=
  c4_compare_by_subsets_amended.2 c4Deep (by decide)

/-- Literal form of `exampleParsed`: the builder names the internal node
`edge.0`, names the root `edge.1`, and `LoadTree` renames the root to
`root` since its name was not loaded. -/
def exTreeLit : TNode :=
  TNode.mk 0 (some "root") false none
    [TNode.mk 0 (some "edge.0") false (some 3)
      [TNode.mk 0 (some "A") true (some 1) [], TNode.mk 0 (some "B") true (some 2) []],
     TNode.mk 0 (some "C") true (some 4) []]

theorem exampleParsed_eq : exampleParsed = exTreeLit := by
  have hA : uniqueName [("edge", -1)] "A" = ("A", [("A", 1), ("edge", -1)]) := by
    show uniqueNameGo [("edge", -1)] (if ("A" : String) = "" then "edge" else "A") = _
    rw [if_neg (by decide), uniqueNameGo_freshEq _ _ (by decide)]
  have hB : uniqueName [("A", 1), ("edge", -1)] "B" =
      ("B", [("B", 1), ("A", 1), ("edge", -1)]) := by
    show uniqueNameGo [("A", 1), ("edge", -1)]
      (if ("B" : String) = "" then "edge" else "B") = _
    rw [if_neg (by decide), uniqueNameGo_freshEq _ _ (by decide)]
  have hI : uniqueName [("B", 1), ("A", 1), ("edge", -1)] "" =
      ("edge.0", [("edge.0", 1), ("B", 1), ("A", 1), ("edge", 0)]) := by
    show uniqueNameGo [("B", 1), ("A", 1), ("edge", -1)]
      (if ("" : String) = "" then "edge" else "") = _
    rw [if_pos rfl, uniqueNameGo_found _ "edge" (-1) (by decide)]
    rw [show bumpName [("B", 1), ("A", 1), ("edge", -1)] "edge" =
      [("B", 1), ("A", 1), ("edge", 0)] from by decide]
    rw [show ("edge" ++ "." ++ toString ((-1 : Int) + 1)) = "edge.0" from by decide]
    rw [uniqueNameGo_freshEq _ _ (by decide)]
  have hC : uniqueName [("edge.0", 1), ("B", 1), ("A", 1), ("edge", 0)] "C" =
      ("C", [("C", 1), ("edge.0", 1), ("B", 1), ("A", 1), ("edge", 0)]) := by
    show uniqueNameGo [("edge.0", 1), ("B", 1), ("A", 1), ("edge", 0)]
      (if ("C" : String) = "" then "edge" else "C") = _
    rw [if_neg (by decide), uniqueNameGo_freshEq _ _ (by decide)]
  have hR : uniqueName [("C", 1), ("edge.0", 1), ("B", 1), ("A", 1), ("edge", 0)] "" =
      ("edge.1", [("edge.1", 1), ("C", 1), ("edge.0", 1), ("B", 1), ("A", 1), ("edge", 1)]) := by
    show uniqueNameGo [("C", 1), ("edge.0", 1), ("B", 1), ("A", 1), ("edge", 0)]
      (if ("" : String) = "" then "edge" else "") = _
    rw [if_pos rfl, uniqueNameGo_found _ "edge" 0 (by decide)]
    rw [show bumpName [("C", 1), ("edge.0", 1), ("B", 1), ("A", 1), ("edge", 0)] "edge" =
      [("C", 1), ("edge.0", 1), ("B", 1), ("A", 1), ("edge", 1)] from by decide]
    rw [show ("edge" ++ "." ++ toString ((0 : Int) + 1)) = "edge.1" from by decide]
    rw [uniqueNameGo_freshEq _ _ (by decide)]
  simp only [exampleParsed, createEdge, initialUsed]
  rw [hA]
  rw [hB]
  rw [hI]
  rw [hC]
  rw [hR]
  rfl

/-- commonRoad of a path with itself. -/
theorem commonRoad_self (p : List Nat) : commonRoad p p = p := by
  induction p with
  | nil => rfl
  | cons a p ih =>
    show (if a = a then a :: commonRoad p p else []) = a :: p
    rw [if_pos rfl, ih]

/-- When `q` is an initial segment of `p`, the common road is `q`. -/
theorem commonRoad_of_isPrefixOf (q : List Nat) : ∀ p : List Nat,
    q.isPrefixOf p = true → commonRoad p q = q := by
  induction q with
  | nil => intro p _; cases p <;> rfl
  | cons b q ih =>
    intro p h
    cases p with
    | nil => exact Bool.noConfusion h
    | cons a p =>
      have h' : (b == a && q.isPrefixOf p) = true := h
      rw [Bool.and_eq_true] at h'
      have hba : b = a := beq_iff_eq.mp h'.1
      show (if a = b then a :: commonRoad p q else []) = b :: q
      rw [if_pos hba.symm, ih p h'.2, hba]

/-- The common road is always an initial segment of the first path. -/
theorem commonRoad_prefixOf_fst (p : List Nat) : ∀ q : List Nat,
    (commonRoad p q).isPrefixOf p = true := by
  induction p with
  | nil => intro q; cases q <;> rfl
  | cons a p ih =>
    intro q
    cases q with
    | nil => rfl
    | cons b q =>
      show (if a = b then a :: commonRoad p q else []).isPrefixOf (a :: p) = true
      by_cases hab : a = b
      · rw [if_pos hab]
        show (a == a && (commonRoad p q).isPrefixOf p) = true
        rw [Bool.and_eq_true]
        exact ⟨beq_self_eq_true a, ih q⟩
      · rw [if_neg hab]
        rfl

/-- When `q` is not an initial segment of `p`, stepping to `q`'s parent
keeps the common road. -/
theorem commonRoad_dropLast (q : List Nat) : ∀ p : List Nat,
    q.isPrefixOf p = false →
    q ≠ [] ∧ commonRoad p q.dropLast = commonRoad p q := by
  induction q with
  | nil => intro p h; cases p <;> exact Bool.noConfusion h
  | cons b q ih =>
    intro p h
    refine ⟨by simp, ?_⟩
    cases p with
    | nil => rfl
    | cons a p =>
      have h' : (b == a && q.isPrefixOf p) = false := h
      by_cases hab : a = b
      · have hba : (b == a) = true := by
          rw [beq_iff_eq]
          exact hab.symm
        rw [hba, Bool.true_and] at h'
        obtain ⟨hqne, hcr⟩ := ih p h'
        cases q with
        | nil => exact absurd rfl hqne
        | cons b2 q2 =>
          rw [List.dropLast_cons₂]
          show (if a = b then a :: commonRoad p ((b2 :: q2).dropLast) else []) =
               (if a = b then a :: commonRoad p (b2 :: q2) else [])
          rw [if_pos hab, if_pos hab, hcr]
      · cases q with
        | nil =>
          show commonRoad (a :: p) [] = (if a = b then a :: commonRoad p [] else [])
          rw [if_neg hab]
          rfl
        | cons b2 q2 =>
          rw [List.dropLast_cons₂]
          show (if a = b then a :: commonRoad p ((b2 :: q2).dropLast) else []) =
               (if a = b then a :: commonRoad p (b2 :: q2) else [])
          rw [if_neg hab, if_neg hab]

/-- The self-side ascent from a node to itself adds nothing. -/
theorem selfAscent_self (t : TNode) (p : List Nat) : selfAscent t p p = 0 := by
  rw [selfAscent]
  simp

/-- Unfolding of one step of the self-side ascent. -/
theorem selfAscent_step (t : TNode) (p q : List Nat) (h1 : p ≠ q) (h2 : p ≠ []) :
    selfAscent t p q = lengthAt t p + selfAscent t p.dropLast q := by
  rw [selfAscent, if_neg h1, dif_neg h2]

/-- distWalk branch: the current node is in self's ancestor-plus-self set. -/
theorem distWalk_found (t : TNode) (p q : List Nat) (acc : ℚ)
    (h : q.isPrefixOf p = true) :
    distWalk t p q acc = some (acc + selfAscent t p q) := by
  rw [distWalk, if_pos h]

/-- distWalk branch: not yet matched, add the node's length and ascend. -/
theorem distWalk_up (t : TNode) (p q : List Nat) (acc : ℚ)
    (h1 : q.isPrefixOf p = false) (h2 : q ≠ []) :
    distWalk t p q acc = distWalk t p q.dropLast (acc + lengthAt t q) := by
  rw [distWalk, if_neg (by rw [h1]; exact Bool.false_ne_true), dif_neg h2]

/-- Invariant of the outer ascent: the walk returns the accumulator plus
the branch-length sums of both sides below the longest common initial
segment (the lowest common ancestor). -/
theorem distWalk_eq (t : TNode) (p : List Nat) : ∀ (n : Nat) (q : List Nat),
    q.length ≤ n → ∀ acc : ℚ,
    distWalk t p q acc =
      some (acc + selfAscent t q (commonRoad p q) + selfAscent t p (commonRoad p q)) := by
  intro n
  induction n with
  | zero =>
    intro q hq acc
    have hqnil : q = [] := List.length_eq_zero.mp (Nat.le_zero.mp hq)
    subst hqnil
    rw [distWalk_found t p [] acc (by cases p <;> rfl)]
    rw [commonRoad_of_isPrefixOf [] p (by cases p <;> rfl)]
    rw [selfAscent_self]
    ring_nf
  | succ n ih =>
    intro q hq acc
    by_cases hpre : q.isPrefixOf p = true
    · rw [distWalk_found t p q acc hpre, commonRoad_of_isPrefixOf q p hpre,
        selfAscent_self]
      ring_nf
    · have hfalse : q.isPrefixOf p = false := Bool.eq_false_iff.mpr hpre
      obtain ⟨hqne, hcr⟩ := commonRoad_dropLast q p hfalse
      rw [distWalk_up t p q acc hfalse hqne]
      have hlen : q.dropLast.length ≤ n := by
        have := List.length_dropLast q
        have := List.length_pos.mpr hqne
        omega
      rw [ih q.dropLast hlen (acc + lengthAt t q), hcr]
      have hstep : selfAscent t q (commonRoad p q) =
          lengthAt t q + selfAscent t q.dropLast (commonRoad p q) := by
        apply selfAscent_step t q (commonRoad p q) ?_ hqne
        intro heq
        rw [heq] at hpre
        exact hpre (commonRoad_prefixOf_fst p q)
      rw [hstep]
      ring_nf

/-- C5: `distance(self, other)` returns 0 when self and other are the
identical node; in general it equals the sum of the branch lengths along
both paths strictly below the lowest common ancestor (the first node of
self's ancestor-or-self set met when ascending from other, accumulating
other-side lengths, plus the lengths from self up to, excluding, that
shared ancestor); for the tree parsed from "((A:1,B:2):3,C:4);",
distance(A, B) (paths [0,0] and [0,1]) is 3. -/
theorem c5_distance (t : TNode) (p q : List Nat) :
    distance t p p = some 0 ∧
    distance t p q = some (specDistance t p q) ∧
    distance exampleParsed [0, 0] [0, 1] = some 3 := by
  refine ⟨?_, ?_, ?_⟩
  · rw [distance, if_pos rfl]
  · by_cases hpq : p = q
    · subst hpq
      rw [distance, if_pos rfl]
      simp only [specDistance]
      rw [commonRoad_self, selfAscent_self]
      norm_num
    · rw [distance, if_neg hpq]
      rw [distWalk_eq t p q.length q le_rfl 0]
      simp only [specDistance]
      congr 1
      ring
  · rw [exampleParsed_eq]
    rw [distance, if_neg (by decide)]
    rw [distWalk_up _ _ _ _ (by decide) (by decide)]
    rw [show ([0, 1] : List Nat).dropLast = ([0] : List Nat) from rfl]
    rw [distWalk_found _ _ _ _ (by decide)]
    rw [selfAscent_step _ _ _ (by decide) (by decide)]
    rw [show ([0, 0] : List Nat).dropLast = ([0] : List Nat) from rfl]
    rw [selfAscent_self]
    show some ((0 + lengthAt exTreeLit [0, 1]) + (lengthAt exTreeLit [0, 0] + 0)) = some 3
    rw [show lengthAt exTreeLit [0, 1] = 2 from rfl,
        show lengthAt exTreeLit [0, 0] = 1 from rfl]
    norm_num

/-- lcaWalk branch: the current node is in the first path's lineage. -/
theorem lcaWalk_found (p q : List Nat) (h : q.isPrefixOf p = true) :
    lcaWalk p q = some q := by
  rw [lcaWalk, if_pos h]

/-- lcaWalk branch: not in the lineage, ascend to the parent. -/
theorem lcaWalk_up (p q : List Nat) (h1 : q.isPrefixOf p = false) (h2 : q ≠ []) :
    lcaWalk p q = lcaWalk p q.dropLast := by
  rw [lcaWalk, if_neg (by rw [h1]; exact Bool.false_ne_true), dif_neg h2]

/-- Connecting node of the tips A and B of the example tree: the internal
node at path [0]. -/
theorem c8_conn : getConnectingNode exTreeLit "A" "B" = .ok [0] := by
  simp only [getConnectingNode,
    show findName exTreeLit "A" = some [0, 0] from rfl,
    show findName exTreeLit "B" = some [0, 1] from rfl]
  rw [lcaWalk_up _ _ (by decide) (by decide),
      show ([0, 1] : List Nat).dropLast = ([0] : List Nat) from rfl,
      lcaWalk_found _ _ (by decide)]

/-- C8: `getEdgeNames(tip1, tip2, getclade, getstem)` raises a TreeError
when a stem is requested and the connecting node (LCA) of the two named
tips is the root; when the stem request succeeds the LCA's own name comes
first; when a clade is requested the preorder names of every descendant of
each of the LCA's children (the children themselves included) are appended;
for the tree parsed from "((A:1,B:2):3,C:4);", requesting both stem and
clade for tips A and B returns the internal stem's name `edge.0` followed
by A and B. -/
theorem c8_get_edge_names :
    (∀ (t : TNode) (n1 n2 : String) (gc : Bool) (je : List Nat),
      getConnectingNode t n1 n2 = .ok je → je = [] →
      getEdgeNames t n1 n2 gc true =
        .error ("LCA(" ++ n1 ++ "," ++ n2 ++ ") is the root and so has no stem")) ∧
    (∀ (t : TNode) (n1 n2 : String) (gc : Bool) (je : List Nat),
      getConnectingNode t n1 n2 = .ok je → je ≠ [] →
      getEdgeNames t n1 n2 gc true =
        .ok ([nameAt t je] ++
          (if gc then (childrenAt t je).flatMap getNodeNamesM else []))) ∧
    getEdgeNames exampleParsed "A" "B" true true =
      .ok [some "edge.0", some "A", some "B"] := by
  refine ⟨?_, ?_, ?_⟩
  · intro t n1 n2 gc je hconn hje
    simp only [getEdgeNames, hconn]
    rw [if_pos ⟨trivial, hje⟩]
  · intro t n1 n2 gc je hconn hje
    simp only [getEdgeNames, hconn]
    rw [if_neg (fun hcon => hje hcon.2), if_pos trivial]
  · rw [exampleParsed_eq]
    simp only [getEdgeNames, c8_conn]
    rw [if_neg (fun hcon => List.noConfusion hcon.2)]
    simp [nameAt, childrenAt, nodeAt, getNodeNamesM, preorderL, preAux,
      TNode.name, TNode.children, exTreeLit]

/-- Witness for `c8_get_edge_names`: requesting the stem of the clade
joining A and C of the example tree fails, since their LCA is the root. -/
theorem c8_witness :
    getEdgeNames exampleParsed "A" "C" false true =
      .error ("LCA(" ++ "A" ++ "," ++ "C" ++ ") is the root and so has no stem") := by
  apply c8_get_edge_names.1 exampleParsed "A" "C" false []
  · rw [exampleParsed_eq]
    simp only [getConnectingNode,
      show findName exTreeLit "A" = some [0, 0] from rfl,
      show findName exTreeLit "C" = some [1] from rfl]
    rw [lcaWalk_up _ _ (by decide) (by decide),
        show ([1] : List Nat).dropLast = ([] : List Nat) from rfl,
        lcaWalk_found _ _ (by decide)]
  · rfl

/-- Unfolding of the tips stack loop on a nonempty stack. -/
theorem tipsAux_cons (i : Nat) (nm : Option String) (nl : Bool) (ln : Option ℚ)
    (cs stack : List TNode) :
    tipsAux (.mk i nm nl ln cs :: stack) =
      if cs.isEmpty then .mk i nm nl ln cs :: tipsAux stack
      else tipsAux (cs ++ stack) := by
  rw [tipsAux]

/-- The tips stack loop processes stack segments independently. -/
theorem tipsAux_append (n : Nat) : ∀ (l1 l2 : List TNode), tsizeL l1 ≤ n →
    tipsAux (l1 ++ l2) = tipsAux l1 ++ tipsAux l2 := by
  induction n with
  | zero =>
    intro l1 l2 h
    cases l1 with
    | nil => simp [tipsAux]
    | cons c rest =>
      exfalso
      have h1 : tsizeL (c :: rest) = tsize c + tsizeL rest := rfl
      have h2 := tsize_pos c
      omega
  | succ n ih =>
    intro l1 l2 h
    cases l1 with
    | nil => simp [tipsAux]
    | cons c rest =>
      cases c with
      | mk i nm nl ln cs =>
        have hsz1 : tsizeL (TNode.mk i nm nl ln cs :: rest) =
            1 + tsizeL cs + tsizeL rest := by
          rw [show tsizeL (TNode.mk i nm nl ln cs :: rest) =
              tsize (TNode.mk i nm nl ln cs) + tsizeL rest from rfl,
            show tsize (TNode.mk i nm nl ln cs) = 1 + tsizeL cs from rfl]
        rw [List.cons_append, tipsAux_cons, tipsAux_cons]
        by_cases hcs : cs.isEmpty
        · rw [if_pos hcs, if_pos hcs, ih rest l2 (by omega)]
          rfl
        · rw [if_neg hcs, if_neg hcs, ← List.append_assoc]
          rw [ih (cs ++ rest) l2 (by rw [tsizeL_append]; omega)]

/-- The tips stack loop is the concatenation of per-tree traversals. -/
theorem tipsAux_flatten (l : List TNode) :
    tipsAux l = l.flatMap (fun c => tipsAux [c]) := by
  induction l with
  | nil => simp [tipsAux]
  | cons c rest ih =>
    rw [show c :: rest = [c] ++ rest from rfl,
        tipsAux_append (tsizeL [c]) [c] rest le_rfl, ih]
    simp

/-- The leaf-set fold is the seed united with the children's leaf sets. -/
theorem leafsetL_eq (cs : List TNode) : ∀ acc : Finset (Option String),
    leafsetL acc cs = acc ∪ (cs.map leafset).foldr (· ∪ ·) ∅ := by
  induction cs with
  | nil =>
    intro acc
    show acc = acc ∪ ∅
    rw [Finset.union_empty]
  | cons c rest ih =>
    intro acc
    show leafsetL (acc ∪ leafset c) rest = _
    rw [ih (acc ∪ leafset c)]
    rw [show ((c :: rest).map leafset).foldr (· ∪ ·) ∅ =
        leafset c ∪ (rest.map leafset).foldr (· ∪ ·) ∅ from rfl]
    rw [Finset.union_assoc]

/-- The cached leaf set of a node is the set of its tip names (for a tip,
its own name). -/
theorem leafset_eq_tips (t : TNode) :
    leafset t = ((tipsAux [t]).map TNode.name).toFinset := by
  induction t using tnode_strong_ind with
  | _ t ih =>
    cases t with
    | mk i nm nl ln cs =>
      cases cs with
      | nil =>
        rw [tipsAux_cons]
        rw [show (if ([] : List TNode).isEmpty = true
            then TNode.mk i nm nl ln [] :: tipsAux []
            else tipsAux ([] ++ [])) = TNode.mk i nm nl ln [] :: tipsAux [] from rfl]
        rw [show leafset (TNode.mk i nm nl ln []) = {nm} from rfl]
        simp [tipsAux]
        rfl
      | cons c cs' =>
        have hkey : ∀ ds : List TNode, tsizeL ds ≤ tsizeL (c :: cs') →
            ((tipsAux ds).map TNode.name).toFinset =
              (ds.map leafset).foldr (· ∪ ·) ∅ := by
          intro ds
          induction ds with
          | nil =>
            intro _
            simp [tipsAux]
          | cons d rest ihl =>
            intro hle
            have hszd : tsizeL (d :: rest) = tsize d + tsizeL rest := rfl
            have hd : tsize d < tsize (TNode.mk i nm nl ln (c :: cs')) := by
              have h2 : tsize (TNode.mk i nm nl ln (c :: cs')) =
                  1 + tsizeL (c :: cs') := rfl
              have h3 := tsize_pos d
              omega
            rw [show d :: rest = [d] ++ rest from rfl,
                tipsAux_append (tsizeL [d]) [d] rest le_rfl,
                List.map_append, List.toFinset_append,
                ← ih d hd, ihl (by omega)]
            rfl
        rw [show leafset (TNode.mk i nm nl ln (c :: cs')) =
            leafsetL (leafset c) cs' from rfl]
        rw [leafsetL_eq]
        rw [tipsAux_cons,
            show ((c :: cs').isEmpty) = false from rfl,
            if_neg Bool.false_ne_true, List.append_nil]
        rw [hkey (c :: cs') le_rfl]
        rfl

/-- A member's leaf set is below the fold of the list's leaf sets. -/
theorem leafset_foldr_sub (d : TNode) : ∀ rest : List TNode, d ∈ rest →
    leafset d ⊆ (rest.map leafset).foldr (· ∪ ·) ∅ := by
  intro rest
  induction rest with
  | nil => intro h; cases h
  | cons e rest ih =>
    intro h
    rw [show ((e :: rest).map leafset).foldr (· ∪ ·) ∅ =
        leafset e ∪ (rest.map leafset).foldr (· ∪ ·) ∅ from rfl]
    rcases List.mem_cons.mp h with h1 | h1
    · subst h1
      exact Finset.subset_union_left
    · exact (ih h1).trans Finset.subset_union_right

/-- A child's leaf set is below its parent's. -/
theorem leafset_child_sub (i : Nat) (nm : Option String) (nl : Bool)
    (ln : Option ℚ) (cs : List TNode) (d : TNode) (hd : d ∈ cs) :
    leafset d ⊆ leafset (.mk i nm nl ln cs) := by
  cases cs with
  | nil => cases hd
  | cons c rest =>
    rw [show leafset (TNode.mk i nm nl ln (c :: rest)) =
        leafsetL (leafset c) rest from rfl, leafsetL_eq]
    rcases List.mem_cons.mp hd with h1 | h1
    · subst h1
      exact Finset.subset_union_left
    · exact (leafset_foldr_sub d rest h1).trans Finset.subset_union_right

/-- Tip names of a forest as the fold of the trees' leaf sets. -/
theorem tipsAux_toFinset_eq (cs : List TNode) :
    ((tipsAux cs).map TNode.name).toFinset = (cs.map leafset).foldr (· ∪ ·) ∅ := by
  induction cs with
  | nil => simp [tipsAux]
  | cons d rest ih =>
    rw [show d :: rest = [d] ++ rest from rfl,
        tipsAux_append (tsizeL [d]) [d] rest le_rfl,
        List.map_append, List.toFinset_append, ← leafset_eq_tips, ih]
    rfl

/-- Every set collected by `subsets` has more than one element and lies
below the leaf set of one of the forest's trees. -/
theorem subsetsAuxL_spec (n : Nat) : ∀ cs : List TNode, tsizeL cs ≤ n →
    ∀ s ∈ subsetsAuxL cs, 1 < s.card ∧ ∃ c ∈ cs, s ⊆ leafset c := by
  induction n with
  | zero =>
    intro cs h s hs
    cases cs with
    | nil =>
      rw [show subsetsAuxL [] = [] from rfl] at hs
      exact absurd hs (List.not_mem_nil s)
    | cons c rest =>
      exfalso
      have h1 : tsizeL (c :: rest) = tsize c + tsizeL rest := rfl
      have h2 := tsize_pos c
      omega
  | succ n ih =>
    intro cs h s hs
    cases cs with
    | nil =>
      rw [show subsetsAuxL [] = [] from rfl] at hs
      exact absurd hs (List.not_mem_nil s)
    | cons c rest =>
      have hszc : tsizeL (c :: rest) = tsize c + tsizeL rest := rfl
      have hpc := tsize_pos c
      rw [show subsetsAuxL (c :: rest) = subsetsAux c ++ subsetsAuxL rest from rfl] at hs
      rcases List.mem_append.mp hs with h1 | h1
      · cases c with
        | mk j nm2 nl2 ln2 ccs =>
          have hszj : tsize (TNode.mk j nm2 nl2 ln2 ccs) = 1 + tsizeL ccs := rfl
          rw [show subsetsAux (TNode.mk j nm2 nl2 ln2 ccs) =
              subsetsAuxL ccs ++
                (if ccs.isEmpty then []
                 else if 1 < (leafset (TNode.mk j nm2 nl2 ln2 ccs)).card then
                   [leafset (TNode.mk j nm2 nl2 ln2 ccs)]
                 else []) from rfl] at h1
          rcases List.mem_append.mp h1 with h2 | h2
          · have hccs : tsizeL ccs ≤ n := by
              have hA : tsizeL (TNode.mk j nm2 nl2 ln2 ccs :: rest) =
                  tsize (TNode.mk j nm2 nl2 ln2 ccs) + tsizeL rest := rfl
              rw [hA, hszj] at h
              omega
            obtain ⟨hcard, d, hd, hsub⟩ := ih ccs hccs s h2
            exact ⟨hcard, TNode.mk j nm2 nl2 ln2 ccs, List.mem_cons_self _ _,
              hsub.trans (leafset_child_sub j nm2 nl2 ln2 ccs d hd)⟩
          · by_cases hemp : ccs.isEmpty
            · rw [if_pos hemp] at h2
              exact absurd h2 (List.not_mem_nil s)
            · rw [if_neg hemp] at h2
              by_cases hcard : 1 < (leafset (TNode.mk j nm2 nl2 ln2 ccs)).card
              · rw [if_pos hcard] at h2
                rcases List.mem_singleton.mp h2 with rfl
                exact ⟨hcard, TNode.mk j nm2 nl2 ln2 ccs,
                  List.mem_cons_self _ _, Finset.Subset.refl _⟩
              · rw [if_neg hcard] at h2
                exact absurd h2 (List.not_mem_nil s)
      · obtain ⟨hcard, d, hd, hsub⟩ := ih rest (by omega) s h1
        exact ⟨hcard, d, List.mem_cons_of_mem c hd, hsub⟩

/-- Every non-trivial bipartition of a tree is a set of more than one of
the tree's tip names. -/
theorem mem_subsets_spec (t : TNode) (s : Finset (Option String))
    (hs : s ∈ subsets t) : 1 < s.card ∧ s ⊆ subsetTips t := by
  rw [subsets, List.mem_toFinset] at hs
  obtain ⟨hcard, c, hc, hsub⟩ :=
    subsetsAuxL_spec (tsizeL t.children) t.children le_rfl s hs
  refine ⟨hcard, hsub.trans ?_⟩
  cases t with
  | mk i nm nl ln cs =>
    rw [show TNode.children (TNode.mk i nm nl ln cs) = cs from rfl] at hc
    cases cs with
    | nil => cases hc
    | cons c0 rest =>
      rw [subsetTips,
        show tips (TNode.mk i nm nl ln (c0 :: rest)) =
          tipsAux [TNode.mk i nm nl ln (c0 :: rest)] from rfl,
        tipsAux_cons, show ((c0 :: rest).isEmpty) = false from rfl,
        if_neg Bool.false_ne_true, List.append_nil, tipsAux_toFinset_eq]
      exact leafset_foldr_sub c (c0 :: rest) hc

/-- C6: `compareByTipDistances` raises `ValueError` (modelled as
`Except.error`) when the two trees share no tip names and returns `1` when
the common tip-name set has one or two members; `compareBySubsets` applied
to two trees sharing no tip names does not raise but returns the maximal
distance `1` (their bipartition sets cannot intersect, and the zero-total
case is also `1`). -/
theorem c6_tip_distance_errors :
    (∀ (t o : TNode) (df : (Nat → Nat → ℚ) → (Nat → Nat → ℚ) → ℚ),
      ((tips t).map TNode.name).toFinset ∩ ((tips o).map TNode.name).toFinset = ∅ →
      compareByTipDistances t o df =
        .error "No names in common between the two trees.") ∧
    (∀ (t o : TNode) (df : (Nat → Nat → ℚ) → (Nat → Nat → ℚ) → ℚ),
      ((tips t).map TNode.name).toFinset ∩ ((tips o).map TNode.name).toFinset ≠ ∅ →
      (((tips t).map TNode.name).toFinset ∩ ((tips o).map TNode.name).toFinset).card ≤ 2 →
      compareByTipDistances t o df = .ok 1) ∧
    (∀ t o : TNode, subsetTips t ∩ subsetTips o = ∅ →
      compareBySubsets t o false = 1) := by
  refine ⟨?_, ?_, ?_⟩
  · intro t o df h
    simp only [compareByTipDistances]
    rw [if_pos h]
  · intro t o df h1 h2
    simp only [compareByTipDistances]
    rw [if_neg h1, if_pos h2]
  · intro t o hdisj
    have hAB : subsets t ∩ subsets o = ∅ := by
      apply Finset.eq_empty_iff_forall_not_mem.mpr
      intro s hs
      have h1 := mem_subsets_spec t s (Finset.mem_inter.mp hs).1
      have h2 := mem_subsets_spec o s (Finset.mem_inter.mp hs).2
      have hsub : s ⊆ subsetTips t ∩ subsetTips o := Finset.subset_inter h1.2 h2.2
      rw [hdisj] at hsub
      have : s = ∅ := Finset.subset_empty.mp hsub
      subst this
      simp at h1
    show (if (cbsSets t o false).1.card + (cbsSets t o false).2.card = 0 then 1
      else 1 - 2 * (((cbsSets t o false).1 ∩ (cbsSets t o false).2).card : ℚ) /
        (((cbsSets t o false).1.card + (cbsSets t o false).2.card : Nat) : ℚ)) = (1 : ℚ)
    rw [show cbsSets t o false = (subsets t, subsets o) from rfl]
    by_cases htot : (subsets t, subsets o).1.card + (subsets t, subsets o).2.card = 0
    · rw [if_pos htot]
    · rw [if_neg htot]
      rw [show (subsets t, subsets o).1 = subsets t from rfl,
          show (subsets t, subsets o).2 = subsets o from rfl, hAB]
      rw [Finset.card_empty]
      norm_num

/-- Star tree with tips named p and q, disjoint from `c4Star`'s tips. -/
def c6Other : TNode :=
  .mk 5 (some "root2") true none
    [.mk 6 (some "p") true none [], .mk 7 (some "q") true none []]

/-- Witness for `c6_tip_distance_errors` at concrete trees. -/
theorem c6_witness :
    compareByTipDistances c4Star c6Other (fun _ _ => 0) =
      .error "No names in common between the two trees." ∧
    compareByTipDistances c4Star c4Star (fun _ _ => 0) = .ok 1 ∧
    compareBySubsets c4Star c6Other false = 1 := by
  have ht1 : tips c4Star =
      [TNode.mk 1 (some "x") true none [], TNode.mk 2 (some "y") true none []] := by
    simp [tips, c4Star, tipsAux, TNode.children]
  have ht2 : tips c6Other =
      [TNode.mk 6 (some "p") true none [], TNode.mk 7 (some "q") true none []] := by
    simp [tips, c6Other, tipsAux, TNode.children]
  refine ⟨c6_tip_distance_errors.1 _ _ _ ?_, c6_tip_distance_errors.2.1 _ _ _ ?_ ?_,
    c6_tip_distance_errors.2.2 _ _ ?_⟩
  · rw [ht1, ht2]
    decide
  · rw [ht1]
    decide
  · rw [ht1]
    decide
  · rw [subsetTips, subsetTips, ht1, ht2]
    decide

/-- Empty-stack equation of the postorder loop. -/
theorem postAux_nil : postAux [] = [] := by rw [postAux]

/-- Exhausted-level equation of the postorder loop: yield and pop. -/
theorem postAux_pop (t : TNode) (rest : List (TNode × List TNode)) :
    postAux ((t, []) :: rest) = t :: postAux rest := by
  rw [postAux]

/-- Child-processing equation of the postorder loop. -/
theorem postAux_step (t : TNode) (j : Nat) (nm2 : Option String) (nl2 : Bool)
    (ln2 : Option ℚ) (cc cs : List TNode) (rest : List (TNode × List TNode)) :
    postAux ((t, .mk j nm2 nl2 ln2 cc :: cs) :: rest) =
      if cc.isEmpty then .mk j nm2 nl2 ln2 cc :: postAux ((t, cs) :: rest)
      else postAux ((.mk j nm2 nl2 ln2 cc, cc) :: (t, cs) :: rest) := by
  rw [postAux]

/-- Empty-stack equation of the pre-and-post loop. -/
theorem prePostAux_nil : prePostAux [] = [] := by rw [prePostAux]

/-- Exhausted-level equation of the pre-and-post loop (the after-yield). -/
theorem prePostAux_pop (t : TNode) (rest : List (TNode × List TNode)) :
    prePostAux ((t, []) :: rest) = t :: prePostAux rest := by
  rw [prePostAux]

/-- Child-processing equation of the pre-and-post loop (an internal child
is yielded on push, its before-yield). -/
theorem prePostAux_step (t : TNode) (j : Nat) (nm2 : Option String) (nl2 : Bool)
    (ln2 : Option ℚ) (cc cs : List TNode) (rest : List (TNode × List TNode)) :
    prePostAux ((t, .mk j nm2 nl2 ln2 cc :: cs) :: rest) =
      if cc.isEmpty then .mk j nm2 nl2 ln2 cc :: prePostAux ((t, cs) :: rest)
      else .mk j nm2 nl2 ln2 cc ::
        prePostAux ((.mk j nm2 nl2 ln2 cc, cc) :: (t, cs) :: rest) := by
  rw [prePostAux]

/-- The postorder stack loop yields, for every stack entry, the postorders
of its pending children followed by the entry's node. -/
theorem postAux_eq (n : Nat) : ∀ stack : List (TNode × List TNode),
    2 * (stack.map (fun p => tsizeL p.2)).sum + stack.length ≤ n →
    postAux stack = stack.flatMap (fun pr => pr.2.flatMap postorderL ++ [pr.1]) := by
  induction n with
  | zero =>
    intro stack h
    cases stack with
    | nil => rw [postAux_nil]; rfl
    | cons p rest =>
      exfalso
      have hl : (p :: rest).length = rest.length + 1 := rfl
      omega
  | succ n ih =>
    intro stack h
    cases stack with
    | nil => rw [postAux_nil]; rfl
    | cons pr rest =>
      obtain ⟨t, cs⟩ := pr
      simp only [List.map_cons, List.sum_cons, List.length_cons] at h
      cases cs with
      | nil =>
        rw [postAux_pop]
        rw [ih rest (by
          have hz : tsizeL ([] : List TNode) = 0 := rfl
          omega)]
        simp
      | cons c cs' =>
        cases c with
        | mk j nm2 nl2 ln2 cc =>
          have hs1 : tsizeL (TNode.mk j nm2 nl2 ln2 cc :: cs') =
              tsize (TNode.mk j nm2 nl2 ln2 cc) + tsizeL cs' := rfl
          have hs2 : tsize (TNode.mk j nm2 nl2 ln2 cc) = 1 + tsizeL cc := rfl
          rw [postAux_step]
          by_cases hcc : cc.isEmpty
          · rw [if_pos hcc]
            have hcc' : cc = [] := List.isEmpty_iff.mp hcc
            subst hcc'
            have hz : tsizeL ([] : List TNode) = 0 := rfl
            rw [ih ((t, cs') :: rest) (by
              simp only [List.map_cons, List.sum_cons, List.length_cons]
              omega)]
            have hp : postorderL (TNode.mk j nm2 nl2 ln2 []) =
                [TNode.mk j nm2 nl2 ln2 []] := by
              show postAux [(TNode.mk j nm2 nl2 ln2 [],
                TNode.children (TNode.mk j nm2 nl2 ln2 []))] = _
              rw [show TNode.children (TNode.mk j nm2 nl2 ln2 []) =
                  ([] : List TNode) from rfl, postAux_pop, postAux_nil]
            simp [hp]
          · rw [if_neg hcc]
            rw [ih ((TNode.mk j nm2 nl2 ln2 cc, cc) :: (t, cs') :: rest) (by
              simp only [List.map_cons, List.sum_cons, List.length_cons]
              omega)]
            have hm : postorderL (TNode.mk j nm2 nl2 ln2 cc) =
                cc.flatMap postorderL ++ [TNode.mk j nm2 nl2 ln2 cc] := by
              show postAux [(TNode.mk j nm2 nl2 ln2 cc,
                TNode.children (TNode.mk j nm2 nl2 ln2 cc))] = _
              rw [show TNode.children (TNode.mk j nm2 nl2 ln2 cc) = cc from rfl]
              rw [ih [(TNode.mk j nm2 nl2 ln2 cc, cc)] (by
                simp only [List.map_cons, List.sum_cons, List.length_cons,
                  List.map_nil, List.sum_nil, List.length_nil]
                omega)]
              simp
            simp [hm]

/-- Structural characterization of postorder: the children's postorders in
order, then the node (so every node is yielded strictly after all of its
descendants). -/
theorem postorder_eq (t : TNode) :
    postorderL t = t.children.flatMap postorderL ++ [t] := by
  show postAux [(t, t.children)] = _
  rw [postAux_eq (2 * tsizeL t.children + 1) [(t, t.children)] (by
    simp only [List.map_cons, List.sum_cons, List.length_cons, List.map_nil,
      List.sum_nil, List.length_nil]
    omega)]
  simp

/-- The pre-and-post stack loop yields, for every stack entry, the combined
traversals of its pending children followed by the entry's node. -/
theorem prePostAux_eq (n : Nat) : ∀ stack : List (TNode × List TNode),
    2 * (stack.map (fun p => tsizeL p.2)).sum + stack.length ≤ n →
    prePostAux stack = stack.flatMap (fun pr => pr.2.flatMap prePostL ++ [pr.1]) := by
  induction n with
  | zero =>
    intro stack h
    cases stack with
    | nil => rw [prePostAux_nil]; rfl
    | cons p rest =>
      exfalso
      have hl : (p :: rest).length = rest.length + 1 := rfl
      omega
  | succ n ih =>
    intro stack h
    cases stack with
    | nil => rw [prePostAux_nil]; rfl
    | cons pr rest =>
      obtain ⟨t, cs⟩ := pr
      simp only [List.map_cons, List.sum_cons, List.length_cons] at h
      cases cs with
      | nil =>
        rw [prePostAux_pop]
        rw [ih rest (by
          have hz : tsizeL ([] : List TNode) = 0 := rfl
          omega)]
        simp
      | cons c cs' =>
        cases c with
        | mk j nm2 nl2 ln2 cc =>
          have hs1 : tsizeL (TNode.mk j nm2 nl2 ln2 cc :: cs') =
              tsize (TNode.mk j nm2 nl2 ln2 cc) + tsizeL cs' := rfl
          have hs2 : tsize (TNode.mk j nm2 nl2 ln2 cc) = 1 + tsizeL cc := rfl
          rw [prePostAux_step]
          by_cases hcc : cc.isEmpty
          · rw [if_pos hcc]
            have hcc' : cc = [] := List.isEmpty_iff.mp hcc
            subst hcc'
            have hz : tsizeL ([] : List TNode) = 0 := rfl
            rw [ih ((t, cs') :: rest) (by
              simp only [List.map_cons, List.sum_cons, List.length_cons]
              omega)]
            have hp : prePostL (TNode.mk j nm2 nl2 ln2 []) =
                [TNode.mk j nm2 nl2 ln2 []] := by
              simp only [prePostL]
              rw [show (TNode.children (TNode.mk j nm2 nl2 ln2 [])).isEmpty =
                  true from rfl]
              rfl
            simp [hp]
          · rw [if_neg hcc]
            rw [ih ((TNode.mk j nm2 nl2 ln2 cc, cc) :: (t, cs') :: rest) (by
              simp only [List.map_cons, List.sum_cons, List.length_cons]
              omega)]
            have hm : prePostL (TNode.mk j nm2 nl2 ln2 cc) =
                TNode.mk j nm2 nl2 ln2 cc ::
                  (cc.flatMap prePostL ++ [TNode.mk j nm2 nl2 ln2 cc]) := by
              simp only [prePostL]
              rw [show (TNode.children (TNode.mk j nm2 nl2 ln2 cc)).isEmpty =
                  cc.isEmpty from rfl, if_neg hcc,
                show TNode.children (TNode.mk j nm2 nl2 ln2 cc) = cc from rfl]
              rw [ih [(TNode.mk j nm2 nl2 ln2 cc, cc)] (by
                simp only [List.map_cons, List.sum_cons, List.length_cons,
                  List.map_nil, List.sum_nil, List.length_nil]
                omega)]
              simp
            simp [hm]

/-- Structural characterization of the combined traversal: a tip once, a
non-tip once before its first child's traversal and once after its last
child's traversal. -/
theorem prePost_eq (t : TNode) :
    prePostL t = (if t.children.isEmpty then [t]
      else t :: (t.children.flatMap prePostL ++ [t])) := by
  by_cases hc : t.children.isEmpty
  · simp only [prePostL]
    rw [if_pos hc, if_pos hc]
  · simp only [prePostL]
    rw [if_neg hc, if_neg hc]
    rw [prePostAux_eq (2 * tsizeL t.children + 1) [(t, t.children)] (by
      simp only [List.map_cons, List.sum_cons, List.length_cons, List.map_nil,
        List.sum_nil, List.length_nil]
      omega)]
    simp

/-- Strict descendant: membership in the subtree of one of the node's
children. -/
def IsStrictDesc (d a : TNode) : Prop := d ∈ a.children.flatMap preorderL

/-- Every node is in its own preorder. -/
theorem mem_preorder_self (t : TNode) : t ∈ preorderL t := by
  rw [preorder_eq]
  exact List.mem_cons_self _ _

/-- Preorder members are no bigger than the tree. -/
theorem mem_preorder_size (t : TNode) : ∀ d ∈ preorderL t, tsize d ≤ tsize t := by
  induction t using tnode_strong_ind with
  | _ t ih =>
    intro d hd
    rw [preorder_eq] at hd
    rcases List.mem_cons.mp hd with rfl | hd'
    · exact le_rfl
    · obtain ⟨c, hc, hdc⟩ := List.mem_flatMap.mp hd'
      have h1 : tsize c ≤ tsizeL t.children := tsize_le_of_mem hc
      have h4 : tsize t = 1 + tsizeL t.children := by cases t; rfl
      have h2 : tsize d ≤ tsize c := ih c (by omega) d hdc
      omega

/-- A strict descendant is strictly smaller. -/
theorem strictDesc_size {d a : TNode} (h : IsStrictDesc d a) : tsize d < tsize a := by
  obtain ⟨c, hc, hdc⟩ := List.mem_flatMap.mp h
  have h1 : tsize c ≤ tsizeL a.children := tsize_le_of_mem hc
  have h4 : tsize a = 1 + tsizeL a.children := by cases a; rfl
  have h2 : tsize d ≤ tsize c := mem_preorder_size c d hdc
  omega

/-- A strict descendant is in the preorder. -/
theorem strictDesc_mem_preorder {d a : TNode} (h : IsStrictDesc d a) :
    d ∈ preorderL a := by
  rw [preorder_eq]
  exact List.mem_cons_of_mem _ h

/-- Preorder membership is transitive across subtrees. -/
theorem mem_preorder_trans (x : TNode) : ∀ {y d : TNode},
    d ∈ preorderL y → y ∈ preorderL x → d ∈ preorderL x := by
  induction x using tnode_strong_ind with
  | _ x ih =>
    intro y d hdy hyx
    rw [preorder_eq] at hyx
    rcases List.mem_cons.mp hyx with rfl | hyx'
    · exact hdy
    · obtain ⟨c, hc, hyc⟩ := List.mem_flatMap.mp hyx'
      have h1 : tsize c ≤ tsizeL x.children := tsize_le_of_mem hc
      have h4 : tsize x = 1 + tsizeL x.children := by cases x; rfl
      have hdc : d ∈ preorderL c := ih c (by omega) hdy hyc
      rw [preorder_eq]
      exact List.mem_cons_of_mem _ (List.mem_flatMap.mpr ⟨c, hc, hdc⟩)

/-- Identity tags split as the node's tag followed by its children's. -/
theorem ids_eq (t : TNode) : ids t = t.nid :: t.children.flatMap ids := by
  rw [ids, preorder_eq, List.map_cons]
  congr 1
  rw [List.map_flatMap]
  rfl

/-- A preorder member's tag is among the tree's tags. -/
theorem mem_ids_of_mem {d t : TNode} (h : d ∈ preorderL t) : d.nid ∈ ids t :=
  List.mem_map_of_mem TNode.nid h

/-- Over a forest with disjoint tag multisets, concatenated preorders keep
ancestors before strict descendants. -/
theorem pre_pairwise_forest : ∀ cs : List TNode,
    (∀ c ∈ cs, (ids c).Nodup →
      (preorderL c).Pairwise (fun a b => ¬ IsStrictDesc a b)) →
    (cs.flatMap ids).Nodup →
    (cs.flatMap preorderL).Pairwise (fun a b => ¬ IsStrictDesc a b) := by
  intro cs
  induction cs with
  | nil =>
    intro _ _
    simp
  | cons c rest ihl =>
    intro hper hnd
    rw [List.flatMap_cons]
    rw [List.flatMap_cons] at hnd
    rw [List.pairwise_append]
    obtain ⟨hnd1, hnd2, hdisj⟩ := List.nodup_append.mp hnd
    refine ⟨hper c (List.mem_cons_self _ _) hnd1,
      ihl (fun d hd => hper d (List.mem_cons_of_mem _ hd)) hnd2, ?_⟩
    intro a ha b hb hdesc
    obtain ⟨d, hd, hbd⟩ := List.mem_flatMap.mp hb
    have hab : a ∈ preorderL b := strictDesc_mem_preorder hdesc
    have had : a ∈ preorderL d := mem_preorder_trans d hab hbd
    have h1 : a.nid ∈ ids c := mem_ids_of_mem ha
    have h2 : a.nid ∈ ids d := mem_ids_of_mem had
    exact hdisj h1 (List.mem_flatMap.mpr ⟨d, hd, h2⟩)

/-- Preorder yields every node strictly before any of its strict
descendants (no later element is an ancestor of an earlier one), given
distinct tags (Python object identities are always distinct). -/
theorem pre_pairwise (t : TNode) : (ids t).Nodup →
    (preorderL t).Pairwise (fun a b => ¬ IsStrictDesc a b) := by
  induction t using tnode_strong_ind with
  | _ t ih =>
    intro h
    rw [preorder_eq]
    apply List.Pairwise.cons
    · intro b hb hdesc
      obtain ⟨c, hc, hbc⟩ := List.mem_flatMap.mp hb
      have h1 : tsize t < tsize b := strictDesc_size hdesc
      have h2 : tsize b ≤ tsize c := mem_preorder_size c b hbc
      have h3 : tsize c ≤ tsizeL t.children := tsize_le_of_mem hc
      have h4 : tsize t = 1 + tsizeL t.children := by cases t; rfl
      omega
    · rw [ids_eq] at h
      have h2 := (List.nodup_cons.mp h).2
      apply pre_pairwise_forest t.children ?_ h2
      intro c hc hn
      have h3 : tsize c ≤ tsizeL t.children := tsize_le_of_mem hc
      have h4 : tsize t = 1 + tsizeL t.children := by cases t; rfl
      exact ih c (by omega) hn

/-- Postorder and preorder traverse the same nodes. -/
theorem mem_postorder_iff (t : TNode) : ∀ d, d ∈ postorderL t ↔ d ∈ preorderL t := by
  induction t using tnode_strong_ind with
  | _ t ih =>
    intro d
    rw [postorder_eq, preorder_eq]
    rw [List.mem_append, List.mem_singleton, List.mem_cons]
    constructor
    · rintro (h1 | rfl)
      · obtain ⟨c, hc, hdc⟩ := List.mem_flatMap.mp h1
        have h3 : tsize c ≤ tsizeL t.children := tsize_le_of_mem hc
        have h4 : tsize t = 1 + tsizeL t.children := by cases t; rfl
        exact Or.inr (List.mem_flatMap.mpr ⟨c, hc, (ih c (by omega) d).mp hdc⟩)
      · exact Or.inl rfl
    · rintro (rfl | h1)
      · exact Or.inr rfl
      · obtain ⟨c, hc, hdc⟩ := List.mem_flatMap.mp h1
        have h3 : tsize c ≤ tsizeL t.children := tsize_le_of_mem hc
        have h4 : tsize t = 1 + tsizeL t.children := by cases t; rfl
        exact Or.inl (List.mem_flatMap.mpr ⟨c, hc, (ih c (by omega) d).mpr hdc⟩)

/-- Forest version of the postorder ordering property. -/
theorem post_pairwise_forest : ∀ cs : List TNode,
    (∀ c ∈ cs, (ids c).Nodup →
      (postorderL c).Pairwise (fun a b => ¬ IsStrictDesc b a)) →
    (cs.flatMap ids).Nodup →
    (cs.flatMap postorderL).Pairwise (fun a b => ¬ IsStrictDesc b a) := by
  intro cs
  induction cs with
  | nil =>
    intro _ _
    simp
  | cons c rest ihl =>
    intro hper hnd
    rw [List.flatMap_cons]
    rw [List.flatMap_cons] at hnd
    rw [List.pairwise_append]
    obtain ⟨hnd1, hnd2, hdisj⟩ := List.nodup_append.mp hnd
    refine ⟨hper c (List.mem_cons_self _ _) hnd1,
      ihl (fun d hd => hper d (List.mem_cons_of_mem _ hd)) hnd2, ?_⟩
    intro a ha b hb hdesc
    obtain ⟨d, hd, hbd⟩ := List.mem_flatMap.mp hb
    have ha' : a ∈ preorderL c := (mem_postorder_iff c a).mp ha
    have hbd' : b ∈ preorderL d := (mem_postorder_iff d b).mp hbd
    have hba : b ∈ preorderL a := strictDesc_mem_preorder hdesc
    have hbc : b ∈ preorderL c := mem_preorder_trans c hba ha'
    have h1 : b.nid ∈ ids c := mem_ids_of_mem hbc
    have h2 : b.nid ∈ ids d := mem_ids_of_mem hbd'
    exact hdisj h1 (List.mem_flatMap.mpr ⟨d, hd, h2⟩)

/-- Postorder yields every node strictly after all of its strict
descendants, given distinct tags. -/
theorem post_pairwise (t : TNode) : (ids t).Nodup →
    (postorderL t).Pairwise (fun a b => ¬ IsStrictDesc b a) := by
  induction t using tnode_strong_ind with
  | _ t ih =>
    intro h
    rw [postorder_eq]
    rw [List.pairwise_append]
    have h4 : tsize t = 1 + tsizeL t.children := by cases t; rfl
    refine ⟨?_, List.pairwise_singleton _ _, ?_⟩
    · rw [ids_eq] at h
      have h2 := (List.nodup_cons.mp h).2
      apply post_pairwise_forest t.children ?_ h2
      intro c hc hn
      have h3 : tsize c ≤ tsizeL t.children := tsize_le_of_mem hc
      exact ih c (by omega) hn
    · intro a ha b hb hdesc
      rw [List.mem_singleton] at hb
      subst hb
      obtain ⟨c, hc, hac⟩ := List.mem_flatMap.mp ha
      have ha' : a ∈ preorderL c := (mem_postorder_iff c a).mp hac
      have h1 : tsize b < tsize a := strictDesc_size hdesc
      have h2 : tsize a ≤ tsize c := mem_preorder_size c a ha'
      have h3 : tsize c ≤ tsizeL b.children := tsize_le_of_mem hc
      omega

/-- The combined traversal visits exactly the tree's nodes. -/
theorem mem_prePost_iff (t : TNode) : ∀ d, d ∈ prePostL t ↔ d ∈ preorderL t := by
  induction t using tnode_strong_ind with
  | _ t ih =>
    intro d
    rw [prePost_eq, preorder_eq]
    by_cases hc : t.children.isEmpty
    · rw [if_pos hc, List.isEmpty_iff.mp hc]
      simp
    · rw [if_neg hc]
      rw [List.mem_cons, List.mem_cons, List.mem_append, List.mem_singleton]
      have h4 : tsize t = 1 + tsizeL t.children := by cases t; rfl
      constructor
      · rintro (rfl | h1 | rfl)
        · exact Or.inl rfl
        · obtain ⟨c, hcm, hdc⟩ := List.mem_flatMap.mp h1
          have h3 : tsize c ≤ tsizeL t.children := tsize_le_of_mem hcm
          exact Or.inr (List.mem_flatMap.mpr ⟨c, hcm, (ih c (by omega) d).mp hdc⟩)
        · exact Or.inl rfl
      · rintro (rfl | h1)
        · exact Or.inl rfl
        · obtain ⟨c, hcm, hdc⟩ := List.mem_flatMap.mp h1
          have h3 : tsize c ≤ tsizeL t.children := tsize_le_of_mem hcm
          exact Or.inr (Or.inl (List.mem_flatMap.mpr
            ⟨c, hcm, (ih c (by omega) d).mpr hdc⟩))

/-- A tag absent from a subtree does not occur in its combined traversal. -/
theorem count_prePost_zero (c : TNode) (x : Nat) (h : x ∉ ids c) :
    ((prePostL c).map TNode.nid).count x = 0 := by
  rw [List.count_eq_zero]
  intro hx
  obtain ⟨d, hd, rfl⟩ := List.mem_map.mp hx
  exact h (mem_ids_of_mem ((mem_prePost_iff c d).mp hd))

/-- Forest version of the absent-tag count. -/
theorem count_prePost_flat_zero (x : Nat) : ∀ cs : List TNode,
    x ∉ cs.flatMap ids →
    ((cs.flatMap prePostL).map TNode.nid).count x = 0 := by
  intro cs
  induction cs with
  | nil =>
    intro _
    rfl
  | cons c rest ih =>
    intro h
    rw [List.flatMap_cons] at h
    rw [List.flatMap_cons, List.map_append, List.count_append]
    rw [count_prePost_zero c x (fun hin => h (List.mem_append.mpr (Or.inl hin))),
        ih (fun hin => h (List.mem_append.mpr (Or.inr hin)))]

/-- Distinctness restricts to each forest member. -/
theorem nodup_of_mem_flat : ∀ (cs : List TNode) (c : TNode), c ∈ cs →
    (cs.flatMap ids).Nodup → (ids c).Nodup := by
  intro cs
  induction cs with
  | nil =>
    intro c hc
    cases hc
  | cons d rest ih =>
    intro c hc hnd
    rw [List.flatMap_cons] at hnd
    obtain ⟨h1, h2, _⟩ := List.nodup_append.mp hnd
    rcases List.mem_cons.mp hc with rfl | hc'
    · exact h1
    · exact ih c hc' h2

/-- Occurrence counts in a forest's combined traversals. -/
theorem count_prePost_forest : ∀ cs : List TNode,
    (∀ c ∈ cs, ∀ s ∈ preorderL c,
      ((prePostL c).map TNode.nid).count s.nid =
        if s.children.isEmpty then 1 else 2) →
    (cs.flatMap ids).Nodup →
    ∀ s : TNode, (∃ c ∈ cs, s ∈ preorderL c) →
    ((cs.flatMap prePostL).map TNode.nid).count s.nid =
      if s.children.isEmpty then 1 else 2 := by
  intro cs
  induction cs with
  | nil =>
    rintro _ _ s ⟨c, hc, _⟩
    cases hc
  | cons c rest ihl =>
    rintro hper hnd s ⟨c0, hc0, hs⟩
    rw [List.flatMap_cons, List.map_append, List.count_append]
    rw [List.flatMap_cons] at hnd
    obtain ⟨hnd1, hnd2, hdisj⟩ := List.nodup_append.mp hnd
    rcases List.mem_cons.mp hc0 with rfl | hc0'
    · rw [hper c0 (List.mem_cons_self _ _) s hs]
      rw [count_prePost_flat_zero s.nid rest
        (fun hmem => hdisj (mem_ids_of_mem hs) hmem)]
      rw [Nat.add_zero]
    · have hsid : s.nid ∈ ids c0 := mem_ids_of_mem hs
      have hnotc : s.nid ∉ ids c := fun hin =>
        hdisj hin (List.mem_flatMap.mpr ⟨c0, hc0', hsid⟩)
      rw [count_prePost_zero c s.nid hnotc]
      rw [ihl (fun d hd => hper d (List.mem_cons_of_mem _ hd)) hnd2 s ⟨c0, hc0', hs⟩]
      omega

/-- The combined traversal yields every tip exactly once and every non-tip
exactly twice, counting occurrences by tag. -/
theorem prePost_count (t : TNode) : (ids t).Nodup → ∀ s ∈ preorderL t,
    ((prePostL t).map TNode.nid).count s.nid =
      if s.children.isEmpty then 1 else 2 := by
  induction t using tnode_strong_ind with
  | _ t ih =>
    intro h s hs
    rw [prePost_eq]
    have h4 : tsize t = 1 + tsizeL t.children := by cases t; rfl
    by_cases hc : t.children.isEmpty
    · rw [if_pos hc]
      have hcn : t.children = [] := List.isEmpty_iff.mp hc
      rw [preorder_eq, hcn] at hs
      simp at hs
      subst hs
      rw [if_pos hc]
      simp
    · rw [if_neg hc]
      rw [ids_eq] at h
      obtain ⟨hhead, htail⟩ := List.nodup_cons.mp h
      rw [preorder_eq] at hs
      rw [List.map_cons, List.map_append]
      rcases List.mem_cons.mp hs with rfl | hs'
      · rw [if_neg hc]
        have hA := count_prePost_flat_zero s.nid s.children hhead
        simp [List.count_cons, List.count_append, hA]
      · obtain ⟨c0, hc0, hsc⟩ := List.mem_flatMap.mp hs'
        have hsid : s.nid ∈ ids c0 := mem_ids_of_mem hsc
        have hneq : s.nid ≠ t.nid := by
          intro he
          apply hhead
          rw [← he]
          exact List.mem_flatMap.mpr ⟨c0, hc0, hsid⟩
        have hforest := count_prePost_forest t.children ?per htail s ⟨c0, hc0, hsc⟩
        case per =>
          intro c hcm s2 hs2
          have h3 : tsize c ≤ tsizeL t.children := tsize_le_of_mem hcm
          have hn2 : (ids c).Nodup := nodup_of_mem_flat t.children c hcm htail
          exact ih c (by omega) hn2 s2 hs2
        simp [List.count_cons, List.count_append, hneq, hforest]

/-- C2: for every tree (with distinct identity tags, as Python objects
have): preorder yields each node strictly before any of its descendants
(structural equation, and no element is preceded by one of its strict
descendants... precisely: no earlier element is a strict descendant-free
violation — the Pairwise clause forbids an ancestor after its descendant);
postorder yields each node strictly after all of its descendants; the
combined pre-and-post traversal yields every non-tip exactly twice — once
before its first child's traversal and once after its last child's, per the
structural equation — and every tip exactly once, per the occurrence
counts. -/
theorem c2_traversal_orders (t : TNode) (h : (ids t).Nodup) :
    preorderL t = t :: t.children.flatMap preorderL ∧
    postorderL t = t.children.flatMap postorderL ++ [t] ∧
    prePostL t = (if t.children.isEmpty then [t]
      else t :: (t.children.flatMap prePostL ++ [t])) ∧
    (preorderL t).Pairwise (fun a b => ¬ IsStrictDesc a b) ∧
    (postorderL t).Pairwise (fun a b => ¬ IsStrictDesc b a) ∧
    (∀ s ∈ preorderL t, ((prePostL t).map TNode.nid).count s.nid =
      if s.children.isEmpty then 1 else 2) :=
  ⟨preorder_eq t, postorder_eq t, prePost_eq t, pre_pairwise t h, post_pairwise t h,
    prePost_count t h⟩

/-- Witness for `c2_traversal_orders` at a concrete five-node tree. -/
theorem c2_witness :
    (preorderL c4Deep).Pairwise (fun a b => ¬ IsStrictDesc a b) ∧
    (postorderL c4Deep).Pairwise (fun a b => ¬ IsStrictDesc b a) := by
  have h : (ids c4Deep).Nodup := by
    simp [ids, preorderL, preAux, c4Deep, TNode.nid]
  exact ⟨(c2_traversal_orders c4Deep h).2.2.2.1,
    (c2_traversal_orders c4Deep h).2.2.2.2.1⟩


/-- Field updates never change the id list of the heap. -/
theorem keysH_modifyH (h : Heap) (i : Nat) (f : HNode → HNode) :
    keysH (modifyH h i f) = keysH h := by
  induction h with
  | nil => rfl
  | cons kv rest ih =>
    show ((if kv.1 = i then (kv.1, f kv.2) else kv).1 :: keysH (modifyH rest i f)) =
      kv.1 :: keysH rest
    by_cases h1 : kv.1 = i
    · rw [if_pos h1, ih]
    · rw [if_neg h1, ih]

/-- Lookup after a field update: the updated id is mapped through the function, every other id is unchanged. -/
theorem lookupH_modifyH (h : Heap) (i : Nat) (f : HNode → HNode) (j : Nat) :
    lookupH (modifyH h i f) j =
      if j = i then (lookupH h i).map f else lookupH h j := by
  induction h with
  | nil => by_cases h1 : j = i <;> simp [modifyH, lookupH, h1]
  | cons kv rest ih =>
    by_cases h1 : kv.1 = i
    · subst h1
      by_cases h2 : kv.1 = j
      · subst h2
        simp [modifyH, lookupH]
      · have h3 : ¬ j = kv.1 := fun e => h2 e.symm
        simpa [modifyH, lookupH, h2, h3] using ih
    · by_cases h2 : kv.1 = j
      · subst h2
        simp [modifyH, lookupH, h1, fun e => h1 (e : kv.1 = i)]
      · simpa [modifyH, lookupH, h1, h2] using ih

/-- Updating an absent id leaves the heap unchanged. -/
theorem modifyH_not_mem (h : Heap) (i : Nat) (f : HNode → HNode)
    (hi : i ∉ keysH h) : modifyH h i f = h := by
  induction h with
  | nil => rfl
  | cons kv rest ih =>
    have h1 : ¬ kv.1 = i := fun e => hi (e ▸ List.mem_cons_self _ _)
    have h2 : i ∉ keysH rest := fun e => hi (List.mem_cons_of_mem _ e)
    show (if kv.1 = i then (kv.1, f kv.2) else kv) :: modifyH rest i f = kv :: rest
    rw [if_neg h1, ih h2]

/-- Lookup fails exactly for ids absent from the key list. -/
theorem lookupH_eq_none_iff (h : Heap) (k : Nat) :
    lookupH h k = none ↔ k ∉ keysH h := by
  induction h with
  | nil => simp [lookupH, keysH]
  | cons kv rest ih =>
    by_cases h1 : kv.1 = k <;> simp [lookupH, keysH, h1, ih] <;> simp [keysH] at ih <;>
      tauto

/-- A successful lookup comes from an entry of the heap. -/
theorem mem_of_lookupH (h : Heap) (k : Nat) (r : HNode)
    (hl : lookupH h k = some r) : (k, r) ∈ h := by
  induction h with
  | nil => exact absurd hl (by simp [lookupH])
  | cons kv rest ih =>
    by_cases h1 : kv.1 = k
    · simp [lookupH, h1] at hl
      subst h1
      subst hl
      exact List.mem_cons_self _ _
    · simp [lookupH, h1] at hl
      exact List.mem_cons_of_mem _ (ih hl)

/-- Under unique ids, every entry is found by lookup. -/
theorem lookupH_of_mem (h : Heap) (k : Nat) (r : HNode)
    (hnd : (keysH h).Nodup) (hm : (k, r) ∈ h) : lookupH h k = some r := by
  induction h with
  | nil => exact absurd hm (List.not_mem_nil _)
  | cons kv rest ih =>
    have hnd' : (kv.1 :: keysH rest).Nodup := hnd
    have hnd1 : kv.1 ∉ keysH rest := (List.nodup_cons.mp hnd').1
    have hnd2 : (keysH rest).Nodup := (List.nodup_cons.mp hnd').2
    rcases List.mem_cons.mp hm with he | hm2
    · rw [← he]
      simp [lookupH]
    · have h1 : ¬ kv.1 = k := fun e =>
        hnd1 (e ▸ List.mem_map.mpr ⟨(k, r), hm2, rfl⟩)
      simp [lookupH, h1]
      exact ih hnd2 hm2

/-- Every listed id has a record. -/
theorem lookupH_isSome_of_mem_keys (h : Heap) (k : Nat)
    (hk : k ∈ keysH h) : ∃ r, lookupH h k = some r := by
  rcases ho : lookupH h k with _ | r
  · exact absurd hk ((lookupH_eq_none_iff h k).mp ho)
  · exact ⟨r, rfl⟩

/-- Child-occurrence totals split off the head entry. -/
theorem totalCount_cons (kv : Nat × HNode) (rest : Heap) (c : Nat) :
    totalCount (kv :: rest) c = kv.2.children.count c + totalCount rest c := by
  simp [totalCount]

/-- Occurrence totals after a field update, in cancellation form: the old record count is traded for the new record count. -/
theorem totalCount_modifyH (h : Heap) (i : Nat) (f : HNode → HNode) (r : HNode)
    (c : Nat) (hnd : (keysH h).Nodup) (hl : lookupH h i = some r) :
    totalCount (modifyH h i f) c + r.children.count c =
      totalCount h c + (f r).children.count c := by
  induction h with
  | nil => exact absurd hl (by simp [lookupH])
  | cons kv rest ih =>
    have hnd' : (kv.1 :: keysH rest).Nodup := hnd
    have hnd1 : kv.1 ∉ keysH rest := (List.nodup_cons.mp hnd').1
    have hnd2 : (keysH rest).Nodup := (List.nodup_cons.mp hnd').2
    have hstep : modifyH (kv :: rest) i f =
        (if kv.1 = i then (kv.1, f kv.2) else kv) :: modifyH rest i f := rfl
    by_cases h1 : kv.1 = i
    · have hr : r = kv.2 := by
        simp [lookupH, h1] at hl
        exact hl.symm
      have hrest : modifyH rest i f = rest := modifyH_not_mem _ _ _ (h1 ▸ hnd1)
      rw [hstep, if_pos h1, hrest, hr, totalCount_cons, totalCount_cons]
      show (f kv.2).children.count c + totalCount rest c + kv.2.children.count c =
        kv.2.children.count c + totalCount rest c + (f kv.2).children.count c
      omega
    · have hl2 : lookupH rest i = some r := by
        simpa [lookupH, h1] using hl
      have := ih hnd2 hl2
      rw [hstep, if_neg h1, totalCount_cons, totalCount_cons]
      omega

/-- Parent pointers survive an update that preserves the parent field. -/
theorem parentOf_modifyH_keep (h : Heap) (i : Nat) (f : HNode → HNode) (j : Nat)
    (hf : ∀ r, (f r).parent = r.parent) :
    parentOf (modifyH h i f) j = parentOf h j := by
  unfold parentOf
  rw [lookupH_modifyH]
  by_cases h1 : j = i
  · rw [if_pos h1]
    subst h1
    cases lookupH h j with
    | none => rfl
    | some r => simp [hf]
  · rw [if_neg h1]

/-- Setting the parent field of a present id updates exactly that parent pointer. -/
theorem parentOf_modifyH_set (h : Heap) (i : Nat) (q : Option Nat) (j : Nat)
    (hi : i ∈ keysH h) :
    parentOf (modifyH h i (fun r => { r with parent := q })) j =
      if j = i then q else parentOf h j := by
  unfold parentOf
  rw [lookupH_modifyH]
  by_cases h1 : j = i
  · rw [if_pos h1, if_pos h1]
    rcases lookupH_isSome_of_mem_keys h i hi with ⟨r, hr⟩
    rw [hr]
    rfl
  · rw [if_neg h1, if_neg h1]

/-- Child lists survive an update that preserves the children field. -/
theorem childrenOf_modifyH_keep (h : Heap) (i : Nat) (f : HNode → HNode) (j : Nat)
    (hf : ∀ r, (f r).children = r.children) :
    childrenOf (modifyH h i f) j = childrenOf h j := by
  unfold childrenOf
  rw [lookupH_modifyH]
  by_cases h1 : j = i
  · rw [if_pos h1]
    subst h1
    cases lookupH h j with
    | none => rfl
    | some r => simp [hf]
  · rw [if_neg h1]

/-- Rewriting the children field of a present id updates exactly that child list. -/
theorem childrenOf_modifyH_set (h : Heap) (i : Nat) (g : List Nat → List Nat)
    (j : Nat) (hi : i ∈ keysH h) :
    childrenOf (modifyH h i (fun r => { r with children := g r.children })) j =
      if j = i then g (childrenOf h i) else childrenOf h j := by
  unfold childrenOf
  rw [lookupH_modifyH]
  by_cases h1 : j = i
  · rw [if_pos h1, if_pos h1]
    rcases lookupH_isSome_of_mem_keys h i hi with ⟨r, hr⟩
    rw [hr]
    rfl
  · rw [if_neg h1, if_neg h1]

/-- Occurrence totals survive an update that preserves the children field. -/
theorem totalCount_modifyH_keep (h : Heap) (i : Nat) (f : HNode → HNode) (c : Nat)
    (hf : ∀ r, (f r).children = r.children) :
    totalCount (modifyH h i f) c = totalCount h c := by
  induction h with
  | nil => rfl
  | cons kv rest ih =>
    show totalCount ((if kv.1 = i then (kv.1, f kv.2) else kv) :: modifyH rest i f) c = _
    rw [totalCount_cons, totalCount_cons, ih]
    by_cases h1 : kv.1 = i
    · rw [if_pos h1]
      show (f kv.2).children.count c + _ = _
      rw [hf]
    · rw [if_neg h1]

/-- A successful lookup witnesses key membership. -/
theorem mem_keys_of_lookupH (h : Heap) (k : Nat) (r : HNode)
    (hl : lookupH h k = some r) : k ∈ keysH h :=
  List.mem_map.mpr ⟨(k, r), mem_of_lookupH h k r hl, rfl⟩

/-- Unfolds childrenOf on a successful lookup. -/
theorem childrenOf_eq_of_lookupH (h : Heap) (k : Nat) (r : HNode)
    (hl : lookupH h k = some r) : childrenOf h k = r.children := by
  unfold childrenOf
  rw [hl]

/-- Unfolds parentOf on a successful lookup. -/
theorem parentOf_eq_of_lookupH (h : Heap) (k : Nat) (r : HNode)
    (hl : lookupH h k = some r) : parentOf h k = r.parent := by
  unfold parentOf
  rw [hl]

/-- A node with a nonempty child list is present in the heap. -/
theorem mem_keys_of_childrenOf (h : Heap) (k c : Nat)
    (hc : c ∈ childrenOf h k) : k ∈ keysH h := by
  unfold childrenOf at hc
  cases hl : lookupH h k with
  | none =>
    rw [hl] at hc
    exact absurd hc (List.not_mem_nil c)
  | some r => exact mem_keys_of_lookupH h k r hl

/-- One record's child count is bounded by the heap-wide total. -/
theorem count_children_le_totalCount (h : Heap) (k : Nat) (r : HNode) (c : Nat)
    (hl : lookupH h k = some r) : r.children.count c ≤ totalCount h c := by
  have hm : (k, r) ∈ h := mem_of_lookupH h k r hl
  have : r.children.count c ∈ h.map (fun kv => kv.2.children.count c) :=
    List.mem_map.mpr ⟨(k, r), hm, rfl⟩
  exact List.single_le_sum (fun x _ => Nat.zero_le x) _ this

/-- A positive heap-wide count comes from some record's child list. -/
theorem exists_child_of_totalCount_pos (h : Heap) (c : Nat)
    (hp : 0 < totalCount h c) : ∃ kv ∈ h, c ∈ kv.2.children := by
  induction h with
  | nil => exact absurd hp (by simp [totalCount])
  | cons kv rest ih =>
    rw [totalCount_cons] at hp
    by_cases h1 : 0 < kv.2.children.count c
    · exact ⟨kv, List.mem_cons_self _ _, List.count_pos_iff.mp h1⟩
    · have h2 : 0 < totalCount rest c := by omega
      rcases ih h2 with ⟨kv2, hm, hc⟩
      exact ⟨kv2, List.mem_cons_of_mem _ hm, hc⟩

/-- Well-formedness, child direction: a listed child's parent pointer names the list owner. -/
theorem wf_childOK (h : Heap) (hwf : WFHeap h) (k c : Nat)
    (hc : c ∈ childrenOf h k) : parentOf h c = some k := by
  unfold childrenOf at hc
  cases hl : lookupH h k with
  | none =>
    rw [hl] at hc
    exact absurd hc (List.not_mem_nil c)
  | some r =>
    rw [hl] at hc
    exact hwf.2.1 (k, r) (mem_of_lookupH h k r hl) c hc

/-- Well-formedness, ownership direction: a listed child occurs at most once heap-wide. -/
theorem wf_uniq (h : Heap) (hwf : WFHeap h) (k c : Nat)
    (hc : c ∈ childrenOf h k) : totalCount h c ≤ 1 := by
  unfold childrenOf at hc
  cases hl : lookupH h k with
  | none =>
    rw [hl] at hc
    exact absurd hc (List.not_mem_nil c)
  | some r =>
    rw [hl] at hc
    exact hwf.2.2.2 (k, r) (mem_of_lookupH h k r hl) c hc

/-- Well-formedness, parent direction: a stored parent pointer is matched by child-list membership. -/
theorem wf_parentOK (h : Heap) (hwf : WFHeap h) (k q : Nat)
    (hk : k ∈ keysH h) (hq : parentOf h k = some q) : k ∈ childrenOf h q := by
  rcases lookupH_isSome_of_mem_keys h k hk with ⟨r, hl⟩
  rw [parentOf_eq_of_lookupH h k r hl] at hq
  exact hwf.2.2.1 (k, r) (mem_of_lookupH h k r hl) q hq

/-- A parentless node occurs in no child list of a well-formed heap. -/
theorem wf_count_zero (h : Heap) (hwf : WFHeap h) (i : Nat)
    (hpi : parentOf h i = none) : totalCount h i = 0 := by
  by_contra hne
  have hp : 0 < totalCount h i := Nat.pos_of_ne_zero hne
  rcases exists_child_of_totalCount_pos h i hp with ⟨kv, hm, hc⟩
  have := hwf.2.1 kv hm i hc
  rw [hpi] at this
  exact Option.noConfusion this

/-- A child list's count is bounded by the heap-wide total. -/
theorem count_childrenOf_le_totalCount (h : Heap) (k c : Nat) :
    (childrenOf h k).count c ≤ totalCount h c := by
  unfold childrenOf
  cases hl : lookupH h k with
  | none => simp
  | some r => exact count_children_le_totalCount h k r c hl

/-- Well-formedness follows from the per-id views (parentOf, childrenOf, totalCount) under unique ids. -/
theorem WFHeap_of_views (h : Heap) (hnd : (keysH h).Nodup)
    (hco : ∀ k, ∀ c ∈ childrenOf h k, parentOf h c = some k)
    (hpo : ∀ k ∈ keysH h, ∀ q, parentOf h k = some q → k ∈ childrenOf h q)
    (hun : ∀ k, ∀ c ∈ childrenOf h k, totalCount h c ≤ 1) :
    WFHeap h := by
  refine ⟨hnd, ?_, ?_, ?_⟩
  · intro kv hm c hc
    have hl : lookupH h kv.1 = some kv.2 := lookupH_of_mem h kv.1 kv.2 hnd hm
    exact hco kv.1 c ((childrenOf_eq_of_lookupH h kv.1 kv.2 hl) ▸ hc)
  · intro kv hm p hp
    have hl : lookupH h kv.1 = some kv.2 := lookupH_of_mem h kv.1 kv.2 hnd hm
    exact hpo kv.1 (List.mem_map.mpr ⟨kv, hm, rfl⟩) p
      ((parentOf_eq_of_lookupH h kv.1 kv.2 hl) ▸ hp)
  · intro kv hm c hc
    have hl : lookupH h kv.1 = some kv.2 := lookupH_of_mem h kv.1 kv.2 hnd hm
    exact hun kv.1 c ((childrenOf_eq_of_lookupH h kv.1 kv.2 hl) ▸ hc)

/-- Appending to a child list keeps all parent pointers. -/
theorem parentOf_modifyH_app (h : Heap) (x i j : Nat) :
    parentOf (modifyH h x (fun r => { r with children := r.children ++ [i] })) j =
      parentOf h j :=
  parentOf_modifyH_keep h x _ j (fun _ => rfl)

/-- Erasing from a child list keeps all parent pointers. -/
theorem parentOf_modifyH_er (h : Heap) (x i j : Nat) :
    parentOf (modifyH h x (fun r => { r with children := r.children.erase i })) j =
      parentOf h j :=
  parentOf_modifyH_keep h x _ j (fun _ => rfl)

/-- Setting a parent field keeps all child lists. -/
theorem childrenOf_modifyH_par (h : Heap) (x : Nat) (q : Option Nat) (j : Nat) :
    childrenOf (modifyH h x (fun r => { r with parent := q })) j = childrenOf h j :=
  childrenOf_modifyH_keep h x _ j (fun _ => rfl)

/-- Setting a parent field keeps all occurrence totals. -/
theorem totalCount_modifyH_par (h : Heap) (x : Nat) (q : Option Nat) (c : Nat) :
    totalCount (modifyH h x (fun r => { r with parent := q })) c = totalCount h c :=
  totalCount_modifyH_keep h x _ c (fun _ => rfl)

/-- Child lists after appending a child to a present id. -/
theorem childrenOf_modifyH_app (h : Heap) (x i j : Nat) (hx : x ∈ keysH h) :
    childrenOf (modifyH h x (fun r => { r with children := r.children ++ [i] })) j =
      if j = x then childrenOf h x ++ [i] else childrenOf h j :=
  childrenOf_modifyH_set h x (fun l => l ++ [i]) j hx

/-- Child lists after erasing a child of a present id. -/
theorem childrenOf_modifyH_erase (h : Heap) (x i j : Nat) (hx : x ∈ keysH h) :
    childrenOf (modifyH h x (fun r => { r with children := r.children.erase i })) j =
      if j = x then (childrenOf h x).erase i else childrenOf h j :=
  childrenOf_modifyH_set h x (fun l => l.erase i) j hx

/-- Occurrence totals after appending a child, in cancellation form. -/
theorem totalCount_modifyH_app (h : Heap) (x i : Nat) (r : HNode) (c : Nat)
    (hnd : (keysH h).Nodup) (hl : lookupH h x = some r) :
    totalCount (modifyH h x (fun r => { r with children := r.children ++ [i] })) c +
      r.children.count c = totalCount h c + (r.children ++ [i]).count c :=
  totalCount_modifyH h x _ r c hnd hl

/-- Occurrence totals after erasing a child, in cancellation form. -/
theorem totalCount_modifyH_erase (h : Heap) (x i : Nat) (r : HNode) (c : Nat)
    (hnd : (keysH h).Nodup) (hl : lookupH h x = some r) :
    totalCount (modifyH h x (fun r => { r with children := r.children.erase i })) c +
      r.children.count c = totalCount h c + (r.children.erase i).count c :=
  totalCount_modifyH h x _ r c hnd hl

/-- The child lists after the detach half of a structural move: the moved
node `i` is erased from its old parent's child list (when it has one) and
every other list is unchanged. -/
def ebSpec (h : Heap) (i j : Nat) : List Nat :=
  match parentOf h i with
  | some p => if j = p then (childrenOf h p).erase i else childrenOf h j
  | none => childrenOf h j

/-- Detached child lists of a parentless node: unchanged. -/
theorem ebSpec_of_none (h : Heap) (i j : Nat) (hpi : parentOf h i = none) :
    ebSpec h i j = childrenOf h j := by
  unfold ebSpec
  rw [hpi]

/-- Detached child lists with an old parent: erased there, unchanged elsewhere. -/
theorem ebSpec_of_some (h : Heap) (i j p : Nat) (hpi : parentOf h i = some p) :
    ebSpec h i j = if j = p then (childrenOf h p).erase i else childrenOf h j := by
  unfold ebSpec
  rw [hpi]

/-- Detached child lists are sublists of the originals. -/
theorem ebSpec_subset (h : Heap) (i : Nat) :
    ∀ j c, c ∈ ebSpec h i j → c ∈ childrenOf h j := by
  intro j c hc
  cases hpi : parentOf h i with
  | none =>
    rw [ebSpec_of_none h i j hpi] at hc
    exact hc
  | some p =>
    rw [ebSpec_of_some h i j p hpi] at hc
    by_cases hjp : j = p
    · rw [if_pos hjp] at hc
      subst hjp
      exact List.mem_of_mem_erase hc
    · rw [if_neg hjp] at hc
      exact hc

/-- After the detach half of a move, the moved node is in no child list. -/
theorem not_mem_ebSpec (h : Heap) (i : Nat)
    (hwf : WFHeap h) (hi : i ∈ keysH h) :
    ∀ j, i ∉ ebSpec h i j := by
  intro j hc
  cases hpi : parentOf h i with
  | none =>
    rw [ebSpec_of_none h i j hpi] at hc
    have := wf_childOK h hwf j i hc
    rw [hpi] at this
    exact Option.noConfusion this
  | some p =>
    rw [ebSpec_of_some h i j p hpi] at hc
    by_cases hjp : j = p
    · rw [if_pos hjp] at hc
      have hip : i ∈ childrenOf h p := wf_parentOK h hwf i p hi hpi
      have h1 : (childrenOf h p).count i ≤ totalCount h i :=
        count_childrenOf_le_totalCount h p i
      have h2 : totalCount h i ≤ 1 := wf_uniq h hwf p i hip
      have h3 : 0 < (childrenOf h p).count i := List.count_pos_iff.mpr hip
      have h4 : ((childrenOf h p).erase i).count i = (childrenOf h p).count i - 1 :=
        List.count_erase_self i (childrenOf h p)
      have h5 : 0 < ((childrenOf h p).erase i).count i := List.count_pos_iff.mpr hc
      omega
    · rw [if_neg hjp] at hc
      have := wf_childOK h hwf j i hc
      rw [hpi] at this
      exact hjp (Option.some_inj.mp this).symm

/-- Detaching one node keeps every other child-list member. -/
theorem mem_ebSpec_of_ne (h : Heap) (i : Nat) :
    ∀ j c, c ≠ i → c ∈ childrenOf h j → c ∈ ebSpec h i j := by
  intro j c hne hc
  cases hpi : parentOf h i with
  | none =>
    rw [ebSpec_of_none h i j hpi]
    exact hc
  | some p =>
    rw [ebSpec_of_some h i j p hpi]
    by_cases hjp : j = p
    · rw [if_pos hjp]
      subst hjp
      exact (List.mem_erase_of_ne hne).mpr hc
    · rw [if_neg hjp]
      exact hc

/-- Two field updates at the same id agree when the functions agree on the
stored record. -/
theorem modifyH_congr (h : Heap) (p : Nat) (f g : HNode → HNode)
    (hnd : (keysH h).Nodup)
    (hfg : ∀ r, lookupH h p = some r → f r = g r) :
    modifyH h p f = modifyH h p g := by
  induction h with
  | nil => rfl
  | cons kv rest ih =>
    have hnd0 : (kv.1 :: keysH rest).Nodup := hnd
    have hnd1 : kv.1 ∉ keysH rest := (List.nodup_cons.mp hnd0).1
    have hnd2 : (keysH rest).Nodup := (List.nodup_cons.mp hnd0).2
    show ((if kv.1 = p then (kv.1, f kv.2) else kv) :: modifyH rest p f) =
      ((if kv.1 = p then (kv.1, g kv.2) else kv) :: modifyH rest p g)
    by_cases h1 : kv.1 = p
    · have hl : lookupH (kv :: rest) p = some kv.2 := by
        show (if kv.1 = p then some kv.2 else lookupH rest p) = _
        rw [if_pos h1]
      rw [if_pos h1, if_pos h1, hfg kv.2 hl,
        modifyH_not_mem rest p f (h1 ▸ hnd1), modifyH_not_mem rest p g (h1 ▸ hnd1)]
    · rw [if_neg h1, if_neg h1, ih hnd2 (fun r hr => hfg r (by
        show (if kv.1 = p then some kv.2 else lookupH rest p) = some r
        rw [if_neg h1]
        exact hr))]

/-- A node with a parent pointer is present in the heap. -/
theorem mem_keys_of_parentOf (h : Heap) (c p : Nat)
    (hp : parentOf h c = some p) : c ∈ keysH h := by
  unfold parentOf at hp
  cases hl : lookupH h c with
  | none =>
    rw [hl] at hp
    exact Option.noConfusion hp
  | some r => exact mem_keys_of_lookupH h c r hl

/-- In a well-formed heap every listed child id is itself present. -/
theorem children_sub_keys (h : Heap) (hwf : WFHeap h) (k c : Nat)
    (hc : c ∈ childrenOf h k) : c ∈ keysH h :=
  mem_keys_of_parentOf h c k (wf_childOK h hwf k c hc)

/-- Names survive an update that preserves the name field. -/
theorem nameOf_modifyH_keep (h : Heap) (i : Nat) (f : HNode → HNode) (j : Nat)
    (hf : ∀ r, (f r).name = r.name) :
    nameOf (modifyH h i f) j = nameOf h j := by
  unfold nameOf
  rw [lookupH_modifyH]
  by_cases h1 : j = i
  · rw [if_pos h1]
    subst h1
    cases lookupH h j with
    | none => rfl
    | some r => simp [hf]
  · rw [if_neg h1]

/-- Setting a parent field keeps all names. -/
theorem nameOf_modifyH_par (h : Heap) (x : Nat) (q : Option Nat) (j : Nat) :
    nameOf (modifyH h x (fun r => { r with parent := q })) j = nameOf h j :=
  nameOf_modifyH_keep h x _ j (fun _ => rfl)

/-- Erasing from a child list keeps all names. -/
theorem nameOf_modifyH_er (h : Heap) (x i j : Nat) :
    nameOf (modifyH h x (fun r => { r with children := r.children.erase i })) j =
      nameOf h j :=
  nameOf_modifyH_keep h x _ j (fun _ => rfl)

/-- Node `==` only consults names, so it transfers along name-preserving
heap transformations. -/
theorem nodeEqB_congr (h h2 : Heap) (hnm : ∀ j, nameOf h2 j = nameOf h j)
    (a b : Nat) : nodeEqB h2 a b = nodeEqB h a b := by
  unfold nodeEqB
  rw [hnm a, hnm b]

/-- `==`-containment transfers along name-preserving heap transformations. -/
theorem memEqB_congr (h h2 : Heap) (hnm : ∀ j, nameOf h2 j = nameOf h j)
    (i : Nat) (l : List Nat) : memEqB h2 i l = memEqB h i l := by
  unfold memEqB
  induction l with
  | nil => rfl
  | cons c cs ih =>
    show (nodeEqB h2 c i || cs.any (fun c => nodeEqB h2 c i)) = _
    rw [nodeEqB_congr h h2 hnm c i, ih]
    rfl

/-- Under unique non-`None` names, `==` between present nodes is identity. -/
theorem nodeEqB_iff (h : Heap) (hnd : (keysH h).Nodup) (hu : UniqueNames h)
    (a b : Nat) (ha : a ∈ keysH h) (hb : b ∈ keysH h) :
    nodeEqB h a b = true ↔ a = b := by
  constructor
  · intro he
    unfold nodeEqB at he
    rcases Bool.or_eq_true_iff.mp he with h1 | h1
    · exact eq_of_beq h1
    · rcases lookupH_isSome_of_mem_keys h a ha with ⟨ra, hla⟩
      rcases lookupH_isSome_of_mem_keys h b hb with ⟨rb, hlb⟩
      have ea : nameOf h a = ra.name := by
        unfold nameOf
        rw [hla]
      have eb : nameOf h b = rb.name := by
        unfold nameOf
        rw [hlb]
      rw [ea, eb] at h1
      cases hna : ra.name with
      | none =>
        cases hnb : rb.name with
        | none =>
          rw [hna, hnb] at h1
          exact Bool.noConfusion (show false = true from h1)
        | some nb =>
          rw [hna, hnb] at h1
          exact Bool.noConfusion (show false = true from h1)
      | some na =>
        cases hnb : rb.name with
        | none =>
          rw [hna, hnb] at h1
          exact Bool.noConfusion (show false = true from h1)
        | some nb =>
          rw [hna, hnb] at h1
          have hnn : na = nb := eq_of_beq (show (na == nb) = true from h1)
          exact hu (a, ra) (mem_of_lookupH h a ra hla) (b, rb)
            (mem_of_lookupH h b rb hlb)
            (by simp [hna]) (by simp [hna, hnb, hnn])
  · intro he
    subst he
    unfold nodeEqB
    simp

/-- Under unique names, `list.remove` on a child list of present nodes is
the identity-based erase. -/
theorem eraseEqH_eq_erase (h : Heap) (hnd : (keysH h).Nodup)
    (hu : UniqueNames h) (i : Nat) (hi : i ∈ keysH h) (l : List Nat)
    (hl : ∀ c ∈ l, c ∈ keysH h) : eraseEqH h i l = l.erase i := by
  induction l with
  | nil => rfl
  | cons c cs ih =>
    show (if nodeEqB h c i then cs else c :: eraseEqH h i cs) = _
    rw [List.erase_cons]
    by_cases hci : c = i
    · rw [if_pos ((nodeEqB_iff h hnd hu c i (hl c (List.mem_cons_self _ _)) hi).mpr hci),
        if_pos (by simp [hci])]
    · rw [if_neg (fun e => hci ((nodeEqB_iff h hnd hu c i
        (hl c (List.mem_cons_self _ _)) hi).mp e)),
        if_neg (by simp [hci]),
        ih (fun d hd => hl d (List.mem_cons_of_mem _ hd))]

/-- Under unique names, `==`-containment in a child list of present nodes
is identity membership. -/
theorem memEqB_iff (h : Heap) (hnd : (keysH h).Nodup) (hu : UniqueNames h)
    (i : Nat) (hi : i ∈ keysH h) (l : List Nat)
    (hl : ∀ c ∈ l, c ∈ keysH h) : memEqB h i l = true ↔ i ∈ l := by
  unfold memEqB
  rw [List.any_eq_true]
  constructor
  · rintro ⟨c, hc, he⟩
    rw [(nodeEqB_iff h hnd hu c i (hl c hc) hi).mp he] at hc
    exact hc
  · intro hm
    exact ⟨i, hm, (nodeEqB_iff h hnd hu i i hi hi).mpr rfl⟩

/-- Lookup in a heap extended by one fresh entry. -/
theorem lookupH_append_sing (h : Heap) (n : Nat) (r : HNode) (j : Nat)
    (hn : n ∉ keysH h) :
    lookupH (h ++ [(n, r)]) j = if j = n then some r else lookupH h j := by
  induction h with
  | nil =>
    show (if n = j then some r else lookupH [] j) = _
    by_cases h1 : j = n
    · rw [if_pos h1, if_pos (h1 ▸ rfl)]
    · rw [if_neg h1, if_neg (fun e => h1 e.symm)]
  | cons kv rest ih =>
    have hn2 : n ∉ keysH rest := fun e => hn (List.mem_cons_of_mem _ e)
    show (if kv.1 = j then some kv.2 else lookupH (rest ++ [(n, r)]) j) = _
    by_cases h1 : kv.1 = j
    · rw [if_pos h1]
      have hjn : ¬ j = n := fun e => hn (e ▸ h1 ▸ List.mem_cons_self _ _)
      rw [if_neg hjn]
      show _ = (if kv.1 = j then some kv.2 else lookupH rest j)
      rw [if_pos h1]
    · rw [if_neg h1, ih hn2]
      by_cases h2 : j = n
      · rw [if_pos h2, if_pos h2]
      · rw [if_neg h2, if_neg h2]
        show _ = (if kv.1 = j then some kv.2 else lookupH rest j)
        rw [if_neg h1]

/-- Keys of a heap extended by one entry. -/
theorem keysH_append_sing (h : Heap) (n : Nat) (r : HNode) :
    keysH (h ++ [(n, r)]) = keysH h ++ [n] := by
  simp [keysH]

/-- Totals of a heap extended by one entry. -/
theorem totalCount_append_sing (h : Heap) (n : Nat) (r : HNode) (c : Nat) :
    totalCount (h ++ [(n, r)]) c = totalCount h c + r.children.count c := by
  simp [totalCount]

/-- Core preservation lemma: a heap whose views equal those of a well-formed heap after a detach-and-attach move of one node is well-formed. -/
theorem wf_move (h h2 : Heap) (s i : Nat)
    (hwf : WFHeap h) (hi : i ∈ keysH h)
    (hk : keysH h2 = keysH h)
    (hpar : ∀ j, parentOf h2 j = if j = i then some s else parentOf h j)
    (hch : ∀ j, childrenOf h2 j = if j = s then ebSpec h i s ++ [i] else ebSpec h i j)
    (hcnt : ∀ c, totalCount h2 c = if c = i then 1 else totalCount h c) :
    WFHeap h2 := by
  apply WFHeap_of_views h2 (hk ▸ hwf.1)
  · intro k c hc
    rw [hch k] at hc
    rw [hpar c]
    by_cases hks : k = s
    · subst hks
      rw [if_pos rfl] at hc
      rcases List.mem_append.mp hc with hce | hci
      · have hcne : c ≠ i := fun e => not_mem_ebSpec h i hwf hi k (e ▸ hce)
        rw [if_neg hcne]
        exact wf_childOK h hwf k c (ebSpec_subset h i k c hce)
      · rw [if_pos (List.mem_singleton.mp hci)]
    · rw [if_neg hks] at hc
      have hcne : c ≠ i := fun e => not_mem_ebSpec h i hwf hi k (e ▸ hc)
      rw [if_neg hcne]
      exact wf_childOK h hwf k c (ebSpec_subset h i k c hc)
  · intro k hk2 q hq
    rw [hpar k] at hq
    rw [hch q]
    by_cases hki : k = i
    · rw [if_pos hki] at hq
      have hqs : s = q := Option.some_inj.mp hq
      rw [if_pos hqs.symm]
      exact List.mem_append.mpr (Or.inr (hki ▸ List.mem_singleton.mpr rfl))
    · rw [if_neg hki] at hq
      have hkc : k ∈ childrenOf h q := wf_parentOK h hwf k q (hk ▸ hk2) hq
      have hke : k ∈ ebSpec h i q := mem_ebSpec_of_ne h i q k hki hkc
      by_cases hqs : q = s
      · subst hqs
        rw [if_pos rfl]
        exact List.mem_append.mpr (Or.inl hke)
      · rw [if_neg hqs]
        exact hke
  · intro k c hc
    rw [hcnt c]
    by_cases hci : c = i
    · rw [if_pos hci]
    · rw [if_neg hci]
      rw [hch k] at hc
      by_cases hks : k = s
      · subst hks
        rw [if_pos rfl] at hc
        rcases List.mem_append.mp hc with hce | hcm
        · exact wf_uniq h hwf k c (ebSpec_subset h i k c hce)
        · exact absurd (List.mem_singleton.mp hcm) hci
      · rw [if_neg hks] at hc
        exact wf_uniq h hwf k c (ebSpec_subset h i k c hc)

/-- Core preservation lemma: a heap whose views equal those of a well-formed heap after detaching one node is well-formed. -/
theorem wf_detach (h h2 : Heap) (i : Nat)
    (hwf : WFHeap h) (hi : i ∈ keysH h)
    (hk : keysH h2 = keysH h)
    (hpar : ∀ j, parentOf h2 j = if j = i then none else parentOf h j)
    (hch : ∀ j, childrenOf h2 j = ebSpec h i j)
    (hcnt : ∀ c, totalCount h2 c = if c = i then 0 else totalCount h c) :
    WFHeap h2 := by
  apply WFHeap_of_views h2 (hk ▸ hwf.1)
  · intro k c hc
    rw [hch k] at hc
    rw [hpar c]
    have hcne : c ≠ i := fun e => not_mem_ebSpec h i hwf hi k (e ▸ hc)
    rw [if_neg hcne]
    exact wf_childOK h hwf k c (ebSpec_subset h i k c hc)
  · intro k hk2 q hq
    rw [hpar k] at hq
    rw [hch q]
    by_cases hki : k = i
    · rw [if_pos hki] at hq
      exact Option.noConfusion hq
    · rw [if_neg hki] at hq
      exact mem_ebSpec_of_ne h i q k hki (wf_parentOK h hwf k q (hk ▸ hk2) hq)
  · intro k c hc
    rw [hcnt c]
    by_cases hci : c = i
    · rw [if_pos hci]
      omega
    · rw [if_neg hci]
      rw [hch k] at hc
      exact wf_uniq h hwf k c (ebSpec_subset h i k c hc)

/-- TreeNode.append preserves heap well-formedness provided the appended node is not already a child of the target. -/
theorem wf_appendH (h : Heap) (s i : Nat) (hwf : WFHeap h)
    (hu : UniqueNames h) (hs : s ∈ keysH h) (hi : i ∈ keysH h)
    (hni : i ∉ childrenOf h s) :
    WFHeap (appendH h s i) := by
  have hps : parentOf h i ≠ some s := fun e => hni (wf_parentOK h hwf i s hi e)
  cases hpi : parentOf h i with
  | none =>
    have ht : appendH h s i =
        modifyH (modifyH h i (fun r => { r with parent := some s })) s
          (fun r => { r with children := r.children ++ [i] }) := by
      unfold appendH toSelfChild
      rw [hpi]
    have hs2 : s ∈ keysH (modifyH h i (fun r => { r with parent := some s })) := by
      rw [keysH_modifyH]
      exact hs
    apply wf_move h (appendH h s i) s i hwf hi
    · rw [ht, keysH_modifyH, keysH_modifyH]
    · intro j
      rw [ht, parentOf_modifyH_app _ s i j,
        parentOf_modifyH_set h i (some s) j hi]
    · intro j
      rw [ebSpec_of_none h i s hpi, ebSpec_of_none h i j hpi, ht,
        childrenOf_modifyH_app _ s i j hs2,
        childrenOf_modifyH_par h i (some s) s,
        childrenOf_modifyH_par h i (some s) j]
    · intro c
      rcases lookupH_isSome_of_mem_keys _ s hs2 with ⟨rs2, hlrs2⟩
      have hnd2 : (keysH (modifyH h i (fun r => { r with parent := some s }))).Nodup := by
        rw [keysH_modifyH]
        exact hwf.1
      have e1 := totalCount_modifyH_app _ s i rs2 c hnd2 hlrs2
      have e2 : totalCount (modifyH h i (fun r => { r with parent := some s })) c =
          totalCount h c := totalCount_modifyH_par h i (some s) c
      have e3 : (rs2.children ++ [i]).count c =
          rs2.children.count c + [i].count c := List.count_append c rs2.children [i]
      rw [e2, e3] at e1
      rw [ht]
      by_cases hci : c = i
      · rw [if_pos hci]
        subst hci
        have h0 : totalCount h c = 0 := wf_count_zero h hwf c hpi
        have h4 : [c].count c = 1 := by simp
        omega
      · rw [if_neg hci]
        have h4 : [i].count c = 0 := List.count_eq_zero.mpr (by
          intro hm
          exact hci (List.mem_singleton.mp hm))
        omega
  | some p =>
    have hpne : ¬ p = s := fun e => hps (e ▸ hpi)
    have hip : i ∈ childrenOf h p := wf_parentOK h hwf i p hi hpi
    have hpk : p ∈ keysH h := mem_keys_of_childrenOf h p i hip
    have hneq : ¬ nodeEqB h p s = true := fun e =>
      hpne ((nodeEqB_iff h hwf.1 hu p s hpk hs).mp e)
    have herw : modifyH h p (fun r => { r with children := eraseEqH h i r.children }) =
        modifyH h p (fun r => { r with children := r.children.erase i }) :=
      modifyH_congr h p _ _ hwf.1 (fun r hr => by
        rw [eraseEqH_eq_erase h hwf.1 hu i hi r.children (fun c hc =>
          children_sub_keys h hwf p c
            ((childrenOf_eq_of_lookupH h p r hr) ▸ hc))])
    have ht : appendH h s i =
        modifyH (modifyH (modifyH h p (fun r => { r with children := r.children.erase i }))
          i (fun r => { r with parent := some s })) s
          (fun r => { r with children := r.children ++ [i] }) := by
      unfold appendH toSelfChild
      rw [hpi]
      show modifyH (modifyH (if nodeEqB h p s then h else modifyH h p
          (fun r => { r with children := eraseEqH h i r.children }))
          i (fun r => { r with parent := some s })) s
          (fun r => { r with children := r.children ++ [i] }) = _
      rw [if_neg hneq, herw]
    have hs2 : s ∈ keysH (modifyH (modifyH h p
        (fun r => { r with children := r.children.erase i }))
        i (fun r => { r with parent := some s })) := by
      rw [keysH_modifyH, keysH_modifyH]
      exact hs
    apply wf_move h (appendH h s i) s i hwf hi
    · rw [ht, keysH_modifyH, keysH_modifyH, keysH_modifyH]
    · intro j
      rw [ht, parentOf_modifyH_app _ s i j,
        parentOf_modifyH_set _ i (some s) j (by rw [keysH_modifyH]; exact hi),
        parentOf_modifyH_er h p i j]
    · intro j
      rw [ebSpec_of_some h i s p hpi, ebSpec_of_some h i j p hpi, ht,
        childrenOf_modifyH_app _ s i j hs2,
        childrenOf_modifyH_par _ i (some s) s,
        childrenOf_modifyH_par _ i (some s) j,
        childrenOf_modifyH_erase h p i s hpk,
        childrenOf_modifyH_erase h p i j hpk]
    · intro c
      rcases lookupH_isSome_of_mem_keys h p hpk with ⟨rp, hlrp⟩
      rcases lookupH_isSome_of_mem_keys _ s hs2 with ⟨rs2, hlrs2⟩
      have hnd2 : (keysH (modifyH (modifyH h p
          (fun r => { r with children := r.children.erase i }))
          i (fun r => { r with parent := some s }))).Nodup := by
        rw [keysH_modifyH, keysH_modifyH]
        exact hwf.1
      have e1 := totalCount_modifyH_erase h p i rp c hwf.1 hlrp
      have e2 : totalCount (modifyH (modifyH h p
          (fun r => { r with children := r.children.erase i }))
          i (fun r => { r with parent := some s })) c =
          totalCount (modifyH h p (fun r => { r with children := r.children.erase i })) c :=
        totalCount_modifyH_par _ i (some s) c
      have e3 := totalCount_modifyH_app _ s i rs2 c hnd2 hlrs2
      have e4 : (rs2.children ++ [i]).count c =
          rs2.children.count c + [i].count c := List.count_append c rs2.children [i]
      rw [e2, e4] at e3
      have hrc : rp.children = childrenOf h p :=
        (childrenOf_eq_of_lookupH h p rp hlrp).symm
      rw [ht]
      by_cases hci : c = i
      · rw [if_pos hci]
        subst hci
        have hle : totalCount h c ≤ 1 := wf_uniq h hwf p c hip
        have hge : 0 < rp.children.count c :=
          List.count_pos_iff.mpr (hrc ▸ hip)
        have hcl : rp.children.count c ≤ totalCount h c :=
          count_children_le_totalCount h p rp c hlrp
        have hce : (rp.children.erase c).count c =
            rp.children.count c - 1 := List.count_erase_self c rp.children
        have h4 : [c].count c = 1 := by simp
        omega
      · rw [if_neg hci]
        have hce : (rp.children.erase i).count c =
            rp.children.count c := List.count_erase_of_ne hci rp.children
        have h4 : [i].count c = 0 := List.count_eq_zero.mpr (by
          intro hm
          exact hci (List.mem_singleton.mp hm))
        omega

/-- Clearing the Parent property preserves heap well-formedness. -/
theorem wf_setParentH_none (h : Heap) (x : Nat) (hwf : WFHeap h)
    (hx : x ∈ keysH h) : WFHeap (setParentH h x none) := by
  cases hpi : parentOf h x with
  | none =>
    have ht : setParentH h x none =
        modifyH h x (fun r => { r with parent := none }) := by
      unfold setParentH
      rw [hpi]
    apply wf_detach h _ x hwf hx
    · rw [ht, keysH_modifyH]
    · intro j
      rw [ht, parentOf_modifyH_set h x none j hx]
    · intro j
      rw [ebSpec_of_none h x j hpi, ht, childrenOf_modifyH_par h x none j]
    · intro c
      rw [ht, totalCount_modifyH_par h x none c]
      by_cases hcx : c = x
      · rw [if_pos hcx]
        subst hcx
        exact wf_count_zero h hwf c hpi
      · rw [if_neg hcx]
  | some old =>
    have hxo : x ∈ childrenOf h old := wf_parentOK h hwf x old hx hpi
    have hok : old ∈ keysH h := mem_keys_of_childrenOf h old x hxo
    have hok2 : old ∈ keysH (modifyH h x (fun r => { r with parent := none })) := by
      rw [keysH_modifyH]
      exact hok
    have hx2 : x ∈ keysH (modifyH (modifyH h x (fun r => { r with parent := none }))
        old (fun r => { r with children := r.children.erase x })) := by
      rw [keysH_modifyH, keysH_modifyH]
      exact hx
    have hrm : removeNodeH h old x =
        modifyH (modifyH h x (fun r => { r with parent := none })) old
          (fun r => { r with children := r.children.erase x }) := by
      unfold removeNodeH
      rw [if_pos hxo]
    have ht : setParentH h x none =
        modifyH (modifyH (modifyH h x (fun r => { r with parent := none })) old
          (fun r => { r with children := r.children.erase x })) x
          (fun r => { r with parent := none }) := by
      unfold setParentH
      rw [hpi]
      show modifyH (removeNodeH h old x) x (fun r => { r with parent := none }) = _
      rw [hrm]
    apply wf_detach h _ x hwf hx
    · rw [ht, keysH_modifyH, keysH_modifyH, keysH_modifyH]
    · intro j
      rw [ht, parentOf_modifyH_set _ x none j hx2,
        parentOf_modifyH_er _ old x j,
        parentOf_modifyH_set h x none j hx]
      by_cases hjx : j = x
      · rw [if_pos hjx, if_pos hjx]
      · rw [if_neg hjx, if_neg hjx]
    · intro j
      rw [ebSpec_of_some h x j old hpi, ht,
        childrenOf_modifyH_par _ x none j,
        childrenOf_modifyH_erase _ old x j hok2,
        childrenOf_modifyH_par h x none old,
        childrenOf_modifyH_par h x none j]
    · intro c
      rcases lookupH_isSome_of_mem_keys _ old hok2 with ⟨rold, hlrold⟩
      have hnd1 : (keysH (modifyH h x (fun r => { r with parent := none }))).Nodup := by
        rw [keysH_modifyH]
        exact hwf.1
      have e1 : totalCount (modifyH h x (fun r => { r with parent := none })) c =
          totalCount h c := totalCount_modifyH_par h x none c
      have e2 := totalCount_modifyH_erase _ old x rold c hnd1 hlrold
      rw [e1] at e2
      have e3 : totalCount (modifyH (modifyH (modifyH h x
          (fun r => { r with parent := none })) old
          (fun r => { r with children := r.children.erase x })) x
          (fun r => { r with parent := none })) c =
          totalCount (modifyH (modifyH h x (fun r => { r with parent := none })) old
            (fun r => { r with children := r.children.erase x })) c :=
        totalCount_modifyH_par _ x none c
      have hrc : rold.children = childrenOf h old := by
        rw [← childrenOf_modifyH_par h x none old]
        exact (childrenOf_eq_of_lookupH _ old rold hlrold).symm
      rw [ht, e3]
      by_cases hcx : c = x
      · rw [if_pos hcx]
        subst hcx
        have hle : totalCount h c ≤ 1 := wf_uniq h hwf old c hxo
        have hge : 0 < rold.children.count c := List.count_pos_iff.mpr (hrc ▸ hxo)
        have hcl : rold.children.count c ≤ totalCount h c := by
          rw [hrc]
          exact count_childrenOf_le_totalCount h old c
        have hce : (rold.children.erase c).count c =
            rold.children.count c - 1 := List.count_erase_self c rold.children
        omega
      · rw [if_neg hcx]
        have hce : (rold.children.erase x).count c =
            rold.children.count c := List.count_erase_of_ne hcx rold.children
        omega

/-- Setting the Parent property to a node of the heap preserves heap well-formedness. -/
theorem wf_setParentH_some (h : Heap) (x q : Nat) (hwf : WFHeap h)
    (hu : UniqueNames h) (hx : x ∈ keysH h) (hq : q ∈ keysH h) :
    WFHeap (setParentH h x (some q)) := by
  cases hpi : parentOf h x with
  | none =>
    have hnm1 : ∀ j, nameOf (modifyH h x (fun r => { r with parent := some q })) j =
        nameOf h j := fun j => nameOf_modifyH_par h x (some q) j
    have hguard : ¬ memEqB (modifyH h x (fun r => { r with parent := some q })) x
        (childrenOf (modifyH h x (fun r => { r with parent := some q })) q) = true := by
      rw [childrenOf_modifyH_par h x (some q) q,
        memEqB_congr h _ hnm1 x (childrenOf h q)]
      intro hm
      have hxm : x ∈ childrenOf h q :=
        (memEqB_iff h hwf.1 hu x hx (childrenOf h q)
          (fun c hc => children_sub_keys h hwf q c hc)).mp hm
      have := wf_childOK h hwf q x hxm
      rw [hpi] at this
      exact Option.noConfusion this
    have ht : setParentH h x (some q) =
        modifyH (modifyH h x (fun r => { r with parent := some q })) q
          (fun r => { r with children := r.children ++ [x] }) := by
      unfold setParentH
      rw [hpi]
      show (if memEqB (modifyH h x (fun r => { r with parent := some q })) x
          (childrenOf (modifyH h x (fun r => { r with parent := some q })) q)
        then modifyH h x (fun r => { r with parent := some q })
        else modifyH (modifyH h x (fun r => { r with parent := some q })) q
          (fun r => { r with children := r.children ++ [x] })) = _
      rw [if_neg hguard]
    have hq2 : q ∈ keysH (modifyH h x (fun r => { r with parent := some q })) := by
      rw [keysH_modifyH]
      exact hq
    apply wf_move h _ q x hwf hx
    · rw [ht, keysH_modifyH, keysH_modifyH]
    · intro j
      rw [ht, parentOf_modifyH_app _ q x j, parentOf_modifyH_set h x (some q) j hx]
    · intro j
      rw [ebSpec_of_none h x q hpi, ebSpec_of_none h x j hpi, ht,
        childrenOf_modifyH_app _ q x j hq2,
        childrenOf_modifyH_par h x (some q) q,
        childrenOf_modifyH_par h x (some q) j]
    · intro c
      rcases lookupH_isSome_of_mem_keys _ q hq2 with ⟨rq2, hlrq2⟩
      have hnd2 : (keysH (modifyH h x (fun r => { r with parent := some q }))).Nodup := by
        rw [keysH_modifyH]
        exact hwf.1
      have e1 := totalCount_modifyH_app _ q x rq2 c hnd2 hlrq2
      have e2 : totalCount (modifyH h x (fun r => { r with parent := some q })) c =
          totalCount h c := totalCount_modifyH_par h x (some q) c
      have e3 : (rq2.children ++ [x]).count c =
          rq2.children.count c + [x].count c := List.count_append c rq2.children [x]
      rw [e2, e3] at e1
      rw [ht]
      by_cases hcx : c = x
      · rw [if_pos hcx]
        subst hcx
        have h0 : totalCount h c = 0 := wf_count_zero h hwf c hpi
        have h4 : [c].count c = 1 := by simp
        omega
      · rw [if_neg hcx]
        have h4 : [x].count c = 0 := List.count_eq_zero.mpr (by
          intro hm
          exact hcx (List.mem_singleton.mp hm))
        omega
  | some old =>
    have hxo : x ∈ childrenOf h old := wf_parentOK h hwf x old hx hpi
    have hok : old ∈ keysH h := mem_keys_of_childrenOf h old x hxo
    have hok2 : old ∈ keysH (modifyH h x (fun r => { r with parent := none })) := by
      rw [keysH_modifyH]
      exact hok
    have hx2 : x ∈ keysH (modifyH (modifyH h x (fun r => { r with parent := none }))
        old (fun r => { r with children := r.children.erase x })) := by
      rw [keysH_modifyH, keysH_modifyH]
      exact hx
    have hq3 : q ∈ keysH (modifyH (modifyH (modifyH h x
        (fun r => { r with parent := none })) old
        (fun r => { r with children := r.children.erase x })) x
        (fun r => { r with parent := some q })) := by
      rw [keysH_modifyH, keysH_modifyH, keysH_modifyH]
      exact hq
    have hrm : removeNodeH h old x =
        modifyH (modifyH h x (fun r => { r with parent := none })) old
          (fun r => { r with children := r.children.erase x }) := by
      unfold removeNodeH
      rw [if_pos hxo]
    have hebq : ∀ j, childrenOf (modifyH (modifyH (modifyH h x
        (fun r => { r with parent := none })) old
        (fun r => { r with children := r.children.erase x })) x
        (fun r => { r with parent := some q })) j =
        if j = old then (childrenOf h old).erase x else childrenOf h j := by
      intro j
      rw [childrenOf_modifyH_par _ x (some q) j,
        childrenOf_modifyH_erase _ old x j hok2,
        childrenOf_modifyH_par h x none old,
        childrenOf_modifyH_par h x none j]
    have hnm3 : ∀ j, nameOf (modifyH (modifyH (modifyH h x
        (fun r => { r with parent := none })) old
        (fun r => { r with children := r.children.erase x })) x
        (fun r => { r with parent := some q })) j = nameOf h j := fun j => by
      rw [nameOf_modifyH_par _ x (some q) j, nameOf_modifyH_er _ old x j,
        nameOf_modifyH_par h x none j]
    have hguard : ¬ memEqB (modifyH (modifyH (modifyH h x
        (fun r => { r with parent := none })) old
        (fun r => { r with children := r.children.erase x })) x
        (fun r => { r with parent := some q })) x
        (childrenOf (modifyH (modifyH (modifyH h x
          (fun r => { r with parent := none })) old
          (fun r => { r with children := r.children.erase x })) x
          (fun r => { r with parent := some q })) q) = true := by
      rw [hebq q, memEqB_congr h _ hnm3 x _]
      intro hm
      have hsub : ∀ c, c ∈ (if q = old then (childrenOf h old).erase x
          else childrenOf h q) → c ∈ keysH h := by
        intro c hc
        by_cases hqo : q = old
        · rw [if_pos hqo] at hc
          exact children_sub_keys h hwf old c (List.mem_of_mem_erase hc)
        · rw [if_neg hqo] at hc
          exact children_sub_keys h hwf q c hc
      have hxm := (memEqB_iff h hwf.1 hu x hx _ hsub).mp hm
      have hne := not_mem_ebSpec h x hwf hx q
      rw [ebSpec_of_some h x q old hpi] at hne
      exact hne hxm
    have ht : setParentH h x (some q) =
        modifyH (modifyH (modifyH (modifyH h x
          (fun r => { r with parent := none })) old
          (fun r => { r with children := r.children.erase x })) x
          (fun r => { r with parent := some q })) q
          (fun r => { r with children := r.children ++ [x] }) := by
      unfold setParentH
      rw [hpi]
      show (if memEqB (modifyH (removeNodeH h old x) x
          (fun r => { r with parent := some q })) x
          (childrenOf (modifyH (removeNodeH h old x) x
            (fun r => { r with parent := some q })) q)
        then modifyH (removeNodeH h old x) x (fun r => { r with parent := some q })
        else modifyH (modifyH (removeNodeH h old x) x
          (fun r => { r with parent := some q })) q
          (fun r => { r with children := r.children ++ [x] })) = _
      rw [hrm, if_neg hguard]
    apply wf_move h _ q x hwf hx
    · rw [ht, keysH_modifyH, keysH_modifyH, keysH_modifyH, keysH_modifyH]
    · intro j
      rw [ht, parentOf_modifyH_app _ q x j,
        parentOf_modifyH_set _ x (some q) j hx2,
        parentOf_modifyH_er _ old x j,
        parentOf_modifyH_set h x none j hx]
      by_cases hjx : j = x
      · rw [if_pos hjx, if_pos hjx]
      · rw [if_neg hjx, if_neg hjx, if_neg hjx]
    · intro j
      rw [ebSpec_of_some h x q old hpi, ebSpec_of_some h x j old hpi, ht,
        childrenOf_modifyH_app _ q x j hq3, hebq q, hebq j]
    · intro c
      rcases lookupH_isSome_of_mem_keys _ old hok2 with ⟨rold, hlrold⟩
      rcases lookupH_isSome_of_mem_keys _ q hq3 with ⟨rq3, hlrq3⟩
      have hnd1 : (keysH (modifyH h x (fun r => { r with parent := none }))).Nodup := by
        rw [keysH_modifyH]
        exact hwf.1
      have hnd3 : (keysH (modifyH (modifyH (modifyH h x
          (fun r => { r with parent := none })) old
          (fun r => { r with children := r.children.erase x })) x
          (fun r => { r with parent := some q }))).Nodup := by
        rw [keysH_modifyH, keysH_modifyH, keysH_modifyH]
        exact hwf.1
      have e1 : totalCount (modifyH h x (fun r => { r with parent := none })) c =
          totalCount h c := totalCount_modifyH_par h x none c
      have e2 := totalCount_modifyH_erase _ old x rold c hnd1 hlrold
      rw [e1] at e2
      have e3 : totalCount (modifyH (modifyH (modifyH h x
          (fun r => { r with parent := none })) old
          (fun r => { r with children := r.children.erase x })) x
          (fun r => { r with parent := some q })) c =
          totalCount (modifyH (modifyH h x (fun r => { r with parent := none })) old
            (fun r => { r with children := r.children.erase x })) c :=
        totalCount_modifyH_par _ x (some q) c
      have e4 := totalCount_modifyH_app _ q x rq3 c hnd3 hlrq3
      have e5 : (rq3.children ++ [x]).count c =
          rq3.children.count c + [x].count c := List.count_append c rq3.children [x]
      rw [e3, e5] at e4
      have hrc : rold.children = childrenOf h old := by
        rw [← childrenOf_modifyH_par h x none old]
        exact (childrenOf_eq_of_lookupH _ old rold hlrold).symm
      rw [ht]
      by_cases hcx : c = x
      · rw [if_pos hcx]
        subst hcx
        have hle : totalCount h c ≤ 1 := wf_uniq h hwf old c hxo
        have hge : 0 < rold.children.count c := List.count_pos_iff.mpr (hrc ▸ hxo)
        have hcl : rold.children.count c ≤ totalCount h c := by
          rw [hrc]
          exact count_childrenOf_le_totalCount h old c
        have hce : (rold.children.erase c).count c =
            rold.children.count c - 1 := List.count_erase_self c rold.children
        have h4 : [c].count c = 1 := by simp
        omega
      · rw [if_neg hcx]
        have hce : (rold.children.erase x).count c =
            rold.children.count c := List.count_erase_of_ne hcx rold.children
        have h4 : [x].count c = 0 := List.count_eq_zero.mpr (by
          intro hm
          exact hcx (List.mem_singleton.mp hm))
        omega

/-- Construction with a `Parent` keyword preserves heap well-formedness:
the fresh record stores the parent and the `==`-based containment check
lets the attach happen, provided the new name (unless `None`) is not
already used — a name clash would suppress the attach and leave a parent
pointer without a child-list entry. -/
theorem wf_initWithParent (h : Heap) (n : Nat) (nm : Option String) (p : Nat)
    (hwf : WFHeap h) (hp : p ∈ keysH h) (hn : n ∉ keysH h)
    (hnm : ∀ kv ∈ h, kv.2.name = nm → nm = none) :
    WFHeap (initWithParent h n nm p) := by
  have hpn : ¬ p = n := fun e => hn (e ▸ hp)
  have hlk : ∀ j, lookupH (h ++ [(n, (⟨some p, [], nm⟩ : HNode))]) j =
      if j = n then some ⟨some p, [], nm⟩ else lookupH h j :=
    fun j => lookupH_append_sing h n _ j hn
  have hch0 : ∀ j, childrenOf (h ++ [(n, (⟨some p, [], nm⟩ : HNode))]) j =
      if j = n then [] else childrenOf h j := by
    intro j
    unfold childrenOf
    rw [hlk j]
    by_cases hjn : j = n
    · rw [if_pos hjn, if_pos hjn]
    · rw [if_neg hjn, if_neg hjn]
  have hpar0 : ∀ j, parentOf (h ++ [(n, (⟨some p, [], nm⟩ : HNode))]) j =
      if j = n then some p else parentOf h j := by
    intro j
    unfold parentOf
    rw [hlk j]
    by_cases hjn : j = n
    · rw [if_pos hjn, if_pos hjn]
    · rw [if_neg hjn, if_neg hjn]
  have hnm0 : ∀ j, nameOf (h ++ [(n, (⟨some p, [], nm⟩ : HNode))]) j =
      if j = n then nm else nameOf h j := by
    intro j
    unfold nameOf
    rw [hlk j]
    by_cases hjn : j = n
    · rw [if_pos hjn, if_pos hjn]
    · rw [if_neg hjn, if_neg hjn]
  have hguard : ¬ memEqB (h ++ [(n, (⟨some p, [], nm⟩ : HNode))]) n
      (childrenOf (h ++ [(n, (⟨some p, [], nm⟩ : HNode))]) p) = true := by
    rw [hch0 p, if_neg hpn]
    unfold memEqB
    rw [List.any_eq_true]
    rintro ⟨c, hc, he⟩
    have hck : c ∈ keysH h := children_sub_keys h hwf p c hc
    have hcn : ¬ c = n := fun e => hn (e ▸ hck)
    unfold nodeEqB at he
    rcases Bool.or_eq_true_iff.mp he with h1 | h1
    · exact hcn (eq_of_beq h1)
    · rw [hnm0 c, if_neg hcn, hnm0 n, if_pos rfl] at h1
      cases he2 : nameOf h c with
      | none =>
        rw [he2] at h1
        cases nm with
        | none => exact Bool.noConfusion (show false = true from h1)
        | some v => exact Bool.noConfusion (show false = true from h1)
      | some nc =>
        rw [he2] at h1
        cases hnm2 : nm with
        | none =>
          rw [hnm2] at h1
          exact Bool.noConfusion (show false = true from h1)
        | some v =>
          rw [hnm2] at h1
          have hv : nc = v := eq_of_beq (show (nc == v) = true from h1)
          rcases lookupH_isSome_of_mem_keys h c hck with ⟨rc, hlc⟩
          have hrc : rc.name = some nc := by
            have hx2 : nameOf h c = rc.name := by
              unfold nameOf
              rw [hlc]
            rw [← hx2, he2]
          have hnone := hnm (c, rc) (mem_of_lookupH h c rc hlc) (by
            show rc.name = nm
            rw [hrc, hv, hnm2])
          rw [hnm2] at hnone
          exact Option.noConfusion hnone
  have ht : initWithParent h n nm p =
      modifyH (h ++ [(n, (⟨some p, [], nm⟩ : HNode))]) p
        (fun r => { r with children := r.children ++ [n] }) := by
    unfold initWithParent
    rw [if_neg hguard]
  have hp0 : p ∈ keysH (h ++ [(n, (⟨some p, [], nm⟩ : HNode))]) := by
    rw [keysH_append_sing]
    exact List.mem_append_left _ hp
  have hnd0 : (keysH (h ++ [(n, (⟨some p, [], nm⟩ : HNode))])).Nodup := by
    rw [keysH_append_sing, List.nodup_append]
    exact ⟨hwf.1, List.nodup_singleton n, by
      intro a ha2 hb2
      rw [List.mem_singleton] at hb2
      exact hn (hb2 ▸ ha2)⟩
  have hkeys : keysH (initWithParent h n nm p) = keysH h ++ [n] := by
    rw [ht, keysH_modifyH, keysH_append_sing]
  have hpar : ∀ j, parentOf (initWithParent h n nm p) j =
      if j = n then some p else parentOf h j := by
    intro j
    rw [ht, parentOf_modifyH_app _ p n j, hpar0 j]
  have hch : ∀ j, childrenOf (initWithParent h n nm p) j =
      if j = p then childrenOf h p ++ [n]
      else if j = n then [] else childrenOf h j := by
    intro j
    rw [ht, childrenOf_modifyH_app _ p n j hp0, hch0 j, hch0 p, if_neg hpn]
  have hcnt : ∀ c, totalCount (initWithParent h n nm p) c =
      if c = n then 1 else totalCount h c := by
    intro c
    rcases lookupH_isSome_of_mem_keys _ p hp0 with ⟨rp0, hlp0⟩
    have e1 := totalCount_modifyH_app _ p n rp0 c hnd0 hlp0
    have e2 : totalCount (h ++ [(n, (⟨some p, [], nm⟩ : HNode))]) c =
        totalCount h c := by
      rw [totalCount_append_sing]
      show totalCount h c + ([] : List Nat).count c = totalCount h c
      simp
    have e3 : (rp0.children ++ [n]).count c = rp0.children.count c + [n].count c :=
      List.count_append c rp0.children [n]
    rw [e2, e3] at e1
    rw [ht] at *
    by_cases hcn : c = n
    · rw [if_pos hcn]
      subst hcn
      have hpn2 : parentOf h c = none := by
        unfold parentOf
        rw [(lookupH_eq_none_iff h c).mpr hn]
      have h0 : totalCount h c = 0 := wf_count_zero h hwf c hpn2
      have h4 : [c].count c = 1 := by simp
      omega
    · rw [if_neg hcn]
      have h4 : [n].count c = 0 := List.count_eq_zero.mpr (by
        intro hm
        exact hcn (List.mem_singleton.mp hm))
      omega
  apply WFHeap_of_views
  · rw [hkeys, List.nodup_append]
    exact ⟨hwf.1, List.nodup_singleton n, by
      intro a ha2 hb2
      rw [List.mem_singleton] at hb2
      exact hn (hb2 ▸ ha2)⟩
  · intro k c hc
    rw [hch k] at hc
    rw [hpar c]
    by_cases hkp : k = p
    · rw [if_pos hkp] at hc
      rcases List.mem_append.mp hc with hcm | hcn2
      · have hck : c ∈ keysH h := children_sub_keys h hwf p c hcm
        have hcne : ¬ c = n := fun e => hn (e ▸ hck)
        rw [if_neg hcne, hkp]
        exact wf_childOK h hwf p c hcm
      · rw [if_pos (List.mem_singleton.mp hcn2), hkp]
    · rw [if_neg hkp] at hc
      by_cases hkn : k = n
      · rw [if_pos hkn] at hc
        exact absurd hc (List.not_mem_nil c)
      · rw [if_neg hkn] at hc
        have hck : c ∈ keysH h := children_sub_keys h hwf k c hc
        have hcne : ¬ c = n := fun e => hn (e ▸ hck)
        rw [if_neg hcne]
        exact wf_childOK h hwf k c hc
  · intro k hk2 q2 hq2
    rw [hpar k] at hq2
    rw [hch q2]
    by_cases hkn : k = n
    · rw [if_pos hkn] at hq2
      have hqp : p = q2 := Option.some_inj.mp hq2
      rw [if_pos hqp.symm]
      refine List.mem_append.mpr (Or.inr ?_)
      rw [hkn]
      exact List.mem_singleton.mpr rfl
    · rw [if_neg hkn] at hq2
      have hkh : k ∈ keysH h := by
        rw [hkeys] at hk2
        rcases List.mem_append.mp hk2 with hml | hmr
        · exact hml
        · exact absurd (List.mem_singleton.mp hmr) hkn
      have hkc : k ∈ childrenOf h q2 := wf_parentOK h hwf k q2 hkh hq2
      by_cases hqp : q2 = p
      · rw [if_pos hqp]
        rw [hqp] at hkc
        exact List.mem_append.mpr (Or.inl hkc)
      · rw [if_neg hqp]
        by_cases hqn : q2 = n
        · rw [if_pos hqn]
          have hniln : childrenOf h n = [] := by
            unfold childrenOf
            rw [(lookupH_eq_none_iff h n).mpr hn]
          rw [hqn, hniln] at hkc
          exact hkc
        · rw [if_neg hqn]
          exact hkc
  · intro k c hc
    rw [hcnt c]
    by_cases hcn : c = n
    · rw [if_pos hcn]
    · rw [if_neg hcn]
      rw [hch k] at hc
      by_cases hkp : k = p
      · rw [if_pos hkp] at hc
        rcases List.mem_append.mp hc with hcm | hcn2
        · exact wf_uniq h hwf p c hcm
        · exact absurd (List.mem_singleton.mp hcn2) hcn
      · rw [if_neg hkp] at hc
        by_cases hkn : k = n
        · rw [if_pos hkn] at hc
          exact absurd hc (List.not_mem_nil c)
        · rw [if_neg hkn] at hc
          exact wf_uniq h hwf k c hc

/-- The single-owner invariant is part of well-formedness. -/
theorem OwnInv_of_WFHeap (h : Heap) (hwf : WFHeap h) : OwnInv h :=
  ⟨hwf.2.1, hwf.2.2.2⟩

/-- Two-node heap in which node 1 is already a child of node 0: appending 1 to 0 again duplicates it (the detach is skipped because the old parent *is* the target). -/
def c1dupHeap : Heap := [(0, ⟨none, [1], none⟩), (1, ⟨some 0, [], none⟩)]

/-- Three-node heap in which two distinct roots share the name "X": `TreeNode.__cmp__` makes them compare `==`, so appending node 2 (a child of root 0) to root 1 skips the detach and duplicates it. -/
def c1nameHeap : Heap :=
  [(0, ⟨none, [2], some "X"⟩), (1, ⟨none, [], some "X"⟩), (2, ⟨some 0, [], none⟩)]

/-- Three-node heap with unique names used to instantiate the C1 theorem. -/
def c1exHeap : Heap := [(0, ⟨none, [1], some "root"⟩), (1, ⟨some 0, [], some "A"⟩), (2, ⟨none, [], none⟩)]

/-- C1: for the structural edits modelled here — `append` (whose `_to_self_child` detach-and-attach also underlies `extend`, `insert` and item assignment, not separately stated), the `Parent` property setter, and construction with a `Parent` keyword — performed on nodes of a well-formed heap, the single-owner invariant of the specification holds afterwards: each child's parent reference equals the node whose child list contains it, and every node occurs in at most one parent's child list with at most one occurrence; a node moved to a new parent is detached from its previous parent's child list. AMENDED with two provisos forced by the counterexample: (i) the appended node must not already be a child of the target, since `_to_self_child` skips the detach when the old parent is `None` or compares `==` to the target, so appending an existing child duplicates it; (ii) no two distinct nodes may share a non-`None` name, since the skip guard, `list.remove` and the child-containment checks compare nodes with `==`, which `TreeNode.__cmp__` defines by name — a name-equal old parent skips the detach and the append duplicates the child.  The constructed node's id must be fresh and its name similarly unused. -/
theorem c1_single_owner_amended (h : Heap) (s i x n : Nat) (nm : Option String)
    (p : Option Nat)
    (hwf : WFHeap h) (hu : UniqueNames h)
    (hs : s ∈ keysH h) (hi : i ∈ keysH h) (hni : i ∉ childrenOf h s)
    (hx : x ∈ keysH h) (hp : ∀ q, p = some q → q ∈ keysH h)
    (hn : n ∉ keysH h) (hnm : ∀ kv ∈ h, kv.2.name = nm → nm = none) :
    (WFHeap (appendH h s i) ∧ OwnInv (appendH h s i)) ∧
    (WFHeap (setParentH h x p) ∧ OwnInv (setParentH h x p)) ∧
    (WFHeap (initWithParent h n nm s) ∧ OwnInv (initWithParent h n nm s)) := by
  have h1 := wf_appendH h s i hwf hu hs hi hni
  have h2 : WFHeap (setParentH h x p) := by
    cases p with
    | none => exact wf_setParentH_none h x hwf hx
    | some q => exact wf_setParentH_some h x q hwf hu hx (hp q rfl)
  have h3 := wf_initWithParent h n nm s hwf hs hn hnm
  exact ⟨⟨h1, OwnInv_of_WFHeap _ h1⟩, ⟨h2, OwnInv_of_WFHeap _ h2⟩,
    ⟨h3, OwnInv_of_WFHeap _ h3⟩⟩

/-- Counterexample to the unamended C1, refuting it twice over: in the well-formed heap `c1dupHeap` node 1 is already the child of node 0 and `append(0, 1)` leaves the duplicate `[1, 1]` in node 0's child list; and in the well-formed heap `c1nameHeap` the target root 1 merely shares the name "X" with node 2's actual parent 0, yet `append(1, 2)` — whose moved node 2 is *not* already a child of the target — still skips the `==`-based detach and leaves node 2 owned by both roots.  Both runs violate the single-owner invariant the claim asserts for every append. -/
theorem c1_counterexample :
    (WFHeap c1dupHeap ∧ ¬ OwnInv (appendH c1dupHeap 0 1)) ∧
    (WFHeap c1nameHeap ∧ (2 ∉ childrenOf c1nameHeap 1) ∧
      ¬ OwnInv (appendH c1nameHeap 1 2)) := by
  decide

/-- Closed instance of the C1 theorem on a concrete uniquely-named heap: appending a fresh node, moving a node to a new parent, and constructing a named node under the root all preserve the invariant. -/
theorem c1_witness :
    (WFHeap (appendH c1exHeap 0 2) ∧ OwnInv (appendH c1exHeap 0 2)) ∧
    (WFHeap (setParentH c1exHeap 1 (some 2)) ∧ OwnInv (setParentH c1exHeap 1 (some 2))) ∧
    (WFHeap (initWithParent c1exHeap 3 (some "B") 0) ∧
      OwnInv (initWithParent c1exHeap 3 (some "B") 0)) :=
  c1_single_owner_amended c1exHeap 0 2 1 3 (some "B") (some 2) (by decide) (by decide)
    (by decide) (by decide) (by decide) (by decide)
    (by intro q hq; cases hq; decide) (by decide) (by decide)
